import Mathlib

/-!
Banshee path tracer: geometric predicates and BSDF formulas.

A shallow embedding of `math/bbox.h`, `math/mathutils.h`, `bsdf/microfacet.h`,
`material/phong.h`, the lights, `renderer/imagerenderer.cpp` and parts of
`Standalone/main.cpp`.  `float` is read in two ways.  In the exact reading every
definition is generic in a linearly ordered field `α` (instantiated at `ℚ` for
evaluation and at `ℝ` where `sqrt` and `powf` are needed).  In the binary32
reading (`f32`, definitions with the suffix `_f32`) every operation rounds to
the nearest float, ties to even, with infinities and NaN.  Library functions
whose value is not rational (`sqrt`, `powf`) and collaborators whose source is
not available (Fresnel term, component BSDFs) are explicit function parameters.
-/

namespace Banshee

variable {α : Type} [LinearOrderedField α]

/-! ## Vectors (`float2.h`, `float3.h`, `ray.h`) -/

/-- Modelled from the spec: `float2.h` is absent; a pair of floats `x`, `y`
(for a ray, `t.x` and `t.y` are the ends of its parametric interval). -/
structure float2 (α : Type) where
  x : α
  y : α

/-- Modelled from the spec: `float3.h` is absent; a vector of three floats
`x`, `y`, `z` (the unused padding component `w` is left out). -/
@[ext]
structure float3 (α : Type) where
  x : α
  y : α
  z : α

/-- Modelled from the spec: `float3::operator[]`, component `i` of a vector
(`0` is `x`, `1` is `y`, `2` is `z`). -/
def float3.idx (v : float3 α) (i : Nat) : α :=
  match i with
  | 0 => v.x
  | 1 => v.y
  | _ => v.z

/-- Modelled from the spec: `operator+` of `float3.h`, componentwise sum. -/
def float3.add (a b : float3 α) : float3 α := ⟨a.x + b.x, a.y + b.y, a.z + b.z⟩

/-- Modelled from the spec: `operator-` of `float3.h`, componentwise difference. -/
def float3.sub (a b : float3 α) : float3 α := ⟨a.x - b.x, a.y - b.y, a.z - b.z⟩

/-- Modelled from the spec: unary `operator-` of `float3.h`. -/
def float3.neg (a : float3 α) : float3 α := ⟨-a.x, -a.y, -a.z⟩

/-- Modelled from the spec: `operator*(float, float3)` of `float3.h`, scaling. -/
def float3.scale (c : α) (a : float3 α) : float3 α := ⟨c * a.x, c * a.y, c * a.z⟩

/-- Modelled from the spec: `operator*(float3, float3)` of `float3.h`,
componentwise product (used to tint a BSDF value by a colour). -/
def float3.mul (a b : float3 α) : float3 α := ⟨a.x * b.x, a.y * b.y, a.z * b.z⟩

/-- Modelled from the spec: `dot` of `float3.h`. -/
def dot (a b : float3 α) : α := a.x * b.x + a.y * b.y + a.z * b.z

/-- Modelled from the spec: `float3::sqnorm`, the squared length. -/
def float3.sqnorm (a : float3 α) : α := a.x * a.x + a.y * a.y + a.z * a.z

/-- Modelled from the spec: `normalize` of `float3.h`, the vector divided by
its length; `sqrt` is the square root function of the C library. -/
def normalize (sqrt : α → α) (v : float3 α) : float3 α :=
  float3.scale (1 / sqrt v.sqnorm) v

/-- The result of `std::min(a, b)`: `b` when `b < a`, else `a`. -/
def stdmin (a b : α) : α := if b < a then b else a

/-- The result of `std::max(a, b)`: `b` when `a < b`, else `a`. -/
def stdmax (a b : α) : α := if a < b then b else a

/-- Modelled from the spec: `vmin` of `float3.h`, componentwise `std::min`. -/
def vmin (a b : float3 α) : float3 α := ⟨stdmin a.x b.x, stdmin a.y b.y, stdmin a.z b.z⟩

/-- Modelled from the spec: `vmax` of `float3.h`, componentwise `std::max`. -/
def vmax (a b : float3 α) : float3 α := ⟨stdmax a.x b.x, stdmax a.y b.y, stdmax a.z b.z⟩

/-- Modelled from the spec: `ray.h` is absent; origin `o`, direction `d` and
the parametric interval `t = (t.x, t.y)`. -/
structure ray (α : Type) where
  o : float3 α
  d : float3 α
  t : float2 α

/-! ## Bounding boxes (`math/bbox.h`) -/

/-- The class `bbox`: the two corners `pmin` and `pmax`. -/
@[ext]
structure bbox (α : Type) where
  pmin : float3 α
  pmax : float3 α

/-- The constant `std::numeric_limits<float>::max()`, `(2^24 - 1) * 2^104`. -/
def FLT_MAX : α := 340282346638528859811704183484516925440

/-- The default constructor `bbox::bbox()`: `pmin = FLT_MAX`, `pmax = -FLT_MAX`
in every component. -/
def bbox.empty : bbox α :=
  { pmin := ⟨FLT_MAX, FLT_MAX, FLT_MAX⟩
    pmax := ⟨-FLT_MAX, -FLT_MAX, -FLT_MAX⟩ }

/-- The constructor `bbox::bbox(p1, p2)`. -/
def bbox.ofPoints (p1 p2 : float3 α) : bbox α :=
  { pmin := vmin p1 p2, pmax := vmax p1 p2 }

/-- The method `bbox::operator[]`: `*(&pmin + i)`, so `0` is `pmin` and `1` is
`pmax` (other indices read outside the object and are not modelled). -/
def bbox.idx (b : bbox α) (i : Int) : float3 α := if i = 0 then b.pmin else b.pmax

/-- The method `bbox::center`. -/
def bbox.center (b : bbox α) : float3 α := float3.scale (1 / 2) (b.pmax.add b.pmin)

/-- The method `bbox::extents`. -/
def bbox.extents (b : bbox α) : float3 α := b.pmax.sub b.pmin

/-- The method `bbox::contains(float3 const&)` in exact arithmetic; the binary32
evaluation, where the centre and the radius are rounded, is `bbox.contains_f32`. -/
def bbox.contains (b : bbox α) (p : float3 α) : Bool :=
  let radius := float3.scale (1 / 2) b.extents
  decide (|b.center.x - p.x| ≤ radius.x) &&
  decide (|b.center.y - p.y| ≤ radius.y) &&
  decide (|b.center.z - p.z| ≤ radius.z)

/-- The function `bboxunion`. -/
def bboxunion (box1 box2 : bbox α) : bbox α :=
  { pmin := vmin box1.pmin box2.pmin
    pmax := vmax box1.pmax box2.pmax }

/-- The function `intersection`. -/
def intersection (box1 box2 : bbox α) : bbox α :=
  bbox.ofPoints (vmax box1.pmin box2.pmin) (vmin box1.pmax box2.pmax)

/-- The function `intersects(bbox const&, bbox const&)`, line by line; the
third conjunct compares `b2c.x` with `b1c.z`, as the source does. -/
def intersects_bbox (box1 box2 : bbox α) : Bool :=
  let b1c := box1.center
  let b1r := float3.scale (1 / 2) box1.extents
  let b2c := box2.center
  let b2r := float3.scale (1 / 2) box2.extents
  decide (|b2c.x - b1c.x| < b1r.x + b2r.x) &&
  decide (|b2c.y - b1c.y| < b1r.y + b2r.y) &&
  decide (|b2c.x - b1c.z| < b1r.z + b2r.z)

/-- The componentwise disjoint-axis test on two boxes, as the specification words
it: on every axis the distance of the centers is below the sum of the half-extents. -/
def disjoint_axis_test (box1 box2 : bbox α) : Prop :=
  |box2.center.x - box1.center.x| < box1.extents.x / 2 + box2.extents.x / 2 ∧
  |box2.center.y - box1.center.y| < box1.extents.y / 2 + box2.extents.y / 2 ∧
  |box2.center.z - box1.center.z| < box1.extents.z / 2 + box2.extents.z / 2

/-- The function `contains(bbox const&, bbox const&)`. -/
def contains (box1 box2 : bbox α) : Bool :=
  box1.contains box2.pmin && box1.contains box2.pmax

/-- The value `tn` of iteration `i` of the slab loop, before the swap. -/
def slab_tn (r : ray α) (invrd : float3 α) (box : bbox α) (i : Nat) : α :=
  (box.pmin.idx i - r.o.idx i) * invrd.idx i

/-- The value `tf` of iteration `i` of the slab loop, before the swap. -/
def slab_tf (r : ray α) (invrd : float3 α) (box : bbox α) (i : Nat) : α :=
  (box.pmax.idx i - r.o.idx i) * invrd.idx i

/-- The body of the `for` loop of `intersects(ray&, float3 const&, bbox const&)`
run over the listed axes from the interval `tt`: swap `tn`, `tf` when
`tn > tf`, tighten `tt`, and leave with `false` as soon as `tt.x > tt.y`. -/
def intersects_ray_loop (r : ray α) (invrd : float3 α) (box : bbox α) :
    List Nat → float2 α → Bool
  | [], _ => true
  | i :: rest, tt =>
    let tn := slab_tn r invrd box i
    let tf := slab_tf r invrd box i
    let tn1 := if tn > tf then tf else tn
    let tf1 := if tn > tf then tn else tf
    let ttx := if tn1 > tt.x then tn1 else tt.x
    let tty := if tf1 < tt.y then tf1 else tt.y
    if ttx > tty then false else intersects_ray_loop r invrd box rest ⟨ttx, tty⟩

/-- The function `intersects(ray&, float3 const&, bbox const&)`: the loop over
`i = 0, 1, 2` started from `tt = r.t`. -/
def intersects_ray (r : ray α) (invrd : float3 α) (box : bbox α) : Bool :=
  intersects_ray_loop r invrd box [0, 1, 2] r.t

/-- The point `o + t * d` of a ray. -/
def ray.at (r : ray α) (t : α) : float3 α := r.o.add (float3.scale t r.d)

/-- Membership of a point in the closed box `[pmin, pmax]`. -/
def bbox.inside (b : bbox α) (p : float3 α) : Prop :=
  (b.pmin.x ≤ p.x ∧ p.x ≤ b.pmax.x) ∧ (b.pmin.y ≤ p.y ∧ p.y ≤ b.pmax.y) ∧
  (b.pmin.z ≤ p.z ∧ p.z ≤ b.pmax.z)

/-- A box is well formed when `pmin ≤ pmax` in every component. -/
def bbox.valid (b : bbox α) : Prop :=
  b.pmin.x ≤ b.pmax.x ∧ b.pmin.y ≤ b.pmax.y ∧ b.pmin.z ≤ b.pmax.z

/-- The componentwise reciprocal of a direction, the `invrd` the callers pass. -/
def float3.recip (d : float3 α) : float3 α := ⟨1 / d.x, 1 / d.y, 1 / d.z⟩

/-- The parameter at which a ray enters the slab of axis `i`: the smaller of
the two plane parameters. -/
def slab_entry (r : ray α) (invrd : float3 α) (box : bbox α) (i : Nat) : α :=
  min (slab_tn r invrd box i) (slab_tf r invrd box i)

/-- The parameter at which a ray leaves the slab of axis `i`: the larger of
the two plane parameters. -/
def slab_exit (r : ray α) (invrd : float3 α) (box : bbox α) (i : Nat) : α :=
  max (slab_tn r invrd box i) (slab_tf r invrd box i)

/-- The constant `PI` of `mathutils.h`, the decimal literal `3.14159265358979323846`. -/
def PI : α := 314159265358979323846 / 100000000000000000000

/-- Modelled from the spec: `operator*(float3, float)` of `float3.h`, a
vector scaled by a number on the right. -/
def float3.muls (a : float3 α) (c : α) : float3 α := ⟨a.x * c, a.y * c, a.z * c⟩

/-- Modelled from the spec: `primitive.h` is absent; the fields of
`Primitive::Intersection` the BSDFs read: the normal `n`, the tangent basis
`dpdu`, `dpdv` and the texture coordinates `uv`. -/
structure Intersection (α : Type) where
  n : float3 α
  dpdu : float3 α
  dpdv : float3 α
  uv : float2 α

/-- The interface `MicrofacetDistribution`: the virtual methods `D` and `Pdf`. -/
structure MicrofacetDistribution (α : Type) where
  D : float3 α → float3 α → α
  Pdf : Intersection α → float3 α → float3 α → α

/-- The class `Microfacet`: the index of refraction `eta_`, the Fresnel
component (its method `Evaluate(etai, etat, ndotwi)`; `fresnel.h` is absent) and
the microfacet distribution `md_`. -/
structure Microfacet (α : Type) where
  eta_ : α
  fresnel_ : α → α → α → α
  md_ : MicrofacetDistribution α

/-- The method `Microfacet::G`, the geometric factor. -/
def Microfacet.G (wi wo wh n : float3 α) : α :=
  let ndotwh := |dot n wh|
  let ndotwo := |dot n wo|
  let ndotwi := |dot n wi|
  let wodotwh := |dot wo wh|
  stdmin 1 (stdmin (2 * ndotwh * ndotwo / wodotwh) (2 * ndotwh * ndotwi / wodotwh))

/-- The copy of the intersection record with `n`, `dpdu`, `dpdv` negated. -/
def Intersection.flip (isect : Intersection α) : Intersection α :=
  { isect with n := isect.n.neg, dpdu := isect.dpdu.neg, dpdv := isect.dpdv.neg }

/-- The part of `Microfacet::Evaluate` after the normal has been oriented: the
zenith cosines, the early return of zero, the halfway vector, the Fresnel term
and the Torrance-Sparrow quotient; `sqrt` is the square root of `normalize`. -/
def Microfacet.EvaluateLocal (sqrt : α → α) (m : Microfacet α) (n wi wo : float3 α) :
    float3 α :=
  let cos_theta_o := dot n wo
  let cos_theta_i := dot n wi
  if cos_theta_i = 0 ∨ cos_theta_o = 0 then ⟨0, 0, 0⟩
  else
    let wh := normalize sqrt (wi.add wo)
    let fresnel := m.fresnel_ 1 m.eta_ (dot wi wh)
    float3.muls ⟨1, 1, 1⟩
      (m.md_.D wh n * Microfacet.G wi wo wh n * fresnel / (4 * cos_theta_i * cos_theta_o))

/-- The method `Microfacet::Evaluate`: the normal is negated when
`dot(wi, n) < 0` (the tangents `s`, `t` negated with it are not read
afterwards), then the value is computed with that normal. -/
def Microfacet.Evaluate (sqrt : α → α) (m : Microfacet α) (isect : Intersection α)
    (wi wo : float3 α) : float3 α :=
  let n := if dot wi isect.n < 0 then isect.n.neg else isect.n
  Microfacet.EvaluateLocal sqrt m n wi wo

/-- The method `Microfacet::Pdf`. -/
def Microfacet.Pdf (m : Microfacet α) (isect : Intersection α) (wi wo : float3 α) : α :=
  let isectlocal := if dot isect.n wi < 0 then isect.flip else isect
  m.md_.Pdf isectlocal wi wo

/-- The method `BlinnDistribution::D` for the exponent `e`; `powf` is the power
function of the C library. -/
def BlinnDistribution.D (powf : α → α → α) (e : α) (w n : float3 α) : α :=
  let ndotw := |dot n w|
  (1 / (2 * PI)) * (e + 2) * powf ndotw e

/-- The method `BlinnDistribution::Pdf` for the exponent `e`. -/
def BlinnDistribution.Pdf (sqrt : α → α) (powf : α → α → α) (e : α)
    (isect : Intersection α) (wi wo : float3 α) : α :=
  let wh := normalize sqrt (wi.add wo)
  let ndotwh := dot isect.n wh
  ((e + 1) / powf ndotwh e) / (2 * PI * 4 * dot wo wh)

/-- The class `BlinnDistribution` as a `MicrofacetDistribution`. -/
def BlinnDistribution (sqrt : α → α) (powf : α → α → α) (e : α) : MicrofacetDistribution α :=
  { D := BlinnDistribution.D powf e
    Pdf := BlinnDistribution.Pdf sqrt powf e }

/-! ## Phong material (`material/phong.h`) -/

/-- The class `Phong`.  The members are the colours `diffuse_`, `specular_`,
the index `eta_`, whether the two map names are empty, and the collaborators
whose source is absent: the Fresnel component, the method `Evaluate` of the
diffuse and of the specular BSDF, the texture lookup
`texturesys_.Sample(diffusemap_, uv, float2(0,0))` and `MapNormal(normalmap_, _)`. -/
structure Phong (α : Type) where
  eta_ : α
  diffuse_ : float3 α
  specular_ : float3 α
  diffusemap_empty : Bool
  normalmap_empty : Bool
  fresnel_ : α → α → α → α
  diffusebsdf_ : Intersection α → float3 α → float3 α → float3 α
  specularbsdf_ : Intersection α → float3 α → float3 α → float3 α
  texture_sample : float2 α → float3 α
  MapNormal : Intersection α → Intersection α

/-- The method `Phong::Evaluate`.  The value `rnd` is what the call
`rand_float()` inside the method returns. -/
def Phong.Evaluate (m : Phong α) (rnd : α) (isect : Intersection α)
    (wi wo : float3 α) : float3 α :=
  let ndotwi := dot wi isect.n
  let isectlocal1 := if !m.normalmap_empty then m.MapNormal isect else isect
  let isectlocal := if !m.normalmap_empty then m.MapNormal isectlocal1 else isectlocal1
  let kd := if m.diffusemap_empty then m.diffuse_ else m.texture_sample isect.uv
  let ks := m.specular_
  let r := m.fresnel_ 1 m.eta_ ndotwi
  if rnd < r then ks.mul (m.specularbsdf_ isectlocal wi wo)
  else kd.mul (m.diffusebsdf_ isectlocal wi wo)

/-- The deterministic weighted sum the specification asks of `Phong::Evaluate`:
`r * ks * specular + (1 - r) * kd * diffuse` with `r` the Fresnel reflectance. -/
def Phong.weighted_sum (m : Phong α) (isect : Intersection α) (wi wo : float3 α) : float3 α :=
  let isectlocal1 := if !m.normalmap_empty then m.MapNormal isect else isect
  let isectlocal := if !m.normalmap_empty then m.MapNormal isectlocal1 else isectlocal1
  let kd := if m.diffusemap_empty then m.diffuse_ else m.texture_sample isect.uv
  let r := m.fresnel_ 1 m.eta_ (dot wi isect.n)
  (float3.scale r (m.specular_.mul (m.specularbsdf_ isectlocal wi wo))).add
    (float3.scale (1 - r) (kd.mul (m.diffusebsdf_ isectlocal wi wo)))

/-! ## Multiple importance sampling (`math/mathutils.h`) -/

/-- The function `PowerHeuristic` in exact arithmetic; the sample counts are
`int`.  The binary32 evaluation is `PowerHeuristic_f32`. -/
def PowerHeuristic (nf : Int) (fpdf : α) (ng : Int) (gpdf : α) : α :=
  let f := (nf : α) * fpdf
  let g := (ng : α) * gpdf
  (f * f) / (f * f + g * g)


/-! ## Hemisphere mapping (`math/mathutils.h`) -/

/-- Modelled from the spec: `cross` of `float3.h`, the vector product. -/
def cross (a b : float3 α) : float3 α :=
  ⟨a.y * b.z - a.z * b.y, a.z * b.x - a.x * b.z, a.x * b.y - a.y * b.x⟩

/-- The function `orthovector`; `sqrt` is the square root of the C library. -/
def orthovector (sqrt : α → α) (n : float3 α) : float3 α :=
  if |n.z| > 707106781186547524401 / 1000000000000000000000 then
    let k := sqrt (n.y * n.y + n.z * n.z)
    ⟨0, -n.z / k, n.y / k⟩
  else
    let k := sqrt (n.x * n.x + n.y * n.y)
    ⟨-n.y / k, n.x / k, 0⟩

/-- The three-argument function `map_to_hemisphere(n, s, e)`; `sqrt`, `sin`,
`cos` and `powf` are the functions of the C library. -/
def map_to_hemisphere (sqrt sin cos : α → α) (powf : α → α → α)
    (n : float3 α) (s : float2 α) (e : α) : float3 α :=
  let u0 := orthovector sqrt n
  let v := cross u0 n
  let u := cross n v
  let sinpsi := sin (2 * PI * s.x)
  let cospsi := cos (2 * PI * s.x)
  let costheta := powf (1 - s.y) (1 / (e + 1))
  let sintheta := sqrt (1 - costheta * costheta)
  normalize sqrt
    ((((u.muls sintheta).muls cospsi).add ((v.muls sintheta).muls sinpsi)).add
      (n.muls costheta))

/-! ## Lights (`light/pointlight.cpp`, `light/environment_light.cpp`) -/

/-- Modelled from the spec: `shapebundle.h` is absent; the fields of
`ShapeBundle::Hit` the lights read: the hit point `p` and the normal `n`. -/
structure Hit (α : Type) where
  p : float3 α
  n : float3 α

/-- What a light's `GetSample` produces: the returned radiance and the two
output parameters `d` and `pdf`. -/
structure LightSample (α : Type) where
  value : float3 α
  d : float3 α
  pdf : α

/-- The class `PointLight`: the position `p_` and the emissive power `e_`. -/
structure PointLight (α : Type) where
  p_ : float3 α
  e_ : float3 α

/-- The method `PointLight::GetSample`. -/
def PointLight.GetSample (l : PointLight α) (hit : Hit α) (_sample : float2 α) :
    LightSample α :=
  let d := l.p_.sub hit.p
  let pdf := 1
  let d2inv := 1 / d.sqnorm
  { value := l.e_.muls d2inv, d := d, pdf := pdf }

/-- The class `EnvironmentLight`.  The member `radiance` stands for lines 20 to 37
of `GetSample`, whose collaborators are absent: the texture fetched at the
spherical coordinates of the unit direction, gamma corrected and scaled. -/
structure EnvironmentLight (α : Type) where
  radiance : float3 α → float3 α

/-- The method `EnvironmentLight::GetSample`: the direction is drawn with
`map_to_hemisphere(hit.n, sample, 1.f)`, the density is taken from it, and the
output direction is then multiplied by `10000000.f`. -/
def EnvironmentLight.GetSample (sqrt sin cos : α → α) (powf : α → α → α)
    (l : EnvironmentLight α) (hit : Hit α) (sample : float2 α) : LightSample α :=
  let invpi := 1 / PI
  let d := map_to_hemisphere sqrt sin cos powf hit.n sample 1
  let pdf := dot hit.n d * invpi
  { value := l.radiance d, d := d.muls 10000000, pdf := pdf }

/-- The method `EnvironmentLight::GetPdf`. -/
def EnvironmentLight.GetPdf (sqrt : α → α) (hit : Hit α) (w : float3 α) : α :=
  let invpi := 1 / PI
  dot hit.n (normalize sqrt w) * invpi


/-! ## Image renderer (`renderer/imagerenderer.cpp`) -/

/-- Modelled from the spec: `int2.h` is absent; a pair of `int`s `x`, `y`.
Integers are unbounded in this model (signed overflow is undefined in the
source language). -/
structure int2 where
  x : Int
  y : Int
deriving DecidableEq

/-- The calls the renderer makes on its collaborators, in program order:
`imgplane_.Prepare()`, `imgplane_.Finalize()`, `imgsampler_->Sample2D()`,
`cam.GenerateRay`, `tracer_->GetLi`, `imgplane_.AddSample(int2(x,y), _)`, the
three `Reset()` calls, and `progress_->Report((float)donesamples/totalsamples)`
recorded with its two integer operands. -/
inductive RenderEvent where
  | Prepare
  | Finalize
  | Sample2D
  | GenerateRay
  | GetLi
  | AddSample (x y : Int)
  | ResetImage
  | ResetLight
  | ResetBrdf
  | Report (donesamples totalsamples : Int)
deriving DecidableEq

/-- The state a render loop carries: the counter `donesamples` and the calls
made so far. -/
structure RenderState where
  donesamples : Int
  events : List RenderEvent

/-- The values taken by the counter of `for (int i = lo; i < hi; ++i)`. -/
def int_range (lo hi : Int) : List Int :=
  (List.range (hi - lo).toNat).map (fun (k : Nat) => lo + (k : Int))

/-- The body of the sample loop, the same in `Render` and `RenderTile`: draw a
sample, generate the ray, estimate the radiance and add it to pixel `(x, y)`. -/
def Render_sample (x y : Int) (events : List RenderEvent) (_s : Int) : List RenderEvent :=
  events ++ [RenderEvent.Sample2D, RenderEvent.GenerateRay, RenderEvent.GetLi,
    RenderEvent.AddSample x y]

/-- The body of the pixel loop of `ImageRenderer::Render` for the sample count
`N = imgsampler_->num_samples()`: the sample loop, the three resets, the
progress counter and the report when a reporter is present. -/
def Render_pixel (N totalsamples : Int) (progress : Bool) (y : Int) (st : RenderState)
    (x : Int) : RenderState :=
  let ev1 := (int_range 0 N).foldl (Render_sample x y) st.events
  let ev2 := ev1 ++ [RenderEvent.ResetImage, RenderEvent.ResetLight, RenderEvent.ResetBrdf]
  let donesamples := st.donesamples + N
  let ev3 := if progress then ev2 ++ [RenderEvent.Report donesamples totalsamples] else ev2
  { donesamples := donesamples, events := ev3 }

/-- The method `ImageRenderer::Render` for the resolution `imgres`, the sample
count `N` and the presence of a progress reporter: the calls it makes. -/
def Render (imgres : int2) (N : Int) (progress : Bool) : List RenderEvent :=
  let totalsamples := N * imgres.y * imgres.x
  let st0 : RenderState := { donesamples := 0, events := [RenderEvent.Prepare] }
  let st := (int_range 0 imgres.y).foldl
    (fun st y => (int_range 0 imgres.x).foldl (Render_pixel N totalsamples progress y) st) st0
  st.events ++ [RenderEvent.Finalize]

/-- The body of the pixel loop of `ImageRenderer::RenderTile`: the sample loop,
the progress counter and the report when a reporter is present. -/
def RenderTile_pixel (N totalsamples : Int) (progress : Bool) (y : Int) (st : RenderState)
    (x : Int) : RenderState :=
  let ev1 := (int_range 0 N).foldl (Render_sample x y) st.events
  let donesamples := st.donesamples + N
  let ev2 := if progress then ev1 ++ [RenderEvent.Report donesamples totalsamples] else ev1
  { donesamples := donesamples, events := ev2 }

/-- The method `ImageRenderer::RenderTile(world, start, dim)`: the calls it makes. -/
def RenderTile (start dim : int2) (N : Int) (progress : Bool) : List RenderEvent :=
  let totalsamples := N * dim.y * dim.x
  let st0 : RenderState := { donesamples := 0, events := [] }
  let st := (int_range start.y (start.y + dim.y)).foldl
    (fun st y => (int_range start.x (start.x + dim.x)).foldl
      (RenderTile_pixel N totalsamples progress y) st) st0
  st.events

/-- The operands of the `Report` calls of a run, in order. -/
def reports : List RenderEvent → List (Int × Int)
  | [] => []
  | RenderEvent.Report d t :: rest => (d, t) :: reports rest
  | _ :: rest => reports rest

/-- The fractions `(float)donesamples/totalsamples` reported by a run, in order,
with the quotient taken in exact arithmetic; the binary32 quotient is
`reported_fractions_f32`. -/
def reported_fractions (events : List RenderEvent) : List α :=
  (reports events).map (fun p => (p.1 : α) / (p.2 : α))

/-- Whether a call is one of the three sampler resets. -/
def RenderEvent.isReset : RenderEvent → Bool
  | RenderEvent.ResetImage => true
  | RenderEvent.ResetLight => true
  | RenderEvent.ResetBrdf => true
  | _ => false

/-! ## Transforms (`math/mathutils.h`) -/

/-- Modelled from the spec: `matrix.h` is absent; a 4x4 matrix of floats with
the entries `m00` to `m33`, row index first. -/
@[ext]
structure matrix (α : Type) where
  m00 : α
  m01 : α
  m02 : α
  m03 : α
  m10 : α
  m11 : α
  m12 : α
  m13 : α
  m20 : α
  m21 : α
  m22 : α
  m23 : α
  m30 : α
  m31 : α
  m32 : α
  m33 : α

/-- Modelled from the spec: the identity matrix. -/
def matrix.identity : matrix α :=
  ⟨1, 0, 0, 0, 0, 1, 0, 0, 0, 0, 1, 0, 0, 0, 0, 1⟩

/-- Modelled from the spec: `operator*(matrix, matrix)`, the matrix product. -/
def matrix.mul (a b : matrix α) : matrix α :=
  ⟨a.m00 * b.m00 + a.m01 * b.m10 + a.m02 * b.m20 + a.m03 * b.m30,
   a.m00 * b.m01 + a.m01 * b.m11 + a.m02 * b.m21 + a.m03 * b.m31,
   a.m00 * b.m02 + a.m01 * b.m12 + a.m02 * b.m22 + a.m03 * b.m32,
   a.m00 * b.m03 + a.m01 * b.m13 + a.m02 * b.m23 + a.m03 * b.m33,
   a.m10 * b.m00 + a.m11 * b.m10 + a.m12 * b.m20 + a.m13 * b.m30,
   a.m10 * b.m01 + a.m11 * b.m11 + a.m12 * b.m21 + a.m13 * b.m31,
   a.m10 * b.m02 + a.m11 * b.m12 + a.m12 * b.m22 + a.m13 * b.m32,
   a.m10 * b.m03 + a.m11 * b.m13 + a.m12 * b.m23 + a.m13 * b.m33,
   a.m20 * b.m00 + a.m21 * b.m10 + a.m22 * b.m20 + a.m23 * b.m30,
   a.m20 * b.m01 + a.m21 * b.m11 + a.m22 * b.m21 + a.m23 * b.m31,
   a.m20 * b.m02 + a.m21 * b.m12 + a.m22 * b.m22 + a.m23 * b.m32,
   a.m20 * b.m03 + a.m21 * b.m13 + a.m22 * b.m23 + a.m23 * b.m33,
   a.m30 * b.m00 + a.m31 * b.m10 + a.m32 * b.m20 + a.m33 * b.m30,
   a.m30 * b.m01 + a.m31 * b.m11 + a.m32 * b.m21 + a.m33 * b.m31,
   a.m30 * b.m02 + a.m31 * b.m12 + a.m32 * b.m22 + a.m33 * b.m32,
   a.m30 * b.m03 + a.m31 * b.m13 + a.m32 * b.m23 + a.m33 * b.m33⟩

/-- Modelled from the spec: `matrix::transpose`. -/
def matrix.transpose (a : matrix α) : matrix α :=
  ⟨a.m00, a.m10, a.m20, a.m30, a.m01, a.m11, a.m21, a.m31,
   a.m02, a.m12, a.m22, a.m32, a.m03, a.m13, a.m23, a.m33⟩

/-- Modelled from the spec: `operator*(matrix, float3)`, the upper-left 3x3
block applied to the three components of a vector (the translation column is
added separately by `transform_point`). -/
def matrix.mulv (m : matrix α) (v : float3 α) : float3 α :=
  ⟨m.m00 * v.x + m.m01 * v.y + m.m02 * v.z,
   m.m10 * v.x + m.m11 * v.y + m.m12 * v.z,
   m.m20 * v.x + m.m21 * v.y + m.m22 * v.z⟩

/-- A matrix is affine when its bottom row is `(0, 0, 0, 1)`. -/
def matrix.affine (m : matrix α) : Prop :=
  m.m30 = 0 ∧ m.m31 = 0 ∧ m.m32 = 0 ∧ m.m33 = 1

/-- The function `transform_point`. -/
def transform_point (p : float3 α) (m : matrix α) : float3 α :=
  let res := m.mulv p
  ⟨res.x + m.m03, res.y + m.m13, res.z + m.m23⟩

/-- The function `transform_vector`. -/
def transform_vector (v : float3 α) (m : matrix α) : float3 α := m.mulv v

/-- The function `transform_normal`; the caller passes the inverted matrix. -/
def transform_normal (n : float3 α) (minv : matrix α) : float3 α := minv.transpose.mulv n

/-- The function `transform_ray`. -/
def transform_ray (r : ray α) (m : matrix α) : ray α :=
  ⟨transform_point r.o m, transform_vector r.d m, r.t⟩

/-! ## Clamping and the buffer image plane (`math/mathutils.h`, `Standalone/main.cpp`) -/

/-- The function `clamp`, whose `int` and `float` overloads have the same body
`x < a ? a : (x > b ? b : x)`. -/
def clamp {β : Type} [LinearOrder β] (x a b : β) : β :=
  if x < a then a else if x > b then b else x

/-- The conversion `(int)` of a float: truncation toward zero. -/
def float_to_int [FloorRing α] (q : α) : Int := if 0 ≤ q then ⌊q⌋ else -⌊-q⌋

/-- Modelled from the spec: an element of the image buffer, a `float3` together
with its fourth component `w` (`float3.h` is absent), which holds the weight. -/
@[ext]
structure float3w (α : Type) where
  x : α
  y : α
  z : α
  w : α

/-- Modelled from the spec: `float3::operator+=` on buffer elements, taken to
add all four components. -/
def float3w.add (a b : float3w α) : float3w α := ⟨a.x + b.x, a.y + b.y, a.z + b.z, a.w + b.w⟩

/-- The position `imgpos` computed by `BufferImagePlane::WriteSample`: each
coordinate converted to float, clamped to `[0, res - 1]` and converted back,
with the conversions and the subtraction taken in exact arithmetic; the
binary32 evaluation is `BufferImagePlane.imgpos_f32`. -/
def BufferImagePlane.imgpos (α : Type) [LinearOrderedField α] [FloorRing α]
    (res pos : int2) : int2 :=
  { x := float_to_int (clamp (pos.x : α) 0 ((res.x : α) - 1))
    y := float_to_int (clamp (pos.y : α) 0 ((res.y : α) - 1)) }

/-- The buffer index `res.x * (res.y - 1 - imgpos.y) + imgpos.x`. -/
def BufferImagePlane.index (res imgpos : int2) : Int :=
  res.x * (res.y - 1 - imgpos.y) + imgpos.x

/-- The two-argument function `map_to_hemisphere(n, s)`; `sqrt`, `sin` and `cos`
are the functions of the C library. -/
def map_to_hemisphere2 (sqrt sin cos : α → α) (n : float3 α) (s : float2 α) : float3 α :=
  let u0 := orthovector sqrt n
  let v := cross u0 n
  let u := cross n v
  let sinpsi := sin (2 * PI * s.x)
  let cospsi := cos (2 * PI * s.x)
  let costheta := cos (PI * s.y)
  let sintheta := sin (PI * s.y)
  normalize sqrt
    ((((u.muls sintheta).muls cospsi).add ((v.muls sintheta).muls sinpsi)).add
      (n.muls costheta))

/-- The method `bbox::surface_area`. -/
def bbox.surface_area (b : bbox α) : α :=
  let ext := b.extents
  2 * (ext.x * ext.y + ext.x * ext.z + ext.y * ext.z)

/-- The function `cartesian_to_spherical(cart, r, phi, theta)`: the three
outputs `(r, phi, theta)`; `atan2`, `sqrt` and `acos` are the functions of the C
library. -/
def cartesian_to_spherical (atan2 : α → α → α) (sqrt acos : α → α) (cart : float3 α) :
    α × α × α :=
  let temp := atan2 cart.z cart.x
  let r := sqrt (cart.x * cart.x + cart.y * cart.y + cart.z * cart.z)
  let phi := if temp ≥ 0 then temp else temp + 2 * PI
  let theta := acos (cart.y / r)
  (r, phi, theta)

/-- The function `spherical_to_cartesian(r, phi, theta, cart)`: the output `cart`. -/
def spherical_to_cartesian (sin cos : α → α) (r phi theta : α) : float3 α :=
  { y := r * cos theta
    z := r * sin theta * cos phi
    x := r * sin theta * sin phi }

/-- The function `upper_power_of_two` on an `unsigned long` of `w` bits:
decrement, five shift-and-or steps, increment, each modulo `2^w`. -/
def upper_power_of_two (w : Nat) (v : Nat) : Nat :=
  let v0 := (v + 2 ^ w - 1) % 2 ^ w
  let v1 := v0 ||| (v0 >>> 1)
  let v2 := v1 ||| (v1 >>> 2)
  let v3 := v2 ||| (v2 >>> 4)
  let v4 := v3 ||| (v3 >>> 8)
  let v5 := v4 ||| (v4 >>> 16)
  (v5 + 1) % 2 ^ w

/-- The class `UlamSpiral`: the current cell `pos`, the bounds `pmin`, `pmax`
and the direction index `dir`. -/
structure UlamSpiral where
  pos : int2
  pmin : int2
  pmax : int2
  dir : Nat
deriving DecidableEq

/-- The method `UlamSpiral::Reset`. -/
def UlamSpiral.Reset : UlamSpiral :=
  { pos := ⟨0, 0⟩, pmin := ⟨-1, -1⟩, pmax := ⟨1, 1⟩, dir := 0 }

/-- The table `pdir` of `UlamSpiral::Next` (indices above `3` are outside the
array and are not reached). -/
def UlamSpiral.pdir (dir : Nat) : int2 :=
  match dir with
  | 0 => ⟨1, 0⟩
  | 1 => ⟨0, 1⟩
  | 2 => ⟨-1, 0⟩
  | 3 => ⟨0, -1⟩
  | _ => ⟨0, 0⟩

/-- The `switch` of `UlamSpiral::Next`: the bounds and the direction after it. -/
def UlamSpiral.turn (s : UlamSpiral) : UlamSpiral :=
  match s.dir with
  | 0 => if s.pos.x = s.pmax.x then { s with pmax := ⟨s.pmax.x + 1, s.pmax.y⟩, dir := s.dir + 1 }
    else s
  | 1 => if s.pos.y = s.pmax.y then { s with pmax := ⟨s.pmax.x, s.pmax.y + 1⟩, dir := s.dir + 1 }
    else s
  | 2 => if s.pos.x = s.pmin.x then { s with pmin := ⟨s.pmin.x - 1, s.pmin.y⟩, dir := s.dir + 1 }
    else s
  | 3 => if s.pos.y = s.pmin.y then { s with pmin := ⟨s.pmin.x, s.pmin.y - 1⟩, dir := 0 }
    else s
  | _ => s

/-- The method `UlamSpiral::Next`: the returned cell and the object afterwards. -/
def UlamSpiral.Next (s : UlamSpiral) : int2 × UlamSpiral :=
  let res := s.pos
  let s1 := s.turn
  let d := UlamSpiral.pdir s1.dir
  (res, { s1 with pos := ⟨s1.pos.x + d.x, s1.pos.y + d.y⟩ })

/-- The object after `n` calls of `Next`. -/
def UlamSpiral.after : Nat → UlamSpiral → UlamSpiral
  | 0, s => s
  | n + 1, s => UlamSpiral.after n s.Next.2

/-- The values returned by the first `n` calls of `Next`, in order. -/
def UlamSpiral.values : Nat → UlamSpiral → List int2
  | 0, _ => []
  | n + 1, s => s.Next.1 :: UlamSpiral.values n s.Next.2


/-- The spiral object moved `j` cells along its current direction, with bounds
and direction unchanged. -/
def UlamSpiral.shift (s : UlamSpiral) (j : Nat) : UlamSpiral :=
  { s with pos := ⟨s.pos.x + (j : Int) * (UlamSpiral.pdir s.dir).x,
                   s.pos.y + (j : Int) * (UlamSpiral.pdir s.dir).y⟩ }

/-- The `m` cells starting at `p` in steps of `d`. -/
def UlamSpiral.line (p d : int2) (m : Nat) : List int2 :=
  (List.range m).map (fun (j : Nat) => ⟨p.x + (j : Int) * d.x, p.y + (j : Int) * d.y⟩)

/-- The spiral object when the square `[-k, k]^2` has just been returned: the
current cell is `(k+1, -k)`, the bounds are `±(k+1)` and the direction is `0`. -/
def UlamSpiral.ringStart (k : Nat) : UlamSpiral :=
  { pos := ⟨(k : Int) + 1, -(k : Int)⟩, pmin := ⟨-((k : Int) + 1), -((k : Int) + 1)⟩,
    pmax := ⟨(k : Int) + 1, (k : Int) + 1⟩, dir := 0 }


/-- The first `4k + 3` cells of ring `k + 1`: its right column from `(k+1, -k)`
upward and its top row from `(k+1, k+1)` leftward to `(-k, k+1)`. -/
def UlamSpiral.halfRing (k : Nat) : List int2 :=
  UlamSpiral.line ⟨(k : Int) + 1, -(k : Int)⟩ ⟨0, 1⟩ (2 * k + 1) ++
    UlamSpiral.line ⟨(k : Int) + 1, (k : Int) + 1⟩ ⟨-1, 0⟩ (2 * k + 2)

/-- The last `4k + 5` cells of ring `k + 1`: its left column from `(-(k+1), k+1)`
downward and its bottom row from `(-(k+1), -(k+1))` rightward to `(k+1, -(k+1))`. -/
def UlamSpiral.restRing (k : Nat) : List int2 :=
  UlamSpiral.line ⟨-((k : Int) + 1), (k : Int) + 1⟩ ⟨0, -1⟩ (2 * k + 2) ++
    UlamSpiral.line ⟨-((k : Int) + 1), -((k : Int) + 1)⟩ ⟨1, 0⟩ (2 * k + 3)


/-! ## Binary32 arithmetic (the type `float` of the source language)

Every operation gives the exact result rounded to the nearest binary32 value,
ties to the even significand (the default rounding mode), each operation on
its own: no wider intermediate precision and no fused multiply-add. -/

/-- A value of the type `float`, read as IEEE 754 binary32: a finite number
`(-1)^neg * m * 2^e`, an infinity, or a NaN.  Finite values are kept in the
form of the encoding: `m < 2^24`, `-149 ≤ e ≤ 104`, and `2^23 ≤ m` unless
`e = -149` (zero and the subnormal numbers). -/
inductive f32 where
  | fin (neg : Bool) (m : Nat) (e : Int)
  | inf (neg : Bool)
  | nan
deriving DecidableEq

/-- The quotient `a / b` of naturals rounded to the nearest integer, ties to
the even one. -/
def f32.div_rne (a b : Nat) : Nat :=
  if 2 * (a % b) < b then a / b
  else if b < 2 * (a % b) then a / b + 1
  else if a / b % 2 = 0 then a / b else a / b + 1

/-- The number of halvings that take `n` below `2`, at most `fuel` of them. -/
def f32.log2_fuel : Nat → Nat → Nat
  | 0, _ => 0
  | fuel + 1, n => if n < 2 then 0 else f32.log2_fuel fuel (n / 2) + 1

/-- The position of the leading binary digit of `n`: the `k` with
`2^k ≤ n < 2^(k+1)` for positive `n`. -/
def f32.log2 (n : Nat) : Nat := f32.log2_fuel n n

/-- The integer `L` with `2^L ≤ n / d < 2^(L+1)`, for positive `n` and `d`. -/
def f32.ilog2 (n d : Nat) : Int :=
  if d ≤ n then (f32.log2 (n / d) : Int)
  else -((f32.log2 ((d - 1) / n) : Int) + 1)

/-- The exponent that rounding gives the quotient `n / d` of positive naturals:
the leading digit gets the weight `2^23`, and the exponent is at least `-149`. -/
def f32.round_exp (n d : Nat) : Int := max (f32.ilog2 n d - 23) (-149)

/-- The significand that rounding gives `n / d` at the exponent `e`: the
quotient `n / (d * 2^e)` rounded to the nearest integer, ties to even. -/
def f32.round_sig (n d : Nat) (e : Int) : Nat :=
  if 0 ≤ e then f32.div_rne n (d * 2 ^ e.toNat) else f32.div_rne (n * 2 ^ (-e).toNat) d

/-- The binary32 value nearest to `(-1)^neg * n / d` (`d` positive), ties to the
even significand: the significand has 24 bits, or fewer at the least exponent
`-149`; a significand that rounds up to `2^24` is renormalised, a magnitude
that rounds to `2^128` becomes an infinity, and one that rounds to `0` a zero
of the same sign. -/
def f32.round (neg : Bool) (n d : Nat) : f32 :=
  if n = 0 then f32.fin neg 0 (-149)
  else if f32.round_sig n d (f32.round_exp n d) = 2 ^ 24 then
    (if 104 < f32.round_exp n d + 1 then f32.inf neg
      else f32.fin neg (2 ^ 23) (f32.round_exp n d + 1))
  else if 104 < f32.round_exp n d then f32.inf neg
  else f32.fin neg (f32.round_sig n d (f32.round_exp n d)) (f32.round_exp n d)

/-- The binary32 value nearest to `(-1)^neg * n * 2^e`. -/
def f32.round_dyadic (neg : Bool) (n : Nat) (e : Int) : f32 :=
  if 0 ≤ e then f32.round neg (n * 2 ^ e.toNat) 1 else f32.round neg n (2 ^ (-e).toNat)

/-- The conversion `(float)i` of an `int`. -/
def f32.of_int (i : Int) : f32 := f32.round (decide (i < 0)) i.natAbs 1

/-- The float literal with the decimal value `n / d`, such as `0.5f` for `1 / 2`. -/
def f32.lit (n d : Nat) : f32 := f32.round false n d

/-- The integer `m * 2^(e + 149)` with the sign of the number: the finite value
in units of `2^-149`. -/
def f32.key (neg : Bool) (m : Nat) (e : Int) : Int :=
  if neg then -((m * 2 ^ (e + 149).toNat : Nat) : Int)
  else ((m * 2 ^ (e + 149).toNat : Nat) : Int)

/-- Unary minus. -/
def f32.neg : f32 → f32
  | f32.fin s m e => f32.fin (!s) m e
  | f32.inf s => f32.inf (!s)
  | f32.nan => f32.nan

/-- The functions `std::abs` and `fabs` on a float. -/
def f32.abs : f32 → f32
  | f32.fin _ m e => f32.fin false m e
  | f32.inf _ => f32.inf false
  | f32.nan => f32.nan

/-- Float addition: the exact sum, rounded.  An exact zero sum is `+0` unless
both operands are negative. -/
def f32.add : f32 → f32 → f32
  | f32.nan, _ => f32.nan
  | _, f32.nan => f32.nan
  | f32.inf s, f32.inf t => if s = t then f32.inf s else f32.nan
  | f32.inf s, f32.fin _ _ _ => f32.inf s
  | f32.fin _ _ _, f32.inf t => f32.inf t
  | f32.fin s m e, f32.fin t n k =>
    let c : Int := f32.key s m e + f32.key t n k
    if c = 0 then f32.fin (s && t) 0 (-149)
    else f32.round_dyadic (decide (c < 0)) c.natAbs (-149)

/-- Float subtraction. -/
def f32.sub (a b : f32) : f32 := f32.add a (f32.neg b)

/-- Float multiplication: the exact product, rounded. -/
def f32.mul : f32 → f32 → f32
  | f32.nan, _ => f32.nan
  | _, f32.nan => f32.nan
  | f32.inf s, f32.inf t => f32.inf (xor s t)
  | f32.inf s, f32.fin t n _ => if n = 0 then f32.nan else f32.inf (xor s t)
  | f32.fin s m _, f32.inf t => if m = 0 then f32.nan else f32.inf (xor s t)
  | f32.fin s m e, f32.fin t n k => f32.round_dyadic (xor s t) (m * n) (e + k)

/-- Float division: the exact quotient, rounded; `0 / 0` and `inf / inf` are
NaN, and a nonzero number divided by zero is an infinity. -/
def f32.div : f32 → f32 → f32
  | f32.nan, _ => f32.nan
  | _, f32.nan => f32.nan
  | f32.inf _, f32.inf _ => f32.nan
  | f32.inf s, f32.fin t _ _ => f32.inf (xor s t)
  | f32.fin s _ _, f32.inf t => f32.fin (xor s t) 0 (-149)
  | f32.fin s m e, f32.fin t n k =>
    if n = 0 then (if m = 0 then f32.nan else f32.inf (xor s t))
    else if k ≤ e then f32.round (xor s t) (m * 2 ^ (e - k).toNat) n
    else f32.round (xor s t) m (n * 2 ^ (k - e).toNat)

/-- The comparison `a < b` of floats; false when an operand is NaN. -/
def f32.lt : f32 → f32 → Bool
  | f32.nan, _ => false
  | _, f32.nan => false
  | f32.inf s, f32.inf t => s && !t
  | f32.inf s, f32.fin _ _ _ => s
  | f32.fin _ _ _, f32.inf t => !t
  | f32.fin s m e, f32.fin t n k => decide (f32.key s m e < f32.key t n k)

/-- The comparison `a <= b` of floats; false when an operand is NaN. -/
def f32.le : f32 → f32 → Bool
  | f32.nan, _ => false
  | _, f32.nan => false
  | f32.inf s, f32.inf t => s || !t
  | f32.inf s, f32.fin _ _ _ => s
  | f32.fin _ _ _, f32.inf t => !t
  | f32.fin s m e, f32.fin t n k => decide (f32.key s m e ≤ f32.key t n k)

/-- The conversion `(int)x` of a float: truncation toward zero; it has no
defined result for an infinity or a NaN. -/
def f32.to_int : f32 → Option Int
  | f32.fin s m e =>
    let a : Nat := if 0 ≤ e then m * 2 ^ e.toNat else m / 2 ^ (-e).toNat
    some (if s then -(a : Int) else (a : Int))
  | _ => none

/-- The magnitude that rounding gives `n / d`, in units of `2^-149`: the
significand times `2^(e + 149)` for the exponent `e` of the rounding. -/
def f32.round_key (n d : Nat) : Nat :=
  f32.round_sig n d (f32.round_exp n d) * 2 ^ (f32.round_exp n d + 149).toNat

/-! ## The programs in binary32

The functions below are the ones above with `float` read as binary32 instead of
an exact field: every arithmetic operation rounds. -/

/-- The result of `std::min(a, b)` on floats: `b` when `b < a`, else `a`. -/
def stdmin_f32 (a b : f32) : f32 := if f32.lt b a then b else a

/-- The result of `std::max(a, b)` on floats: `b` when `a < b`, else `a`. -/
def stdmax_f32 (a b : f32) : f32 := if f32.lt a b then b else a

/-- Modelled from the spec: `vmin` of `float3.h` on floats, componentwise `std::min`. -/
def vmin_f32 (a b : float3 f32) : float3 f32 :=
  ⟨stdmin_f32 a.x b.x, stdmin_f32 a.y b.y, stdmin_f32 a.z b.z⟩

/-- Modelled from the spec: `vmax` of `float3.h` on floats, componentwise `std::max`. -/
def vmax_f32 (a b : float3 f32) : float3 f32 :=
  ⟨stdmax_f32 a.x b.x, stdmax_f32 a.y b.y, stdmax_f32 a.z b.z⟩

/-- Modelled from the spec: `operator+` of `float3.h` on floats, componentwise. -/
def float3.add_f32 (a b : float3 f32) : float3 f32 :=
  ⟨f32.add a.x b.x, f32.add a.y b.y, f32.add a.z b.z⟩

/-- Modelled from the spec: `operator-` of `float3.h` on floats, componentwise. -/
def float3.sub_f32 (a b : float3 f32) : float3 f32 :=
  ⟨f32.sub a.x b.x, f32.sub a.y b.y, f32.sub a.z b.z⟩

/-- Modelled from the spec: the product `c * v` of `float3.h` on floats,
componentwise. -/
def float3.scale_f32 (c : f32) (a : float3 f32) : float3 f32 :=
  ⟨f32.mul c a.x, f32.mul c a.y, f32.mul c a.z⟩

/-- The method `bbox::center` in binary32: `0.5f * (pmax + pmin)`. -/
def bbox.center_f32 (b : bbox f32) : float3 f32 :=
  float3.scale_f32 (f32.lit 1 2) (float3.add_f32 b.pmax b.pmin)

/-- The method `bbox::extents` in binary32: `pmax - pmin`. -/
def bbox.extents_f32 (b : bbox f32) : float3 f32 := float3.sub_f32 b.pmax b.pmin

/-- The method `bbox::contains(float3 const&)` in binary32. -/
def bbox.contains_f32 (b : bbox f32) (p : float3 f32) : Bool :=
  let radius := float3.scale_f32 (f32.lit 1 2) b.extents_f32
  f32.le (f32.abs (f32.sub b.center_f32.x p.x)) radius.x &&
  f32.le (f32.abs (f32.sub b.center_f32.y p.y)) radius.y &&
  f32.le (f32.abs (f32.sub b.center_f32.z p.z)) radius.z

/-- The function `bboxunion` in binary32. -/
def bboxunion_f32 (box1 box2 : bbox f32) : bbox f32 :=
  { pmin := vmin_f32 box1.pmin box2.pmin
    pmax := vmax_f32 box1.pmax box2.pmax }

/-- The function `contains(bbox const&, bbox const&)` in binary32. -/
def contains_f32 (box1 box2 : bbox f32) : Bool :=
  box1.contains_f32 box2.pmin && box1.contains_f32 box2.pmax

/-- The fractions `(float)donesamples/totalsamples` reported by a run, in
binary32: `donesamples` is converted by the cast and `totalsamples` by the
usual arithmetic conversions, then the division rounds. -/
def reported_fractions_f32 (events : List RenderEvent) : List f32 :=
  (reports events).map (fun p => f32.div (f32.of_int p.1) (f32.of_int p.2))

/-- The function `PowerHeuristic` in binary32; the sample counts are converted
to `float` before they are multiplied. -/
def PowerHeuristic_f32 (nf : Int) (fpdf : f32) (ng : Int) (gpdf : f32) : f32 :=
  let f := f32.mul (f32.of_int nf) fpdf
  let g := f32.mul (f32.of_int ng) gpdf
  f32.div (f32.mul f f) (f32.add (f32.mul f f) (f32.mul g g))

/-- The `float` overload of `clamp` in binary32: `x < a ? a : (x > b ? b : x)`. -/
def clamp_f32 (x a b : f32) : f32 :=
  if f32.lt x a then a else if f32.lt b x then b else x

/-- The position `imgpos` computed by `BufferImagePlane::WriteSample` in
binary32: `(int)clamp((float)pos.x, 0.f, (float)res.x-1)` and the same for `y`. -/
def BufferImagePlane.imgpos_f32 (res pos : int2) : Option int2 :=
  match f32.to_int (clamp_f32 (f32.of_int pos.x) (f32.lit 0 1)
      (f32.sub (f32.of_int res.x) (f32.of_int 1))),
    f32.to_int (clamp_f32 (f32.of_int pos.y) (f32.lit 0 1)
      (f32.sub (f32.of_int res.y) (f32.of_int 1))) with
  | some x, some y => some { x := x, y := y }
  | _, _ => none

/-- The buffer index that `BufferImagePlane::WriteSample` uses for `pos` in
binary32. -/
def BufferImagePlane.index_f32 (res pos : int2) : Option Int :=
  (BufferImagePlane.imgpos_f32 res pos).map (BufferImagePlane.index res)

/-- Between the corners in binary32: `pmin <= p` and `p <= pmax` hold as float
comparisons in every component. -/
def bbox.inside_f32 (b : bbox f32) (p : float3 f32) : Prop :=
  (f32.le b.pmin.x p.x = true ∧ f32.le p.x b.pmax.x = true) ∧
  (f32.le b.pmin.y p.y = true ∧ f32.le p.y b.pmax.y = true) ∧
  (f32.le b.pmin.z p.z = true ∧ f32.le p.z b.pmax.z = true)

/-- A box of floats is well formed when `pmin <= pmax` holds as a float
comparison in every component. -/
def bbox.valid_f32 (b : bbox f32) : Prop :=
  f32.le b.pmin.x b.pmax.x = true ∧ f32.le b.pmin.y b.pmax.y = true ∧
  f32.le b.pmin.z b.pmax.z = true

/-! ## Theorems -/

/-- On one axis with a non-zero direction component, the point `o + t * d` lies
between the planes `lo ≤ hi` exactly when `t` lies between the smaller and the
larger of the two plane parameters computed with the reciprocal `1 / d`. -/
theorem slab_axis_iff {lo hi o d t : α} (hd : d ≠ 0) (hb : lo ≤ hi) :
    (lo ≤ o + t * d ∧ o + t * d ≤ hi) ↔
      (min ((lo - o) * (1 / d)) ((hi - o) * (1 / d)) ≤ t ∧
        t ≤ max ((lo - o) * (1 / d)) ((hi - o) * (1 / d))) := by
  rcases lt_or_gt_of_ne hd with hneg | hpos
  · have hle : (hi - o) * (1 / d) ≤ (lo - o) * (1 / d) := by
      rw [mul_one_div, mul_one_div, div_le_div_right_of_neg hneg]
      linarith
    rw [min_eq_right hle, max_eq_left hle, mul_one_div, mul_one_div,
      div_le_iff_of_neg hneg, le_div_iff_of_neg hneg]
    constructor
    · rintro ⟨h1, h2⟩
      exact ⟨by linarith, by linarith⟩
    · rintro ⟨h1, h2⟩
      exact ⟨by linarith, by linarith⟩
  · have hle : (lo - o) * (1 / d) ≤ (hi - o) * (1 / d) := by
      rw [mul_one_div, mul_one_div, div_le_div_iff_of_pos_right hpos]
      linarith
    rw [min_eq_left hle, max_eq_right hle, mul_one_div, mul_one_div,
      div_le_iff₀ hpos, le_div_iff₀ hpos]
    constructor
    · rintro ⟨h1, h2⟩
      exact ⟨by linarith, by linarith⟩
    · rintro ⟨h1, h2⟩
      exact ⟨by linarith, by linarith⟩

/-- One iteration of the slab loop, with the swap and the two conditional
updates read as `min` and `max`. -/
theorem intersects_ray_loop_cons (r : ray α) (invrd : float3 α) (box : bbox α)
    (i : Nat) (rest : List Nat) (tt : float2 α) :
    intersects_ray_loop r invrd box (i :: rest) tt =
      if max (slab_entry r invrd box i) tt.x > min (slab_exit r invrd box i) tt.y then false
      else intersects_ray_loop r invrd box rest
        ⟨max (slab_entry r invrd box i) tt.x, min (slab_exit r invrd box i) tt.y⟩ := by
  have h1 : (if slab_tn r invrd box i > slab_tf r invrd box i then slab_tf r invrd box i
      else slab_tn r invrd box i) = slab_entry r invrd box i := by
    unfold slab_entry
    split_ifs with h
    · exact (min_eq_right h.le).symm
    · exact (min_eq_left (not_lt.mp h)).symm
  have h2 : (if slab_tn r invrd box i > slab_tf r invrd box i then slab_tn r invrd box i
      else slab_tf r invrd box i) = slab_exit r invrd box i := by
    unfold slab_exit
    split_ifs with h
    · exact (max_eq_left h.le).symm
    · exact (max_eq_right (not_lt.mp h)).symm
  have h3 : ∀ a b : α, (if a > b then a else b) = max a b := by
    intro a b
    split_ifs with h
    · exact (max_eq_left h.le).symm
    · exact (max_eq_right (not_lt.mp h)).symm
  have h4 : ∀ a b : α, (if a < b then a else b) = min a b := by
    intro a b
    split_ifs with h
    · exact (min_eq_left h.le).symm
    · exact (min_eq_right (not_lt.mp h)).symm
  simp only [intersects_ray_loop, h1, h2, h3, h4]

/-- The slab loop started from a non-empty interval `tt` answers `true` exactly
when some parameter of `tt` lies in the slab interval of every listed axis. -/
theorem intersects_ray_loop_iff (r : ray α) (invrd : float3 α) (box : bbox α) :
    ∀ (axes : List Nat) (tt : float2 α), tt.x ≤ tt.y →
      (intersects_ray_loop r invrd box axes tt = true ↔
        ∃ t, tt.x ≤ t ∧ t ≤ tt.y ∧
          ∀ i ∈ axes, slab_entry r invrd box i ≤ t ∧ t ≤ slab_exit r invrd box i) := by
  intro axes
  induction axes with
  | nil =>
    intro tt htt
    simp only [intersects_ray_loop, List.not_mem_nil, false_imp_iff, implies_true, and_true,
      true_iff]
    exact ⟨tt.x, le_refl _, htt⟩
  | cons i rest ih =>
    intro tt _
    rw [intersects_ray_loop_cons]
    split_ifs with hgt
    · simp only [Bool.false_eq_true, false_iff, not_exists, not_and]
      intro t h1 h2 h3
      have h4 := h3 i (List.mem_cons_self i rest)
      have h5 : max (slab_entry r invrd box i) tt.x ≤ t := max_le h4.1 h1
      have h6 : t ≤ min (slab_exit r invrd box i) tt.y := le_min h4.2 h2
      exact absurd (lt_of_le_of_lt (le_trans h5 h6) hgt) (lt_irrefl _)
    · rw [ih _ (not_lt.mp hgt)]
      constructor
      · rintro ⟨t, h1, h2, h3⟩
        have h1a := max_le_iff.mp h1
        have h2a := le_min_iff.mp h2
        refine ⟨t, h1a.2, h2a.2, ?_⟩
        intro j hj
        rcases List.mem_cons.mp hj with rfl | hj
        · exact ⟨h1a.1, h2a.1⟩
        · exact h3 j hj
      · rintro ⟨t, h1, h2, h3⟩
        have h4 := h3 i (List.mem_cons_self i rest)
        exact ⟨t, max_le h4.1 h1, le_min h4.2 h2,
          fun j hj => h3 j (List.mem_cons_of_mem i hj)⟩

/-- The swap-based slab test answers `true` exactly when some parameter of the
ray interval lies in the slab interval of each of the three axes. -/
theorem intersects_ray_iff_slabs (r : ray α) (invrd : float3 α) (box : bbox α) :
    intersects_ray r invrd box = true ↔
      ∃ t, r.t.x ≤ t ∧ t ≤ r.t.y ∧
        ∀ i ∈ [0, 1, 2], slab_entry r invrd box i ≤ t ∧ t ≤ slab_exit r invrd box i := by
  by_cases htt : r.t.x ≤ r.t.y
  · exact intersects_ray_loop_iff r invrd box [0, 1, 2] r.t htt
  · have hlt : r.t.y < r.t.x := not_le.mp htt
    unfold intersects_ray
    rw [intersects_ray_loop_cons]
    have hgt : max (slab_entry r invrd box 0) r.t.x > min (slab_exit r invrd box 0) r.t.y :=
      lt_of_le_of_lt (min_le_right _ _) (lt_of_lt_of_le hlt (le_max_right _ _))
    rw [if_pos hgt]
    simp only [Bool.false_eq_true, false_iff, not_exists, not_and]
    intro t h1 h2
    exact absurd (lt_of_le_of_lt (le_trans h1 h2) hlt) (lt_irrefl _)

/-- With the reciprocal direction and a well-formed box, a parameter lies in all
three slab intervals exactly when the ray point at it is inside the closed box. -/
theorem slabs_iff_inside (r : ray α) (box : bbox α) (t : α)
    (hd : r.d.x ≠ 0 ∧ r.d.y ≠ 0 ∧ r.d.z ≠ 0) (hbox : box.valid) :
    (∀ i ∈ [0, 1, 2], slab_entry r r.d.recip box i ≤ t ∧ t ≤ slab_exit r r.d.recip box i) ↔
      box.inside (r.at t) := by
  have hx := slab_axis_iff (o := r.o.x) (t := t) hd.1 hbox.1
  have hy := slab_axis_iff (o := r.o.y) (t := t) hd.2.1 hbox.2.1
  have hz := slab_axis_iff (o := r.o.z) (t := t) hd.2.2 hbox.2.2
  simp only [List.mem_cons, List.mem_singleton, List.not_mem_nil, or_false, forall_eq_or_imp,
    forall_eq, slab_entry, slab_exit, slab_tn, slab_tf, float3.idx, float3.recip, bbox.inside,
    ray.at, float3.add, float3.scale]
  rw [hx, hy, hz]

/-- Claim C1: in exact arithmetic, for a ray whose direction has no zero
component, `invrd` its componentwise reciprocal and a box with `pmin ≤ pmax`,
the swap-based slab test `intersects(r, invrd, box)` returns true if and only if
some `t` with `r.t.x ≤ t ≤ r.t.y` puts the point `o + t * d` inside the closed box. -/
theorem intersects_ray_iff_hits_box (r : ray α) (invrd : float3 α) (box : bbox α)
    (hd : r.d.x ≠ 0 ∧ r.d.y ≠ 0 ∧ r.d.z ≠ 0)
    (hinv : invrd.x = 1 / r.d.x ∧ invrd.y = 1 / r.d.y ∧ invrd.z = 1 / r.d.z)
    (hbox : box.pmin.x ≤ box.pmax.x ∧ box.pmin.y ≤ box.pmax.y ∧ box.pmin.z ≤ box.pmax.z) :
    intersects_ray r invrd box = true ↔
      ∃ t, r.t.x ≤ t ∧ t ≤ r.t.y ∧
        (box.pmin.x ≤ r.o.x + t * r.d.x ∧ r.o.x + t * r.d.x ≤ box.pmax.x) ∧
        (box.pmin.y ≤ r.o.y + t * r.d.y ∧ r.o.y + t * r.d.y ≤ box.pmax.y) ∧
        (box.pmin.z ≤ r.o.z + t * r.d.z ∧ r.o.z + t * r.d.z ≤ box.pmax.z) := by
  have hrec : invrd = r.d.recip := by
    ext
    · exact hinv.1
    · exact hinv.2.1
    · exact hinv.2.2
  subst hrec
  rw [intersects_ray_iff_slabs]
  constructor
  · rintro ⟨t, h1, h2, h3⟩
    exact ⟨t, h1, h2, (slabs_iff_inside r box t hd hbox).mp h3⟩
  · rintro ⟨t, h1, h2, h3⟩
    exact ⟨t, h1, h2, (slabs_iff_inside r box t hd hbox).mpr h3⟩

/-- Witness for claim C1: the ray from the origin along `(1, 2, 4)` with
interval `[0, 10]` and the box `[(1, 2, 4), (2, 4, 8)]`, which it crosses for
`t` in `[1, 2]`. -/
theorem intersects_ray_iff_hits_box_witness :
    intersects_ray (α := ℚ) ⟨⟨0, 0, 0⟩, ⟨1, 2, 4⟩, ⟨0, 10⟩⟩ ⟨1, 1 / 2, 1 / 4⟩
        ⟨⟨1, 2, 4⟩, ⟨2, 4, 8⟩⟩ = true ↔
      ∃ t : ℚ, (0 : ℚ) ≤ t ∧ t ≤ 10 ∧
        ((1 : ℚ) ≤ 0 + t * 1 ∧ 0 + t * 1 ≤ (2 : ℚ)) ∧
        ((2 : ℚ) ≤ 0 + t * 2 ∧ 0 + t * 2 ≤ (4 : ℚ)) ∧
        ((4 : ℚ) ≤ 0 + t * 4 ∧ 0 + t * 4 ≤ (8 : ℚ)) :=
  intersects_ray_iff_hits_box (α := ℚ) ⟨⟨0, 0, 0⟩, ⟨1, 2, 4⟩, ⟨0, 10⟩⟩ ⟨1, 1 / 2, 1 / 4⟩
    ⟨⟨1, 2, 4⟩, ⟨2, 4, 8⟩⟩ (by norm_num) (by norm_num) (by norm_num)

/-- Claim C2: the code of `intersects(box1, box2)` is not the componentwise
disjoint-axis test.  Its third comparison reads `b2c.x - b1c.z`: the unit cube and
its copy moved by `5` along `z` are reported as intersecting although the `z`
axis separates them, and a cube away from the diagonal is reported as not
intersecting itself. -/
theorem intersects_bbox_mixes_axes :
    (intersects_bbox (α := ℚ) ⟨⟨0, 0, 0⟩, ⟨1, 1, 1⟩⟩ ⟨⟨0, 0, 5⟩, ⟨1, 1, 6⟩⟩ = true ∧
      ¬ disjoint_axis_test (α := ℚ) ⟨⟨0, 0, 0⟩, ⟨1, 1, 1⟩⟩ ⟨⟨0, 0, 5⟩, ⟨1, 1, 6⟩⟩) ∧
    (intersects_bbox (α := ℚ) ⟨⟨0, 0, 9⟩, ⟨1, 1, 10⟩⟩ ⟨⟨0, 0, 9⟩, ⟨1, 1, 10⟩⟩ = false ∧
      disjoint_axis_test (α := ℚ) ⟨⟨0, 0, 9⟩, ⟨1, 1, 10⟩⟩ ⟨⟨0, 0, 9⟩, ⟨1, 1, 10⟩⟩) := by
  refine ⟨⟨?_, ?_⟩, ?_, ?_⟩
  · norm_num [intersects_bbox, bbox.center, bbox.extents, float3.scale, float3.add, float3.sub]
  · norm_num [disjoint_axis_test, bbox.center, bbox.extents, float3.scale, float3.add,
      float3.sub]
  · norm_num [intersects_bbox, bbox.center, bbox.extents, float3.scale, float3.add, float3.sub]
  · norm_num [disjoint_axis_test, bbox.center, bbox.extents, float3.scale, float3.add,
      float3.sub]

/-- The result of `std::min` is the smaller argument. -/
theorem stdmin_eq_min (a b : α) : stdmin a b = min a b := by
  unfold stdmin
  split_ifs with h
  · exact (min_eq_right h.le).symm
  · exact (min_eq_left (not_lt.mp h)).symm

/-- The result of `std::max` is the larger argument. -/
theorem stdmax_eq_max (a b : α) : stdmax a b = max a b := by
  unfold stdmax
  split_ifs with h
  · exact (max_eq_right h.le).symm
  · exact (max_eq_left (not_lt.mp h)).symm

/-- Claim C3: the default-constructed box is an identity of `bboxunion` on
boxes whose coordinates lie in `[-FLT_MAX, FLT_MAX]`. -/
theorem bboxunion_empty_identity (b : bbox α)
    (hmin : (-FLT_MAX ≤ b.pmin.x ∧ b.pmin.x ≤ FLT_MAX) ∧
      (-FLT_MAX ≤ b.pmin.y ∧ b.pmin.y ≤ FLT_MAX) ∧ (-FLT_MAX ≤ b.pmin.z ∧ b.pmin.z ≤ FLT_MAX))
    (hmax : (-FLT_MAX ≤ b.pmax.x ∧ b.pmax.x ≤ FLT_MAX) ∧
      (-FLT_MAX ≤ b.pmax.y ∧ b.pmax.y ≤ FLT_MAX) ∧ (-FLT_MAX ≤ b.pmax.z ∧ b.pmax.z ≤ FLT_MAX)) :
    bboxunion bbox.empty b = b ∧ bboxunion b bbox.empty = b := by
  obtain ⟨⟨-, hx⟩, ⟨-, hy⟩, ⟨-, hz⟩⟩ := hmin
  obtain ⟨⟨kx, -⟩, ⟨ky, -⟩, ⟨kz, -⟩⟩ := hmax
  constructor
  · ext <;>
      simp only [bboxunion, bbox.empty, vmin, vmax, stdmin_eq_min, stdmax_eq_max] <;>
      first
        | exact min_eq_right (by assumption)
        | exact max_eq_right (by assumption)
  · ext <;>
      simp only [bboxunion, bbox.empty, vmin, vmax, stdmin_eq_min, stdmax_eq_max] <;>
      first
        | exact min_eq_left (by assumption)
        | exact max_eq_left (by assumption)

/-- Witness for claim C3: the box `[(-1, -2, -3), (4, 5, 6)]`. -/
theorem bboxunion_empty_identity_witness :
    bboxunion bbox.empty (⟨⟨-1, -2, -3⟩, ⟨4, 5, 6⟩⟩ : bbox ℚ) = ⟨⟨-1, -2, -3⟩, ⟨4, 5, 6⟩⟩ ∧
      bboxunion (⟨⟨-1, -2, -3⟩, ⟨4, 5, 6⟩⟩ : bbox ℚ) bbox.empty = ⟨⟨-1, -2, -3⟩, ⟨4, 5, 6⟩⟩ :=
  bboxunion_empty_identity (α := ℚ) ⟨⟨-1, -2, -3⟩, ⟨4, 5, 6⟩⟩
    (by norm_num [FLT_MAX]) (by norm_num [FLT_MAX])

/-- In exact arithmetic `bbox::contains` is membership in the closed box. -/
theorem bbox_contains_iff (b : bbox α) (p : float3 α) :
    b.contains p = true ↔ b.inside p := by
  have key : ∀ lo hi q : α,
      |1 / 2 * (hi + lo) - q| ≤ 1 / 2 * (hi - lo) ↔ (lo ≤ q ∧ q ≤ hi) := by
    intro lo hi q
    rw [abs_le]
    constructor
    · rintro ⟨h1, h2⟩
      exact ⟨by linarith, by linarith⟩
    · rintro ⟨h1, h2⟩
      exact ⟨by linarith, by linarith⟩
  simp only [bbox.contains, bbox.center, bbox.extents, float3.scale, float3.add, float3.sub,
    Bool.and_eq_true, decide_eq_true_eq, key, bbox.inside, and_assoc]

/-- In exact arithmetic `bboxunion` is the tight enclosing box: every point
contained in `a` or in `b` is contained in `bboxunion(a, b)`, and every box `c`
that contains `a` and `b` contains `bboxunion(a, b)`. -/
theorem bboxunion_exact_enclosing (a b : bbox α) :
    (∀ p : float3 α, a.contains p = true ∨ b.contains p = true →
        (bboxunion a b).contains p = true) ∧
      (∀ c : bbox α, contains c a = true → contains c b = true →
        contains c (bboxunion a b) = true) := by
  constructor
  · intro p hp
    simp only [bbox_contains_iff, bbox.inside, bboxunion, vmin, vmax, stdmin_eq_min,
      stdmax_eq_max, min_le_iff, le_max_iff] at hp ⊢
    rcases hp with ⟨⟨h1, h2⟩, ⟨h3, h4⟩, h5, h6⟩ | ⟨⟨h1, h2⟩, ⟨h3, h4⟩, h5, h6⟩
    · exact ⟨⟨Or.inl h1, Or.inl h2⟩, ⟨Or.inl h3, Or.inl h4⟩, Or.inl h5, Or.inl h6⟩
    · exact ⟨⟨Or.inr h1, Or.inr h2⟩, ⟨Or.inr h3, Or.inr h4⟩, Or.inr h5, Or.inr h6⟩
  · intro c hca hcb
    simp only [contains, Bool.and_eq_true, bbox_contains_iff, bbox.inside, bboxunion, vmin,
      vmax, stdmin_eq_min, stdmax_eq_max, le_min_iff, min_le_iff, le_max_iff, max_le_iff]
      at hca hcb ⊢
    obtain ⟨⟨⟨a1, a2⟩, ⟨a3, a4⟩, a5, a6⟩, ⟨a7, a8⟩, ⟨a9, a10⟩, a11, a12⟩ := hca
    obtain ⟨⟨⟨b1, b2⟩, ⟨b3, b4⟩, b5, b6⟩, ⟨b7, b8⟩, ⟨b9, b10⟩, b11, b12⟩ := hcb
    exact ⟨⟨⟨⟨a1, b1⟩, Or.inl a2⟩, ⟨⟨a3, b3⟩, Or.inl a4⟩, ⟨a5, b5⟩, Or.inl a6⟩,
      ⟨Or.inl a7, ⟨a8, b8⟩⟩, ⟨Or.inl a9, ⟨a10, b10⟩⟩, Or.inl a11, ⟨a12, b12⟩⟩

/-- The dot product is symmetric. -/
theorem dot_comm (a b : float3 α) : dot a b = dot b a := by
  unfold dot
  ring

/-- Negating the left argument negates the dot product. -/
theorem dot_neg_left (a b : float3 α) : dot a.neg b = -dot a b := by
  unfold dot float3.neg
  ring

/-- The sum of two vectors does not depend on their order. -/
theorem float3_add_comm (a b : float3 α) : a.add b = b.add a := by
  ext <;> simp only [float3.add] <;> ring

/-- The dot product of a vector with the normalized sum. -/
theorem dot_normalize_add (sqrt : α → α) (a wi wo : float3 α) :
    dot a (normalize sqrt (wi.add wo)) =
      1 / sqrt (wi.add wo).sqnorm * (dot a wi + dot a wo) := by
  simp only [dot, normalize, float3.scale, float3.add]
  ring

/-- Two unit vectors have the same dot product with their halfway vector. -/
theorem dot_halfway_eq (sqrt : α → α) (wi wo : float3 α)
    (hwi : dot wi wi = 1) (hwo : dot wo wo = 1) :
    dot wi (normalize sqrt (wi.add wo)) = dot wo (normalize sqrt (wi.add wo)) := by
  rw [dot_normalize_add, dot_normalize_add, hwi, hwo, dot_comm wo wi]
  ring

/-- The geometric factor is unchanged when `wi` and `wo` trade places, for unit
vectors and their halfway vector. -/
theorem Microfacet_G_symm (sqrt : α → α) (wi wo n : float3 α)
    (hwi : dot wi wi = 1) (hwo : dot wo wo = 1) :
    Microfacet.G wi wo (normalize sqrt (wi.add wo)) n =
      Microfacet.G wo wi (normalize sqrt (wi.add wo)) n := by
  unfold Microfacet.G
  simp only [stdmin_eq_min, dot_halfway_eq sqrt wi wo hwi hwo]
  rw [min_comm (2 * |dot n (normalize sqrt (wi.add wo))| * |dot n wo| /
    |dot wo (normalize sqrt (wi.add wo))|)]

/-- The geometric factor does not see the orientation of the normal. -/
theorem Microfacet_G_neg (wi wo wh n : float3 α) :
    Microfacet.G wi wo wh n.neg = Microfacet.G wi wo wh n := by
  unfold Microfacet.G
  simp only [dot_neg_left, abs_neg]

/-- The oriented part of `Microfacet::Evaluate` is symmetric in unit `wi`, `wo`
when the two calls use normals equal up to sign on which `D` agrees. -/
theorem Microfacet_EvaluateLocal_symm (sqrt : α → α) (m : Microfacet α)
    (n1 n2 wi wo : float3 α) (hwi : dot wi wi = 1) (hwo : dot wo wo = 1)
    (hn : n2 = n1 ∨ n2 = n1.neg)
    (hD : m.md_.D (normalize sqrt (wi.add wo)) n1 = m.md_.D (normalize sqrt (wi.add wo)) n2) :
    Microfacet.EvaluateLocal sqrt m n1 wi wo = Microfacet.EvaluateLocal sqrt m n2 wo wi := by
  have hG : Microfacet.G wi wo (normalize sqrt (wi.add wo)) n1 =
      Microfacet.G wo wi (normalize sqrt (wi.add wo)) n2 := by
    rcases hn with rfl | rfl
    · exact Microfacet_G_symm sqrt wi wo n2 hwi hwo
    · rw [Microfacet_G_neg]
      exact Microfacet_G_symm sqrt wi wo n1 hwi hwo
  have hcos : dot n1 wi * dot n1 wo = dot n2 wo * dot n2 wi := by
    rcases hn with rfl | rfl
    · ring
    · rw [dot_neg_left, dot_neg_left]
      ring
  have hzero : (dot n1 wi = 0 ∨ dot n1 wo = 0) ↔ (dot n2 wo = 0 ∨ dot n2 wi = 0) := by
    rcases hn with rfl | rfl
    · exact or_comm
    · rw [dot_neg_left, dot_neg_left, neg_eq_zero, neg_eq_zero]
      exact or_comm
  unfold Microfacet.EvaluateLocal
  simp only [float3_add_comm wo wi, ← hD, ← hG, ← dot_halfway_eq sqrt wi wo hwi hwo,
    mul_assoc, hcos]
  by_cases hz : dot n1 wi = 0 ∨ dot n1 wo = 0
  · rw [if_pos hz, if_pos (hzero.mp hz)]
  · rw [if_neg hz, if_neg (fun h => hz (hzero.mpr h))]

/-- Negating a vector twice gives it back. -/
theorem float3_neg_neg (a : float3 α) : a.neg.neg = a := by
  ext <;> simp only [float3.neg, neg_neg]

/-- The Blinn distribution does not see the orientation of the normal:
`D(w, -n) = D(w, n)`, whatever the power function. -/
theorem BlinnDistribution_D_neg (powf : α → α → α) (e : α) (w n : float3 α) :
    BlinnDistribution.D powf e w n.neg = BlinnDistribution.D powf e w n := by
  unfold BlinnDistribution.D
  simp only [dot_neg_left, abs_neg]

/-- Claim C6, amended: the microfacet BSDF is reciprocal, in exact arithmetic,
for every intersection record and all unit vectors `wi`, `wo` with
`wi + wo ≠ 0`, every Fresnel term and every distribution `D`, provided `D` takes
the same value at `n` and at `-n` (as `BlinnDistribution::D` does) or `wi` and
`wo` lie on the same side of the normal. -/
theorem Microfacet_Evaluate_reciprocal (sqrt : α → α) (m : Microfacet α)
    (isect : Intersection α) (wi wo : float3 α)
    (hwi : dot wi wi = 1) (hwo : dot wo wo = 1) (_hsum : wi.add wo ≠ ⟨0, 0, 0⟩)
    (hD : (∀ w n, m.md_.D w n.neg = m.md_.D w n) ∨
      (dot wi isect.n < 0 ↔ dot wo isect.n < 0)) :
    Microfacet.Evaluate sqrt m isect wi wo = Microfacet.Evaluate sqrt m isect wo wi := by
  unfold Microfacet.Evaluate
  by_cases h1 : dot wi isect.n < 0
  · by_cases h2 : dot wo isect.n < 0
    · simp only [h1, h2, if_true]
      exact Microfacet_EvaluateLocal_symm sqrt m _ _ wi wo hwi hwo (Or.inl rfl) rfl
    · simp only [h1, h2, if_true, if_false]
      refine Microfacet_EvaluateLocal_symm sqrt m _ _ wi wo hwi hwo
        (Or.inr (float3_neg_neg _).symm) ?_
      rcases hD with hD | hD
      · exact hD _ _
      · exact absurd (hD.mp h1) h2
  · by_cases h2 : dot wo isect.n < 0
    · simp only [h1, h2, if_true, if_false]
      refine Microfacet_EvaluateLocal_symm sqrt m _ _ wi wo hwi hwo (Or.inr rfl) ?_
      rcases hD with hD | hD
      · exact (hD _ _).symm
      · exact absurd (hD.mpr h2) h1
    · simp only [h1, h2, if_false]
      exact Microfacet_EvaluateLocal_symm sqrt m _ _ wi wo hwi hwo (Or.inl rfl) rfl

/-- Witness for claim C6: the Blinn distribution of exponent `2` over the reals,
a constant Fresnel term, and two unit vectors on opposite sides of the normal. -/
theorem Microfacet_Evaluate_reciprocal_witness :
    Microfacet.Evaluate Real.sqrt
        ⟨3 / 2, fun _ _ _ => 1, BlinnDistribution Real.sqrt (fun x y => x ^ y) 2⟩
        ⟨⟨3 / 5, 4 / 5, 0⟩, ⟨0, 0, 1⟩, ⟨-4 / 5, 3 / 5, 0⟩, ⟨0, 0⟩⟩
        ⟨3 / 5, 4 / 5, 0⟩ ⟨3 / 5, -4 / 5, 0⟩ =
      Microfacet.Evaluate Real.sqrt
        ⟨3 / 2, fun _ _ _ => 1, BlinnDistribution Real.sqrt (fun x y => x ^ y) 2⟩
        ⟨⟨3 / 5, 4 / 5, 0⟩, ⟨0, 0, 1⟩, ⟨-4 / 5, 3 / 5, 0⟩, ⟨0, 0⟩⟩
        ⟨3 / 5, -4 / 5, 0⟩ ⟨3 / 5, 4 / 5, 0⟩ :=
  Microfacet_Evaluate_reciprocal Real.sqrt
    ⟨3 / 2, fun _ _ _ => 1, BlinnDistribution Real.sqrt (fun x y => x ^ y) 2⟩
    ⟨⟨3 / 5, 4 / 5, 0⟩, ⟨0, 0, 1⟩, ⟨-4 / 5, 3 / 5, 0⟩, ⟨0, 0⟩⟩
    ⟨3 / 5, 4 / 5, 0⟩ ⟨3 / 5, -4 / 5, 0⟩
    (by norm_num [dot]) (by norm_num [dot])
    (by
      intro h
      have hx := congrArg float3.x h
      norm_num [float3.add] at hx)
    (Or.inl (fun w n => BlinnDistribution_D_neg _ 2 w n))

/-- The halfway vector of `(3/5, 4/5, 0)` and `(3/5, -4/5, 0)` is `(1, 0, 0)`. -/
theorem normalize_example :
    normalize Real.sqrt (float3.add (⟨3 / 5, 4 / 5, 0⟩ : float3 ℝ) ⟨3 / 5, -4 / 5, 0⟩) =
      ⟨1, 0, 0⟩ := by
  have hs : Real.sqrt (36 / 25) = 6 / 5 := by
    rw [show (36 / 25 : ℝ) = (6 / 5) ^ 2 by norm_num]
    exact Real.sqrt_sq (by norm_num)
  have hn : (float3.add (⟨3 / 5, 4 / 5, 0⟩ : float3 ℝ) ⟨3 / 5, -4 / 5, 0⟩).sqnorm = 36 / 25 := by
    norm_num [float3.add, float3.sqnorm]
  unfold normalize
  rw [hn, hs]
  norm_num [float3.add, float3.scale]

/-- Counterexample to claim C6 as stated: the one-sided distribution
`D(w, n) = max(0, dot(n, w))` depends only on `(w, n)`; for the unit normal
`n = (3/5, 4/5, 0)` and the unit vectors `wi = n`, `wo = (3/5, -4/5, 0)` on
opposite sides of it, `Evaluate(isect, wi, wo)` is `-3/10` in every component
while `Evaluate(isect, wo, wi)` is `0`. -/
theorem Microfacet_Evaluate_not_reciprocal :
    dot (⟨3 / 5, 4 / 5, 0⟩ : float3 ℝ) ⟨3 / 5, 4 / 5, 0⟩ = 1 ∧
    dot (⟨3 / 5, -4 / 5, 0⟩ : float3 ℝ) ⟨3 / 5, -4 / 5, 0⟩ = 1 ∧
    float3.add (⟨3 / 5, 4 / 5, 0⟩ : float3 ℝ) ⟨3 / 5, -4 / 5, 0⟩ ≠ ⟨0, 0, 0⟩ ∧
    Microfacet.Evaluate Real.sqrt
        ⟨3 / 2, fun _ _ _ => 1, ⟨fun w n => max 0 (dot n w), fun _ _ _ => 0⟩⟩
        ⟨⟨3 / 5, 4 / 5, 0⟩, ⟨0, 0, 1⟩, ⟨-4 / 5, 3 / 5, 0⟩, ⟨0, 0⟩⟩
        ⟨3 / 5, 4 / 5, 0⟩ ⟨3 / 5, -4 / 5, 0⟩ = ⟨-3 / 10, -3 / 10, -3 / 10⟩ ∧
    Microfacet.Evaluate Real.sqrt
        ⟨3 / 2, fun _ _ _ => 1, ⟨fun w n => max 0 (dot n w), fun _ _ _ => 0⟩⟩
        ⟨⟨3 / 5, 4 / 5, 0⟩, ⟨0, 0, 1⟩, ⟨-4 / 5, 3 / 5, 0⟩, ⟨0, 0⟩⟩
        ⟨3 / 5, -4 / 5, 0⟩ ⟨3 / 5, 4 / 5, 0⟩ = ⟨0, 0, 0⟩ ∧
    (⟨-3 / 10, -3 / 10, -3 / 10⟩ : float3 ℝ) ≠ ⟨0, 0, 0⟩ := by
  refine ⟨by norm_num [dot], by norm_num [dot], ?_, ?_, ?_, ?_⟩
  · intro h
    have hx := congrArg float3.x h
    norm_num [float3.add] at hx
  · simp only [Microfacet.Evaluate, Microfacet.EvaluateLocal, normalize_example]
    norm_num [dot, Microfacet.G, float3.muls, stdmin, float3.neg, abs_div]
  · simp only [Microfacet.Evaluate, Microfacet.EvaluateLocal, float3_add_comm
      (⟨3 / 5, -4 / 5, 0⟩ : float3 ℝ) ⟨3 / 5, 4 / 5, 0⟩, normalize_example]
    norm_num [dot, Microfacet.G, float3.muls, stdmin, float3.neg]
  · intro h
    have hx := congrArg float3.x h
    norm_num at hx

/-- The constant `PI` is positive. -/
theorem PI_pos : (0 : α) < PI := by
  unfold PI
  positivity

/-- The geometric factor is never negative. -/
theorem Microfacet_G_nonneg (wi wo wh n : float3 α) : 0 ≤ Microfacet.G wi wo wh n := by
  unfold Microfacet.G
  simp only [stdmin_eq_min]
  refine le_min zero_le_one (le_min ?_ ?_)
  · exact div_nonneg (mul_nonneg (mul_nonneg zero_le_two (abs_nonneg _)) (abs_nonneg _))
      (abs_nonneg _)
  · exact div_nonneg (mul_nonneg (mul_nonneg zero_le_two (abs_nonneg _)) (abs_nonneg _))
      (abs_nonneg _)

/-- The value computed with an oriented normal is non-negative in every
component when the two zenith cosines have the same sign and `D` and the Fresnel
term are non-negative. -/
theorem Microfacet_EvaluateLocal_nonneg (sqrt : α → α) (m : Microfacet α)
    (n wi wo : float3 α) (hside : 0 < dot n wi * dot n wo)
    (hD : ∀ w k, 0 ≤ m.md_.D w k) (hF : ∀ a b c, 0 ≤ m.fresnel_ a b c) :
    0 ≤ (Microfacet.EvaluateLocal sqrt m n wi wo).x ∧
      0 ≤ (Microfacet.EvaluateLocal sqrt m n wi wo).y ∧
      0 ≤ (Microfacet.EvaluateLocal sqrt m n wi wo).z := by
  have hq : 0 ≤ m.md_.D (normalize sqrt (wi.add wo)) n *
      Microfacet.G wi wo (normalize sqrt (wi.add wo)) n *
      m.fresnel_ 1 m.eta_ (dot wi (normalize sqrt (wi.add wo))) /
      (4 * dot n wi * dot n wo) := by
    refine div_nonneg (mul_nonneg (mul_nonneg (hD _ _) (Microfacet_G_nonneg _ _ _ _))
      (hF _ _ _)) ?_
    rw [mul_assoc]
    exact (mul_pos four_pos hside).le
  simp only [Microfacet.EvaluateLocal]
  split_ifs with hz
  · exact ⟨le_refl _, le_refl _, le_refl _⟩
  · simp only [float3.muls, one_mul]
    exact ⟨hq, hq, hq⟩

/-- Two unit vectors have dot product at least `-1`. -/
theorem dot_unit_ge_neg_one (wi wo : float3 α) (hwi : dot wi wi = 1) (hwo : dot wo wo = 1) :
    0 ≤ dot wo wi + 1 := by
  unfold dot at hwi hwo ⊢
  nlinarith [sq_nonneg (wi.x + wo.x), sq_nonneg (wi.y + wo.y), sq_nonneg (wi.z + wo.z)]

/-- The Blinn density is non-negative for unit vectors on the side of the
normal, an exponent `e ≥ -1`, a non-negative square root and a power function
that is non-negative on non-negative bases. -/
theorem BlinnDistribution_Pdf_nonneg (sqrt : α → α) (powf : α → α → α) (e : α)
    (isect : Intersection α) (wi wo : float3 α)
    (hsqrt : ∀ x, 0 ≤ sqrt x) (hpow : ∀ x y, 0 ≤ x → 0 ≤ powf x y) (he : 0 ≤ e + 1)
    (hwi : dot wi wi = 1) (hwo : dot wo wo = 1)
    (hni : 0 ≤ dot isect.n wi) (hno : 0 ≤ dot isect.n wo) :
    0 ≤ BlinnDistribution.Pdf sqrt powf e isect wi wo := by
  have hc : 0 ≤ 1 / sqrt (wi.add wo).sqnorm := div_nonneg zero_le_one (hsqrt _)
  have h1 : 0 ≤ dot isect.n (normalize sqrt (wi.add wo)) := by
    rw [dot_normalize_add]
    exact mul_nonneg hc (add_nonneg hni hno)
  have h2 : 0 ≤ dot wo (normalize sqrt (wi.add wo)) := by
    rw [dot_normalize_add, hwo]
    exact mul_nonneg hc (dot_unit_ge_neg_one wi wo hwi hwo)
  unfold BlinnDistribution.Pdf
  refine div_nonneg (div_nonneg he (hpow _ _ h1)) ?_
  exact mul_nonneg (mul_nonneg (mul_nonneg zero_le_two PI_pos.le) zero_le_four) h2

/-- No division by zero occurs in `Microfacet::Evaluate` and
`BlinnDistribution::Pdf` for unit vectors strictly on the side of the normal:
the length of `wi + wo`, the cosine `dot(wo, wh)`, the power `dot(n, wh)^e` and
the product `4 cos_theta_i cos_theta_o` are all positive. -/
theorem Microfacet_Blinn_denominators_pos (e : ℝ) (n wi wo : float3 ℝ)
    (hwi : dot wi wi = 1) (hwo : dot wo wo = 1)
    (hni : 0 < dot n wi) (hno : 0 < dot n wo) :
    0 < Real.sqrt (wi.add wo).sqnorm ∧
      0 < dot wo (normalize Real.sqrt (wi.add wo)) ∧
      0 < |dot wo (normalize Real.sqrt (wi.add wo))| ∧
      0 < (dot n (normalize Real.sqrt (wi.add wo))) ^ e ∧
      0 < 4 * dot n wi * dot n wo := by
  have hsq : 0 < (wi.add wo).sqnorm := by
    have hnn : 0 ≤ (wi.add wo).sqnorm := by
      simp only [float3.sqnorm, float3.add]
      exact add_nonneg (add_nonneg (mul_self_nonneg _) (mul_self_nonneg _)) (mul_self_nonneg _)
    rcases hnn.lt_or_eq with h | h
    · exact h
    · exfalso
      simp only [float3.sqnorm, float3.add] at h
      have hx : (wi.x + wo.x) * (wi.x + wo.x) = 0 := by
        nlinarith [mul_self_nonneg (wi.x + wo.x), mul_self_nonneg (wi.y + wo.y),
          mul_self_nonneg (wi.z + wo.z)]
      have hy : (wi.y + wo.y) * (wi.y + wo.y) = 0 := by
        nlinarith [mul_self_nonneg (wi.x + wo.x), mul_self_nonneg (wi.y + wo.y),
          mul_self_nonneg (wi.z + wo.z)]
      have hz : (wi.z + wo.z) * (wi.z + wo.z) = 0 := by
        nlinarith [mul_self_nonneg (wi.x + wo.x), mul_self_nonneg (wi.y + wo.y),
          mul_self_nonneg (wi.z + wo.z)]
      have hx0 := mul_self_eq_zero.mp hx
      have hy0 := mul_self_eq_zero.mp hy
      have hz0 := mul_self_eq_zero.mp hz
      have hsum : dot n wi + dot n wo = 0 := by
        unfold dot
        linear_combination n.x * hx0 + n.y * hy0 + n.z * hz0
      linarith
  have hs : 0 < Real.sqrt (wi.add wo).sqnorm := Real.sqrt_pos.mpr hsq
  have hc : 0 < 1 / Real.sqrt (wi.add wo).sqnorm := one_div_pos.mpr hs
  have hhalf : (wi.add wo).sqnorm = 2 * (dot wo wi + 1) := by
    unfold dot at hwi hwo ⊢
    simp only [float3.sqnorm, float3.add]
    linear_combination hwi + hwo
  have h2 : 0 < dot wo (normalize Real.sqrt (wi.add wo)) := by
    rw [dot_normalize_add, hwo]
    exact mul_pos hc (by linarith)
  have h1 : 0 < dot n (normalize Real.sqrt (wi.add wo)) := by
    rw [dot_normalize_add]
    exact mul_pos hc (add_pos hni hno)
  refine ⟨hs, h2, abs_pos.mpr h2.ne.symm, Real.rpow_pos_of_pos h1 e, ?_⟩
  rw [mul_assoc]
  exact mul_pos four_pos (mul_pos hni hno)

/-- Claim C7: for the microfacet BSDF with a Blinn distribution of exponent
`e ≥ 0` and a non-negative Fresnel term, and for unit vectors `wi`, `wo`
strictly on the same side of the normal, every component of
`Microfacet::Evaluate` is non-negative and `Microfacet::Pdf` is non-negative
(over the reals, with the real square root and the real power function). -/
theorem Microfacet_Blinn_nonneg (eta e : ℝ) (fresnel : ℝ → ℝ → ℝ → ℝ)
    (isect : Intersection ℝ) (wi wo : float3 ℝ)
    (he : 0 ≤ e) (hF : ∀ a b c, 0 ≤ fresnel a b c)
    (hwi : dot wi wi = 1) (hwo : dot wo wo = 1)
    (hside : (0 < dot isect.n wi ∧ 0 < dot isect.n wo) ∨
      (dot isect.n wi < 0 ∧ dot isect.n wo < 0)) :
    (0 ≤ (Microfacet.Evaluate Real.sqrt
          ⟨eta, fresnel, BlinnDistribution Real.sqrt (fun x y => x ^ y) e⟩ isect wi wo).x ∧
      0 ≤ (Microfacet.Evaluate Real.sqrt
          ⟨eta, fresnel, BlinnDistribution Real.sqrt (fun x y => x ^ y) e⟩ isect wi wo).y ∧
      0 ≤ (Microfacet.Evaluate Real.sqrt
          ⟨eta, fresnel, BlinnDistribution Real.sqrt (fun x y => x ^ y) e⟩ isect wi wo).z) ∧
    0 ≤ Microfacet.Pdf
      ⟨eta, fresnel, BlinnDistribution Real.sqrt (fun x y => x ^ y) e⟩ isect wi wo := by
  have hpow : ∀ x y : ℝ, 0 ≤ x → 0 ≤ (fun x y : ℝ => x ^ y) x y :=
    fun x y hx => Real.rpow_nonneg hx y
  have hD : ∀ w k : float3 ℝ, 0 ≤ BlinnDistribution.D (fun x y : ℝ => x ^ y) e w k := by
    intro w k
    unfold BlinnDistribution.D
    refine mul_nonneg (mul_nonneg ?_ (by linarith)) (hpow _ _ (abs_nonneg _))
    exact div_nonneg zero_le_one (mul_nonneg zero_le_two PI_pos.le)
  constructor
  · unfold Microfacet.Evaluate
    refine Microfacet_EvaluateLocal_nonneg Real.sqrt _ _ wi wo ?_ hD hF
    rw [dot_comm wi isect.n]
    rcases hside with ⟨h1, h2⟩ | ⟨h1, h2⟩
    · rw [if_neg (not_lt.mpr h1.le)]
      exact mul_pos h1 h2
    · rw [if_pos h1, dot_neg_left, dot_neg_left]
      exact mul_pos (neg_pos.mpr h1) (neg_pos.mpr h2)
  · unfold Microfacet.Pdf
    simp only [BlinnDistribution]
    rcases hside with ⟨h1, h2⟩ | ⟨h1, h2⟩
    · rw [if_neg (not_lt.mpr h1.le)]
      exact BlinnDistribution_Pdf_nonneg Real.sqrt _ e isect wi wo Real.sqrt_nonneg hpow
        (by linarith) hwi hwo h1.le h2.le
    · rw [if_pos h1]
      refine BlinnDistribution_Pdf_nonneg Real.sqrt _ e isect.flip wi wo Real.sqrt_nonneg hpow
        (by linarith) hwi hwo ?_ ?_
      · simp only [Intersection.flip, dot_neg_left]
        linarith
      · simp only [Intersection.flip, dot_neg_left]
        linarith

/-- Witness for claim C7: exponent `2`, constant Fresnel term `1`, the normal
`(0, 0, 1)` and `wi = wo = (0, 0, 1)`. -/
theorem Microfacet_Blinn_nonneg_witness :
    (0 ≤ (Microfacet.Evaluate Real.sqrt
          ⟨3 / 2, fun _ _ _ => 1, BlinnDistribution Real.sqrt (fun x y => x ^ y) 2⟩
          ⟨⟨0, 0, 1⟩, ⟨1, 0, 0⟩, ⟨0, 1, 0⟩, ⟨0, 0⟩⟩ ⟨0, 0, 1⟩ ⟨0, 0, 1⟩).x ∧
      0 ≤ (Microfacet.Evaluate Real.sqrt
          ⟨3 / 2, fun _ _ _ => 1, BlinnDistribution Real.sqrt (fun x y => x ^ y) 2⟩
          ⟨⟨0, 0, 1⟩, ⟨1, 0, 0⟩, ⟨0, 1, 0⟩, ⟨0, 0⟩⟩ ⟨0, 0, 1⟩ ⟨0, 0, 1⟩).y ∧
      0 ≤ (Microfacet.Evaluate Real.sqrt
          ⟨3 / 2, fun _ _ _ => 1, BlinnDistribution Real.sqrt (fun x y => x ^ y) 2⟩
          ⟨⟨0, 0, 1⟩, ⟨1, 0, 0⟩, ⟨0, 1, 0⟩, ⟨0, 0⟩⟩ ⟨0, 0, 1⟩ ⟨0, 0, 1⟩).z) ∧
    0 ≤ Microfacet.Pdf
      ⟨3 / 2, fun _ _ _ => 1, BlinnDistribution Real.sqrt (fun x y => x ^ y) 2⟩
      ⟨⟨0, 0, 1⟩, ⟨1, 0, 0⟩, ⟨0, 1, 0⟩, ⟨0, 0⟩⟩ ⟨0, 0, 1⟩ ⟨0, 0, 1⟩ :=
  Microfacet_Blinn_nonneg (3 / 2) 2 (fun _ _ _ => 1)
    ⟨⟨0, 0, 1⟩, ⟨1, 0, 0⟩, ⟨0, 1, 0⟩, ⟨0, 0⟩⟩ ⟨0, 0, 1⟩ ⟨0, 0, 1⟩
    (by norm_num) (fun _ _ _ => zero_le_one) (by norm_num [dot]) (by norm_num [dot])
    (Or.inl ⟨by norm_num [dot], by norm_num [dot]⟩)

/-- The halfway vector of `(0, 0, 1)` with itself is `(0, 0, 1)`. -/
theorem normalize_axis_example :
    normalize Real.sqrt (float3.add (⟨0, 0, 1⟩ : float3 ℝ) ⟨0, 0, 1⟩) = ⟨0, 0, 1⟩ := by
  have hs : Real.sqrt 4 = 2 := by
    rw [show (4 : ℝ) = 2 ^ 2 by norm_num]
    exact Real.sqrt_sq (by norm_num)
  have hn : (float3.add (⟨0, 0, 1⟩ : float3 ℝ) ⟨0, 0, 1⟩).sqnorm = 4 := by
    norm_num [float3.add, float3.sqnorm]
  unfold normalize
  rw [hn, hs]
  norm_num [float3.add, float3.scale]

/-- Counterexample to claim C8 as stated: for exponent `0`, the unit normal
`n = (0, 0, 1)` and `wi = wo = n` (so `wh = n`), `BlinnDistribution::Pdf` is
`1 / (8 PI)` while `D(wh, n) * |dot(n, wh)| / (4 * |dot(wo, wh)|)` is
`1 / (4 PI)`. -/
theorem BlinnDistribution_Pdf_ne_D_formula :
    dot (⟨0, 0, 1⟩ : float3 ℝ) ⟨0, 0, 1⟩ = 1 ∧
    BlinnDistribution.Pdf Real.sqrt (fun x y => x ^ y) 0
        ⟨⟨0, 0, 1⟩, ⟨1, 0, 0⟩, ⟨0, 1, 0⟩, ⟨0, 0⟩⟩ ⟨0, 0, 1⟩ ⟨0, 0, 1⟩ = 1 / (8 * PI) ∧
    BlinnDistribution.D (fun x y : ℝ => x ^ y) 0
          (normalize Real.sqrt (float3.add ⟨0, 0, 1⟩ ⟨0, 0, 1⟩)) ⟨0, 0, 1⟩ *
        |dot (⟨0, 0, 1⟩ : float3 ℝ) (normalize Real.sqrt (float3.add ⟨0, 0, 1⟩ ⟨0, 0, 1⟩))| /
        (4 * |dot (⟨0, 0, 1⟩ : float3 ℝ)
          (normalize Real.sqrt (float3.add ⟨0, 0, 1⟩ ⟨0, 0, 1⟩))|) = 1 / (4 * PI) ∧
    (1 / (8 * PI) : ℝ) ≠ 1 / (4 * PI) := by
  refine ⟨by norm_num [dot], ?_, ?_, ?_⟩
  · simp only [BlinnDistribution.Pdf, normalize_axis_example]
    norm_num [dot]
    ring
  · simp only [BlinnDistribution.D, normalize_axis_example]
    norm_num [dot]
    ring
  · norm_num [PI]

/-- Claim C8, amended: for unit vectors `wi`, `wo` with `wh = normalize(wi + wo)`,
when the exponent is `0` or `dot(n, wh) = 1`, `BlinnDistribution::Pdf` equals
`(e + 1) / (2 PI * 4 * |dot(wo, wh)|)`: the density of the halfway vector carries
the normalisation `(e + 1) / (2 PI)`, not `D(wh, n) * |dot(n, wh)|`. -/
theorem BlinnDistribution_Pdf_formula (e : ℝ) (isect : Intersection ℝ) (wi wo : float3 ℝ)
    (hwi : dot wi wi = 1) (hwo : dot wo wo = 1)
    (hcase : e = 0 ∨ dot isect.n (normalize Real.sqrt (wi.add wo)) = 1) :
    BlinnDistribution.Pdf Real.sqrt (fun x y => x ^ y) e isect wi wo =
      (e + 1) / (2 * PI * 4 * |dot wo (normalize Real.sqrt (wi.add wo))|) := by
  have hc : 0 ≤ 1 / Real.sqrt (wi.add wo).sqnorm := div_nonneg zero_le_one (Real.sqrt_nonneg _)
  have h2 : 0 ≤ dot wo (normalize Real.sqrt (wi.add wo)) := by
    rw [dot_normalize_add, hwo]
    exact mul_nonneg hc (dot_unit_ge_neg_one wi wo hwi hwo)
  have hp : (dot isect.n (normalize Real.sqrt (wi.add wo))) ^ e = 1 := by
    rcases hcase with h | h
    · rw [h, Real.rpow_zero]
    · rw [h, Real.one_rpow]
  unfold BlinnDistribution.Pdf
  simp only [hp, div_one, abs_of_nonneg h2]

/-- Witness for claim C8, amended: exponent `0` and `wi = wo = n = (0, 0, 1)`. -/
theorem BlinnDistribution_Pdf_formula_witness :
    BlinnDistribution.Pdf Real.sqrt (fun x y => x ^ y) 0
        ⟨⟨0, 0, 1⟩, ⟨1, 0, 0⟩, ⟨0, 1, 0⟩, ⟨0, 0⟩⟩ ⟨0, 0, 1⟩ ⟨0, 0, 1⟩ =
      (0 + 1) / (2 * PI * 4 *
        |dot (⟨0, 0, 1⟩ : float3 ℝ) (normalize Real.sqrt (float3.add ⟨0, 0, 1⟩ ⟨0, 0, 1⟩))|) :=
  BlinnDistribution_Pdf_formula 0 ⟨⟨0, 0, 1⟩, ⟨1, 0, 0⟩, ⟨0, 1, 0⟩, ⟨0, 0⟩⟩ ⟨0, 0, 1⟩ ⟨0, 0, 1⟩
    (by norm_num [dot]) (by norm_num [dot]) (Or.inl rfl)

/-- Claim C9: the code of `Phong::Evaluate` is not the deterministic weighted
sum.  For a material with Fresnel reflectance `1/2`, white specular colour, grey
diffuse colour and component values `(1, 1, 1)` and `(1/2, 1/2, 1/2)`, the call
returns the specular term alone when `rand_float()` gives `0`, the diffuse term
alone when it gives `1`, and in neither case the weighted sum. -/
theorem Phong_Evaluate_depends_on_rand (isect : Intersection ℚ) (wi wo : float3 ℚ) :
    Phong.Evaluate
        ⟨3 / 2, ⟨1 / 2, 1 / 2, 1 / 2⟩, ⟨1, 1, 1⟩, true, true, fun _ _ _ => 1 / 2,
          fun _ _ _ => ⟨1 / 2, 1 / 2, 1 / 2⟩, fun _ _ _ => ⟨1, 1, 1⟩,
          fun _ => ⟨0, 0, 0⟩, fun i => i⟩ 0 isect wi wo = ⟨1, 1, 1⟩ ∧
    Phong.Evaluate
        ⟨3 / 2, ⟨1 / 2, 1 / 2, 1 / 2⟩, ⟨1, 1, 1⟩, true, true, fun _ _ _ => 1 / 2,
          fun _ _ _ => ⟨1 / 2, 1 / 2, 1 / 2⟩, fun _ _ _ => ⟨1, 1, 1⟩,
          fun _ => ⟨0, 0, 0⟩, fun i => i⟩ 1 isect wi wo = ⟨1 / 4, 1 / 4, 1 / 4⟩ ∧
    Phong.weighted_sum
        ⟨3 / 2, ⟨1 / 2, 1 / 2, 1 / 2⟩, ⟨1, 1, 1⟩, true, true, fun _ _ _ => 1 / 2,
          fun _ _ _ => ⟨1 / 2, 1 / 2, 1 / 2⟩, fun _ _ _ => ⟨1, 1, 1⟩,
          fun _ => ⟨0, 0, 0⟩, fun i => i⟩ isect wi wo = ⟨5 / 8, 5 / 8, 5 / 8⟩ := by
  refine ⟨?_, ?_, ?_⟩
  · norm_num [Phong.Evaluate, float3.mul]
  · norm_num [Phong.Evaluate, float3.mul]
  · norm_num [Phong.weighted_sum, float3.mul, float3.scale, float3.add]

/-- Claim C10: `PowerHeuristic(nf, fpdf, ng, gpdf)` is
`(nf*fpdf)^2 / ((nf*fpdf)^2 + (ng*gpdf)^2)`, and with one sample per strategy
`PowerHeuristic(1, p1, 1, p2) = p1^2 / (p1^2 + p2^2)`. -/
theorem PowerHeuristic_formula (nf ng : Int) (fpdf gpdf p1 p2 : α) :
    PowerHeuristic nf fpdf ng gpdf =
        ((nf : α) * fpdf) ^ 2 / (((nf : α) * fpdf) ^ 2 + ((ng : α) * gpdf) ^ 2) ∧
      PowerHeuristic 1 p1 1 p2 = p1 ^ 2 / (p1 ^ 2 + p2 ^ 2) := by
  constructor
  · simp only [PowerHeuristic, sq]
  · simp only [PowerHeuristic, sq, Int.cast_one, one_mul]

/-- The squared length is the dot product of a vector with itself. -/
theorem sqnorm_eq_dot (a : float3 α) : a.sqnorm = dot a a := rfl

/-- A vector product is orthogonal to its first factor. -/
theorem dot_cross_self_left (a b : float3 α) : dot (cross a b) a = 0 := by
  simp only [dot, cross]
  ring

/-- A vector product is orthogonal to its second factor. -/
theorem dot_cross_self_right (a b : float3 α) : dot (cross a b) b = 0 := by
  simp only [dot, cross]
  ring

/-- The identity of Lagrange for the squared length of a vector product. -/
theorem dot_cross_cross (a b : float3 α) :
    dot (cross a b) (cross a b) = dot a a * dot b b - dot a b * dot a b := by
  simp only [dot, cross]
  ring

/-- For a unit vector `n` and `p` orthogonal to it, `cross(n, cross(p, n)) = p`. -/
theorem cross_cross_of_orthonormal (n p : float3 α) (hn : dot n n = 1) (hpn : dot p n = 0) :
    cross n (cross p n) = p := by
  simp only [dot] at hn hpn
  ext
  · simp only [cross]
    linear_combination p.x * hn - n.x * hpn
  · simp only [cross]
    linear_combination p.y * hn - n.y * hpn
  · simp only [cross]
    linear_combination p.z * hn - n.z * hpn

/-- The squared length of a combination of three orthonormal vectors. -/
theorem dot_orthonormal_combination (p v n : float3 α) (a b c : α)
    (hpp : dot p p = 1) (hvv : dot v v = 1) (hnn : dot n n = 1)
    (hpv : dot p v = 0) (hpn : dot p n = 0) (hvn : dot v n = 0) :
    dot (((p.muls a).add (v.muls b)).add (n.muls c))
        (((p.muls a).add (v.muls b)).add (n.muls c)) = a * a + b * b + c * c ∧
      dot n (((p.muls a).add (v.muls b)).add (n.muls c)) = c := by
  simp only [dot, float3.add, float3.muls] at *
  constructor
  · linear_combination a * a * hpp + b * b * hvv + c * c * hnn + 2 * a * b * hpv +
      2 * a * c * hpn + 2 * b * c * hvn
  · linear_combination c * hnn + a * hpn + b * hvn

/-- Scaling twice on the right is scaling by the product. -/
theorem muls_muls (a : float3 α) (c d : α) : (a.muls c).muls d = a.muls (c * d) := by
  ext <;> simp only [float3.muls, mul_assoc]

/-- For a unit vector `n`, `orthovector(n)` is a unit vector orthogonal to `n`
(over the reals, with the real square root). -/
theorem orthovector_orthonormal (n : float3 ℝ) (hn : dot n n = 1) :
    dot (orthovector Real.sqrt n) (orthovector Real.sqrt n) = 1 ∧
      dot (orthovector Real.sqrt n) n = 0 := by
  simp only [dot] at hn
  unfold orthovector
  split_ifs with hz
  · have hzz : 0 < n.z * n.z := by
      have h0 : 0 < |n.z| := lt_trans (by norm_num) hz
      exact mul_self_pos.mpr (abs_pos.mp h0)
    have hk : 0 < n.y * n.y + n.z * n.z := by nlinarith [mul_self_nonneg n.y]
    have hs : Real.sqrt (n.y * n.y + n.z * n.z) * Real.sqrt (n.y * n.y + n.z * n.z) =
        n.y * n.y + n.z * n.z := Real.mul_self_sqrt hk.le
    have hne : Real.sqrt (n.y * n.y + n.z * n.z) ≠ 0 := (Real.sqrt_pos.mpr hk).ne.symm
    simp only [dot]
    constructor
    · field_simp
      ring
    · field_simp
      ring
  · have hle : |n.z| ≤ 707106781186547524401 / 1000000000000000000000 := not_lt.mp hz
    have hzz : n.z * n.z ≤ 3 / 4 := by
      have h1 : n.z * n.z = |n.z| * |n.z| := (abs_mul_abs_self n.z).symm
      rw [h1]
      nlinarith [abs_nonneg n.z]
    have hk : 0 < n.x * n.x + n.y * n.y := by linarith
    have hs : Real.sqrt (n.x * n.x + n.y * n.y) * Real.sqrt (n.x * n.x + n.y * n.y) =
        n.x * n.x + n.y * n.y := Real.mul_self_sqrt hk.le
    have hne : Real.sqrt (n.x * n.x + n.y * n.y) ≠ 0 := (Real.sqrt_pos.mpr hk).ne.symm
    simp only [dot]
    constructor
    · field_simp
      ring
    · field_simp
      ring

/-- Normalizing a unit vector returns it (over the reals). -/
theorem normalize_of_unit (w : float3 ℝ) (hw : dot w w = 1) : normalize Real.sqrt w = w := by
  unfold normalize
  rw [sqnorm_eq_dot, hw, Real.sqrt_one]
  ext <;> simp only [float3.scale, div_one, one_mul]

/-- For a unit normal `n`, a sample with `0 ≤ s.y ≤ 1` and an exponent
`e ≥ 0`, `map_to_hemisphere(n, s, e)` is a unit vector whose cosine with `n` is
`(1 - s.y)^(1/(e+1))` (over the reals, with the real library functions). -/
theorem map_to_hemisphere_unit (n : float3 ℝ) (s : float2 ℝ) (e : ℝ)
    (hn : dot n n = 1) (hs0 : 0 ≤ s.y) (hs1 : s.y ≤ 1) (he : 0 ≤ e) :
    dot (map_to_hemisphere Real.sqrt Real.sin Real.cos (fun x y => x ^ y) n s e)
        (map_to_hemisphere Real.sqrt Real.sin Real.cos (fun x y => x ^ y) n s e) = 1 ∧
      dot n (map_to_hemisphere Real.sqrt Real.sin Real.cos (fun x y => x ^ y) n s e) =
        (1 - s.y) ^ (1 / (e + 1)) := by
  obtain ⟨hpp, hpn⟩ := orthovector_orthonormal n hn
  have hvv : dot (cross (orthovector Real.sqrt n) n) (cross (orthovector Real.sqrt n) n) = 1 := by
    rw [dot_cross_cross, hpp, hn, hpn]
    ring
  have hpv : dot (orthovector Real.sqrt n) (cross (orthovector Real.sqrt n) n) = 0 := by
    rw [dot_comm]
    exact dot_cross_self_left _ _
  have hvn : dot (cross (orthovector Real.sqrt n) n) n = 0 := dot_cross_self_right _ _
  have hu : cross n (cross (orthovector Real.sqrt n) n) = orthovector Real.sqrt n :=
    cross_cross_of_orthonormal n _ hn hpn
  have hc0 : 0 ≤ (1 - s.y) ^ (1 / (e + 1)) := Real.rpow_nonneg (by linarith) _
  have hc1 : (1 - s.y) ^ (1 / (e + 1)) ≤ 1 :=
    Real.rpow_le_one (by linarith) (by linarith) (by positivity)
  have hsin : Real.sqrt (1 - (1 - s.y) ^ (1 / (e + 1)) * (1 - s.y) ^ (1 / (e + 1))) *
      Real.sqrt (1 - (1 - s.y) ^ (1 / (e + 1)) * (1 - s.y) ^ (1 / (e + 1))) =
      1 - (1 - s.y) ^ (1 / (e + 1)) * (1 - s.y) ^ (1 / (e + 1)) :=
    Real.mul_self_sqrt (by nlinarith)
  have htrig := Real.sin_sq_add_cos_sq (2 * PI * s.x)
  have hcomb := dot_orthonormal_combination (orthovector Real.sqrt n)
    (cross (orthovector Real.sqrt n) n) n
    (Real.sqrt (1 - (1 - s.y) ^ (1 / (e + 1)) * (1 - s.y) ^ (1 / (e + 1))) *
      Real.cos (2 * PI * s.x))
    (Real.sqrt (1 - (1 - s.y) ^ (1 / (e + 1)) * (1 - s.y) ^ (1 / (e + 1))) *
      Real.sin (2 * PI * s.x))
    ((1 - s.y) ^ (1 / (e + 1))) hpp hvv hn hpv hpn hvn
  have hunit : dot
      ((((orthovector Real.sqrt n).muls
          (Real.sqrt (1 - (1 - s.y) ^ (1 / (e + 1)) * (1 - s.y) ^ (1 / (e + 1))) *
            Real.cos (2 * PI * s.x))).add
        ((cross (orthovector Real.sqrt n) n).muls
          (Real.sqrt (1 - (1 - s.y) ^ (1 / (e + 1)) * (1 - s.y) ^ (1 / (e + 1))) *
            Real.sin (2 * PI * s.x)))).add (n.muls ((1 - s.y) ^ (1 / (e + 1)))))
      ((((orthovector Real.sqrt n).muls
          (Real.sqrt (1 - (1 - s.y) ^ (1 / (e + 1)) * (1 - s.y) ^ (1 / (e + 1))) *
            Real.cos (2 * PI * s.x))).add
        ((cross (orthovector Real.sqrt n) n).muls
          (Real.sqrt (1 - (1 - s.y) ^ (1 / (e + 1)) * (1 - s.y) ^ (1 / (e + 1))) *
            Real.sin (2 * PI * s.x)))).add (n.muls ((1 - s.y) ^ (1 / (e + 1))))) = 1 := by
    rw [hcomb.1]
    linear_combination
      (Real.sqrt (1 - (1 - s.y) ^ (1 / (e + 1)) * (1 - s.y) ^ (1 / (e + 1))) *
        Real.sqrt (1 - (1 - s.y) ^ (1 / (e + 1)) * (1 - s.y) ^ (1 / (e + 1)))) * htrig + hsin
  simp only [map_to_hemisphere, hu, muls_muls]
  rw [normalize_of_unit _ hunit]
  exact ⟨hunit, hcomb.2⟩

/-- A non-zero vector divided by its length is a unit vector (over the reals). -/
theorem normalize_unit (w : float3 ℝ) (hw : 0 < dot w w) :
    dot (normalize Real.sqrt w) (normalize Real.sqrt w) = 1 := by
  have hs : Real.sqrt (dot w w) * Real.sqrt (dot w w) = dot w w := Real.mul_self_sqrt hw.le
  have hne : Real.sqrt (dot w w) ≠ 0 := (Real.sqrt_pos.mpr hw).ne.symm
  have hexp : dot (normalize Real.sqrt w) (normalize Real.sqrt w) =
      dot w w / (Real.sqrt (dot w w) * Real.sqrt (dot w w)) := by
    simp only [normalize, sqnorm_eq_dot]
    simp only [dot, float3.scale]
    field_simp
  rw [hexp, hs]
  exact div_self hw.ne.symm

/-- The difference of two distinct points has positive squared length. -/
theorem dot_sub_pos (a b : float3 α) (hab : b ≠ a) : 0 < dot (a.sub b) (a.sub b) := by
  have hnn : 0 ≤ dot (a.sub b) (a.sub b) := by
    simp only [dot, float3.sub]
    exact add_nonneg (add_nonneg (mul_self_nonneg _) (mul_self_nonneg _)) (mul_self_nonneg _)
  rcases hnn.lt_or_eq with h | h
  · exact h
  · exfalso
    apply hab
    simp only [dot, float3.sub] at h
    have hx : (a.x - b.x) * (a.x - b.x) = 0 := by
      nlinarith [mul_self_nonneg (a.x - b.x), mul_self_nonneg (a.y - b.y),
        mul_self_nonneg (a.z - b.z)]
    have hy : (a.y - b.y) * (a.y - b.y) = 0 := by
      nlinarith [mul_self_nonneg (a.x - b.x), mul_self_nonneg (a.y - b.y),
        mul_self_nonneg (a.z - b.z)]
    have hz : (a.z - b.z) * (a.z - b.z) = 0 := by
      nlinarith [mul_self_nonneg (a.x - b.x), mul_self_nonneg (a.y - b.y),
        mul_self_nonneg (a.z - b.z)]
    ext
    · linarith [mul_self_eq_zero.mp hx]
    · linarith [mul_self_eq_zero.mp hy]
    · linarith [mul_self_eq_zero.mp hz]

/-- A unit vector made longer by a positive factor has the square of the factor
as squared length and normalizes back to itself (over the reals). -/
theorem normalize_muls_unit (w : float3 ℝ) (c : ℝ) (hw : dot w w = 1) (hc : 0 < c) :
    dot (w.muls c) (w.muls c) = c * c ∧ normalize Real.sqrt (w.muls c) = w := by
  have hq : dot (w.muls c) (w.muls c) = c * c := by
    simp only [dot, float3.muls] at hw ⊢
    linear_combination c * c * hw
  refine ⟨hq, ?_⟩
  unfold normalize
  rw [sqnorm_eq_dot, hq, Real.sqrt_mul_self hc.le]
  ext <;> simp only [float3.scale, float3.muls] <;> field_simp

/-- Counterexample to claim C11 as stated: for the point light at `(0, 0, 2)`
and the hit point `(0, 0, 0)`, `PointLight::GetSample` outputs `d = (0, 0, 2)`,
whose squared length is `4`, not `1`. -/
theorem PointLight_GetSample_d_not_unit :
    (⟨0, 0, 0⟩ : float3 ℚ) ≠ ⟨0, 0, 2⟩ ∧
    (PointLight.GetSample (⟨⟨0, 0, 2⟩, ⟨1, 1, 1⟩⟩ : PointLight ℚ)
        ⟨⟨0, 0, 0⟩, ⟨0, 0, 1⟩⟩ ⟨0, 0⟩).d = ⟨0, 0, 2⟩ ∧
    dot (PointLight.GetSample (⟨⟨0, 0, 2⟩, ⟨1, 1, 1⟩⟩ : PointLight ℚ)
        ⟨⟨0, 0, 0⟩, ⟨0, 0, 1⟩⟩ ⟨0, 0⟩).d
      (PointLight.GetSample (⟨⟨0, 0, 2⟩, ⟨1, 1, 1⟩⟩ : PointLight ℚ)
        ⟨⟨0, 0, 0⟩, ⟨0, 0, 1⟩⟩ ⟨0, 0⟩).d = 4 ∧
    (4 : ℚ) ≠ 1 := by
  refine ⟨?_, ?_, ?_, by norm_num⟩
  · intro h
    have hz := congrArg float3.z h
    norm_num at hz
  · norm_num [PointLight.GetSample, float3.sub]
  · norm_num [PointLight.GetSample, float3.sub, dot]

/-- Claim C11, amended: for a hit point different from the light position,
`PointLight::GetSample` outputs the vector `d = p_ - hit.p`, which is not
normalised: it is non-zero and `d/|d|` is a unit vector.  For a unit normal and a
sample with `0 ≤ s.y ≤ 1`, `EnvironmentLight::GetSample` outputs a vector `d` of
squared length `10^14` (a unit vector times `10000000`), and `d/|d|` is a unit
vector. -/
theorem GetSample_direction (pl : PointLight ℝ) (el : EnvironmentLight ℝ)
    (hit : Hit ℝ) (sample : float2 ℝ)
    (hne : hit.p ≠ pl.p_) (hn : dot hit.n hit.n = 1)
    (hs : 0 ≤ sample.y ∧ sample.y ≤ 1) :
    ((pl.GetSample hit sample).d = pl.p_.sub hit.p ∧
        0 < dot (pl.GetSample hit sample).d (pl.GetSample hit sample).d ∧
        dot (normalize Real.sqrt (pl.GetSample hit sample).d)
          (normalize Real.sqrt (pl.GetSample hit sample).d) = 1) ∧
      (dot (el.GetSample Real.sqrt Real.sin Real.cos (fun x y => x ^ y) hit sample).d
          (el.GetSample Real.sqrt Real.sin Real.cos (fun x y => x ^ y) hit sample).d =
          10000000 * 10000000 ∧
        dot (normalize Real.sqrt
            (el.GetSample Real.sqrt Real.sin Real.cos (fun x y => x ^ y) hit sample).d)
          (normalize Real.sqrt
            (el.GetSample Real.sqrt Real.sin Real.cos (fun x y => x ^ y) hit sample).d) =
          1) := by
  have hpos := dot_sub_pos pl.p_ hit.p hne
  have hunit := (map_to_hemisphere_unit hit.n sample 1 hn hs.1 hs.2 zero_le_one).1
  have hlong := normalize_muls_unit _ 10000000 hunit (by norm_num)
  refine ⟨⟨rfl, hpos, normalize_unit _ hpos⟩, ?_, ?_⟩
  · exact hlong.1
  · simp only [EnvironmentLight.GetSample]
    rw [hlong.2]
    exact hunit

/-- Witness for claim C11, amended: the point light at `(0, 0, 2)`, the hit
point at the origin with normal `(0, 0, 1)` and the sample `(0, 0)`. -/
theorem GetSample_direction_witness :
    dot (normalize Real.sqrt
        ((⟨⟨0, 0, 2⟩, ⟨1, 1, 1⟩⟩ : PointLight ℝ).GetSample ⟨⟨0, 0, 0⟩, ⟨0, 0, 1⟩⟩ ⟨0, 0⟩).d)
      (normalize Real.sqrt
        ((⟨⟨0, 0, 2⟩, ⟨1, 1, 1⟩⟩ : PointLight ℝ).GetSample ⟨⟨0, 0, 0⟩, ⟨0, 0, 1⟩⟩ ⟨0, 0⟩).d) =
      1 :=
  (GetSample_direction ⟨⟨0, 0, 2⟩, ⟨1, 1, 1⟩⟩ ⟨fun _ => ⟨1, 1, 1⟩⟩ ⟨⟨0, 0, 0⟩, ⟨0, 0, 1⟩⟩ ⟨0, 0⟩
    (by
      intro h
      have hz := congrArg float3.z h
      norm_num at hz)
    (by norm_num [dot]) ⟨le_refl _, zero_le_one⟩).1.2.2

/-- Claim C12: for a hit point different from the light position,
`PointLight::GetSample` reports `pdf = 1` and returns `e_ / |p_ - hit.p|^2`
(with a positive divisor), and neither output depends on the 2D sample. -/
theorem PointLight_GetSample_delta (l : PointLight α) (hit : Hit α) (sample : float2 α)
    (hne : hit.p ≠ l.p_) :
    (l.GetSample hit sample).pdf = 1 ∧
      (l.GetSample hit sample).value =
        ⟨l.e_.x / (l.p_.sub hit.p).sqnorm, l.e_.y / (l.p_.sub hit.p).sqnorm,
          l.e_.z / (l.p_.sub hit.p).sqnorm⟩ ∧
      0 < (l.p_.sub hit.p).sqnorm ∧
      ∀ sample2 : float2 α, l.GetSample hit sample2 = l.GetSample hit sample := by
  refine ⟨rfl, ?_, dot_sub_pos l.p_ hit.p hne, fun _ => rfl⟩
  simp only [PointLight.GetSample, float3.muls, mul_one_div]

/-- Witness for claim C12: the point light at `(0, 0, 2)` of power `(1, 1, 1)`
and the hit point at the origin. -/
theorem PointLight_GetSample_delta_witness :
    ((⟨⟨0, 0, 2⟩, ⟨1, 1, 1⟩⟩ : PointLight ℚ).GetSample ⟨⟨0, 0, 0⟩, ⟨0, 0, 1⟩⟩ ⟨0, 0⟩).pdf = 1 :=
  (PointLight_GetSample_delta (⟨⟨0, 0, 2⟩, ⟨1, 1, 1⟩⟩ : PointLight ℚ)
    ⟨⟨0, 0, 0⟩, ⟨0, 0, 1⟩⟩ ⟨0, 0⟩
    (by
      intro h
      have hz := congrArg float3.z h
      norm_num at hz)).1

/-- Claim C13: for a hit with unit normal and a sample in `[0,1]^2`, the pdf
output by `EnvironmentLight::GetSample` equals `EnvironmentLight::GetPdf(hit, d)`
at the direction `d` that `GetSample` outputs, and both equal
`dot(n, d/|d|) / PI`, the cosine being `(1 - s.y)^(1/2)` (over the reals, with
the constant `PI` of the program). -/
theorem EnvironmentLight_pdf_consistent (el : EnvironmentLight ℝ) (hit : Hit ℝ)
    (sample : float2 ℝ) (hn : dot hit.n hit.n = 1)
    (hsx : 0 ≤ sample.x ∧ sample.x ≤ 1) (hsy : 0 ≤ sample.y ∧ sample.y ≤ 1) :
    (el.GetSample Real.sqrt Real.sin Real.cos (fun x y => x ^ y) hit sample).pdf =
        EnvironmentLight.GetPdf Real.sqrt hit
          (el.GetSample Real.sqrt Real.sin Real.cos (fun x y => x ^ y) hit sample).d ∧
      (el.GetSample Real.sqrt Real.sin Real.cos (fun x y => x ^ y) hit sample).pdf =
        dot hit.n (normalize Real.sqrt
          (el.GetSample Real.sqrt Real.sin Real.cos (fun x y => x ^ y) hit sample).d) / PI ∧
      dot hit.n (normalize Real.sqrt
          (el.GetSample Real.sqrt Real.sin Real.cos (fun x y => x ^ y) hit sample).d) =
        (1 - sample.y) ^ (1 / ((1 : ℝ) + 1)) := by
  have _hx := hsx
  obtain ⟨hunit, hcos⟩ := map_to_hemisphere_unit hit.n sample 1 hn hsy.1 hsy.2 zero_le_one
  have hlong := normalize_muls_unit _ 10000000 hunit (by norm_num)
  simp only [EnvironmentLight.GetSample, EnvironmentLight.GetPdf]
  rw [hlong.2]
  exact ⟨rfl, by rw [mul_one_div], hcos⟩

/-- Witness for claim C13: the normal `(0, 0, 1)` and the sample `(0, 0)`. -/
theorem EnvironmentLight_pdf_consistent_witness :
    ((⟨fun _ => ⟨1, 1, 1⟩⟩ : EnvironmentLight ℝ).GetSample Real.sqrt Real.sin Real.cos
        (fun x y => x ^ y) ⟨⟨0, 0, 0⟩, ⟨0, 0, 1⟩⟩ ⟨0, 0⟩).pdf =
      EnvironmentLight.GetPdf Real.sqrt ⟨⟨0, 0, 0⟩, ⟨0, 0, 1⟩⟩
        ((⟨fun _ => ⟨1, 1, 1⟩⟩ : EnvironmentLight ℝ).GetSample Real.sqrt Real.sin Real.cos
          (fun x y => x ^ y) ⟨⟨0, 0, 0⟩, ⟨0, 0, 1⟩⟩ ⟨0, 0⟩).d :=
  (EnvironmentLight_pdf_consistent ⟨fun _ => ⟨1, 1, 1⟩⟩ ⟨⟨0, 0, 0⟩, ⟨0, 0, 1⟩⟩ ⟨0, 0⟩
    (by norm_num [dot]) ⟨le_refl _, zero_le_one⟩ ⟨le_refl _, zero_le_one⟩).1

/-- A property of the state kept by every step of a loop holds after the loop. -/
theorem foldl_invariant {σ β : Type} (P : σ → Prop) (f : σ → β → σ)
    (hstep : ∀ s b, P s → P (f s b)) : ∀ (l : List β) (s : σ), P s → P (l.foldl f s) := by
  intro l
  induction l with
  | nil => exact fun s hs => hs
  | cons b rest ih => exact fun s hs => ih (f s b) (hstep s b hs)

/-- The sample loop makes no reset call. -/
theorem Render_sample_no_reset (x y : Int) (l : List Int) (events : List RenderEvent)
    (h : ∀ e ∈ events, e.isReset = false) :
    ∀ e ∈ l.foldl (Render_sample x y) events, e.isReset = false := by
  refine foldl_invariant (fun ev => ∀ e ∈ ev, RenderEvent.isReset e = false)
    (Render_sample x y) ?_ l events h
  intro ev _ hev e he
  simp only [Render_sample, List.mem_append, List.mem_cons, List.mem_singleton,
    List.not_mem_nil, or_false] at he
  rcases he with he | rfl | rfl | rfl | rfl
  · exact hev e he
  · rfl
  · rfl
  · rfl
  · rfl

/-- The pixel body of `RenderTile` makes no reset call. -/
theorem RenderTile_pixel_no_reset (N total : Int) (progress : Bool) (y : Int)
    (st : RenderState) (x : Int) (h : ∀ e ∈ st.events, e.isReset = false) :
    ∀ e ∈ (RenderTile_pixel N total progress y st x).events, e.isReset = false := by
  have h1 := Render_sample_no_reset x y (int_range 0 N) st.events h
  unfold RenderTile_pixel
  cases progress
  · simpa using h1
  · intro e he
    simp only [if_true, List.mem_append, List.mem_singleton] at he
    rcases he with he | rfl
    · exact h1 e he
    · rfl

/-- Claim C14: `ImageRenderer::RenderTile` does not reset the samplers at pixel
boundaries.  For a row of two pixels and one sample per pixel, `Render` calls the
three `Reset` methods after the sample of each pixel, while `RenderTile` goes from
the sample of pixel `(0, 0)` straight to the sample of pixel `(1, 0)`; and no run
of `RenderTile` makes any reset call at all. -/
theorem RenderTile_never_resets :
    Render ⟨2, 1⟩ 1 false =
      [RenderEvent.Prepare,
        RenderEvent.Sample2D, RenderEvent.GenerateRay, RenderEvent.GetLi,
        RenderEvent.AddSample 0 0,
        RenderEvent.ResetImage, RenderEvent.ResetLight, RenderEvent.ResetBrdf,
        RenderEvent.Sample2D, RenderEvent.GenerateRay, RenderEvent.GetLi,
        RenderEvent.AddSample 1 0,
        RenderEvent.ResetImage, RenderEvent.ResetLight, RenderEvent.ResetBrdf,
        RenderEvent.Finalize] ∧
    RenderTile ⟨0, 0⟩ ⟨2, 1⟩ 1 false =
      [RenderEvent.Sample2D, RenderEvent.GenerateRay, RenderEvent.GetLi,
        RenderEvent.AddSample 0 0,
        RenderEvent.Sample2D, RenderEvent.GenerateRay, RenderEvent.GetLi,
        RenderEvent.AddSample 1 0] ∧
    ∀ (start dim : int2) (N : Int) (progress : Bool),
      ∀ e ∈ RenderTile start dim N progress, e.isReset = false := by
  refine ⟨by decide, by decide, ?_⟩
  intro start dim N progress
  unfold RenderTile
  refine foldl_invariant (fun st : RenderState => ∀ e ∈ st.events, RenderEvent.isReset e = false)
    _ ?_ _ _ ?_
  · intro st y hst
    exact foldl_invariant
      (fun st : RenderState => ∀ e ∈ st.events, RenderEvent.isReset e = false) _
      (fun s x hs => RenderTile_pixel_no_reset _ _ progress y s x hs) _ st hst
  · intro e he
    exact absurd he (List.not_mem_nil e)

/-- The loop counter of `for (int i = lo; i < hi; ++i)` takes exactly the values
of the half-open range. -/
theorem mem_int_range (lo hi v : Int) : v ∈ int_range lo hi ↔ lo ≤ v ∧ v < hi := by
  simp only [int_range, List.mem_map, List.mem_range]
  constructor
  · rintro ⟨k, hk, rfl⟩
    omega
  · rintro ⟨h1, h2⟩
    exact ⟨(v - lo).toNat, by omega, by omega⟩

/-- The loop counter takes no value twice. -/
theorem nodup_int_range (lo hi : Int) : (int_range lo hi).Nodup := by
  unfold int_range
  refine List.Nodup.map ?_ (List.nodup_range _)
  intro a b hab
  simp only at hab
  omega

/-- The number of iterations of `for (int i = lo; i < hi; ++i)`. -/
theorem length_int_range (lo hi : Int) : (int_range lo hi).length = (hi - lo).toNat := by
  simp only [int_range, List.length_map, List.length_range]

/-- How often the loop counter takes the value `v`: once inside the range, never
outside. -/
theorem count_int_range (lo hi v : Int) :
    (int_range lo hi).count v = if lo ≤ v ∧ v < hi then 1 else 0 := by
  split_ifs with h
  · exact List.count_eq_one_of_mem (nodup_int_range lo hi) ((mem_int_range lo hi v).mpr h)
  · exact List.count_eq_zero_of_not_mem (fun hm => h ((mem_int_range lo hi v).mp hm))

/-- The calls `AddSample(px, py)` made by the sample loop of pixel `(x, y)`. -/
theorem count_AddSample_sample_loop (x y px py : Int) (l : List Int) :
    ∀ events : List RenderEvent,
      (l.foldl (Render_sample x y) events).count (RenderEvent.AddSample px py) =
        events.count (RenderEvent.AddSample px py) +
          l.length * (if x = px ∧ y = py then 1 else 0) := by
  induction l with
  | nil =>
    intro events
    simp only [List.foldl_nil, List.length_nil, zero_mul, add_zero]
  | cons s rest ih =>
    intro events
    rw [List.foldl_cons, ih]
    have h1 : (Render_sample x y events s).count (RenderEvent.AddSample px py) =
        events.count (RenderEvent.AddSample px py) + (if x = px ∧ y = py then 1 else 0) := by
      unfold Render_sample
      rw [List.count_append]
      by_cases h : x = px ∧ y = py
      · obtain ⟨rfl, rfl⟩ := h
        simp [List.count_cons]
      · rw [if_neg h]
        have hne : RenderEvent.AddSample x y ≠ RenderEvent.AddSample px py := by
          intro he
          injection he with h1 h2
          exact h ⟨h1, h2⟩
        simp [List.count_cons, hne]
    rw [h1, List.length_cons]
    ring

/-- The calls `AddSample(px, py)` added by the pixel body of `RenderTile`. -/
theorem count_AddSample_RenderTile_pixel (N total : Int) (progress : Bool) (y : Int)
    (st : RenderState) (x px py : Int) :
    (RenderTile_pixel N total progress y st x).events.count (RenderEvent.AddSample px py) =
      st.events.count (RenderEvent.AddSample px py) +
        N.toNat * (if x = px ∧ y = py then 1 else 0) := by
  have h1 := count_AddSample_sample_loop x y px py (int_range 0 N) st.events
  rw [length_int_range, sub_zero] at h1
  unfold RenderTile_pixel
  cases progress
  · simpa using h1
  · simp only [if_true, List.count_append]
    rw [h1]
    simp [List.count_cons]

/-- The calls `AddSample(px, py)` added by one row of `RenderTile`. -/
theorem count_AddSample_RenderTile_row (N total : Int) (progress : Bool) (y px py : Int)
    (xs : List Int) :
    ∀ st : RenderState,
      (xs.foldl (RenderTile_pixel N total progress y) st).events.count
          (RenderEvent.AddSample px py) =
        st.events.count (RenderEvent.AddSample px py) +
          N.toNat * (xs.count px * (if y = py then 1 else 0)) := by
  induction xs with
  | nil =>
    intro st
    simp only [List.foldl_nil, List.count_nil, zero_mul, mul_zero, add_zero]
  | cons x rest ih =>
    intro st
    rw [List.foldl_cons, ih, count_AddSample_RenderTile_pixel, List.count_cons]
    by_cases hx : x = px
    · subst hx
      by_cases hy : y = py
      · simp only [hy, and_self, if_true, beq_self_eq_true]
        ring
      · simp only [hy, and_false, if_false, mul_zero, add_zero]
    · have hb : (x == px) = false := beq_eq_false_iff_ne.mpr hx
      simp only [hx, false_and, if_false, mul_zero, add_zero, hb, Bool.false_eq_true]

/-- The calls `AddSample(px, py)` added by the rows `ys` of `RenderTile`. -/
theorem count_AddSample_RenderTile_rows (N total : Int) (progress : Bool) (px py : Int)
    (xs ys : List Int) :
    ∀ st : RenderState,
      (ys.foldl (fun st y => xs.foldl (RenderTile_pixel N total progress y) st) st).events.count
          (RenderEvent.AddSample px py) =
        st.events.count (RenderEvent.AddSample px py) +
          N.toNat * (xs.count px * ys.count py) := by
  induction ys with
  | nil =>
    intro st
    simp only [List.foldl_nil, List.count_nil, mul_zero, add_zero]
  | cons y rest ih =>
    intro st
    rw [List.foldl_cons, ih, count_AddSample_RenderTile_row, List.count_cons]
    by_cases hy : y = py
    · subst hy
      simp only [if_true, beq_self_eq_true]
      ring
    · have hb : (y == py) = false := beq_eq_false_iff_ne.mpr hy
      simp only [hy, if_false, hb, Bool.false_eq_true]
      ring

/-- The number of calls `AddSample(x, y)` of a run of `RenderTile`: the sample
count inside the rectangle of the tile, zero outside. -/
theorem count_AddSample_RenderTile (start dim : int2) (N : Int) (progress : Bool)
    (x y : Int) :
    (RenderTile start dim N progress).count (RenderEvent.AddSample x y) =
      if (start.x ≤ x ∧ x < start.x + dim.x) ∧ (start.y ≤ y ∧ y < start.y + dim.y)
      then N.toNat else 0 := by
  unfold RenderTile
  simp only
  rw [count_AddSample_RenderTile_rows, count_int_range, count_int_range]
  by_cases hx : start.x ≤ x ∧ x < start.x + dim.x
  · by_cases hy : start.y ≤ y ∧ y < start.y + dim.y
    · simp [hx, hy]
    · simp [hx, hy]
  · simp [hx]

/-- Claim C16: for a sampler with constant `num_samples = N ≥ 0`,
`ImageRenderer::RenderTile(world, start, dim)` calls `AddSample` exactly `N`
times for each pixel of the rectangle `[start, start + dim)` and never for a
pixel outside it; two tiles with disjoint rectangles therefore write disjoint
sets of pixels.  The premise `dim ≥ 0` of the claim is not needed. -/
theorem RenderTile_AddSample_count (start dim : int2) (N : Int) (progress : Bool)
    (hN : 0 ≤ N) :
    (∀ x y : Int, (start.x ≤ x ∧ x < start.x + dim.x) ∧ (start.y ≤ y ∧ y < start.y + dim.y) →
        (((RenderTile start dim N progress).count (RenderEvent.AddSample x y) : Nat) : Int) =
          N) ∧
      (∀ x y : Int,
        ¬ ((start.x ≤ x ∧ x < start.x + dim.x) ∧ (start.y ≤ y ∧ y < start.y + dim.y)) →
        RenderEvent.AddSample x y ∉ RenderTile start dim N progress) ∧
      (∀ (start2 dim2 : int2) (N2 : Int) (progress2 : Bool),
        (∀ x y : Int,
          ¬ (((start.x ≤ x ∧ x < start.x + dim.x) ∧ (start.y ≤ y ∧ y < start.y + dim.y)) ∧
            ((start2.x ≤ x ∧ x < start2.x + dim2.x) ∧
              (start2.y ≤ y ∧ y < start2.y + dim2.y)))) →
        ∀ x y : Int,
          ¬ (RenderEvent.AddSample x y ∈ RenderTile start dim N progress ∧
            RenderEvent.AddSample x y ∈ RenderTile start2 dim2 N2 progress2)) := by
  have hout : ∀ (s d : int2) (M : Int) (p : Bool) (x y : Int),
      ¬ ((s.x ≤ x ∧ x < s.x + d.x) ∧ (s.y ≤ y ∧ y < s.y + d.y)) →
      RenderEvent.AddSample x y ∉ RenderTile s d M p := by
    intro s d M p x y hrect
    apply List.count_eq_zero.mp
    rw [count_AddSample_RenderTile, if_neg hrect]
  refine ⟨?_, hout start dim N progress, ?_⟩
  · intro x y hrect
    rw [count_AddSample_RenderTile, if_pos hrect]
    exact Int.toNat_of_nonneg hN
  · intro start2 dim2 N2 progress2 hdisj x y hboth
    by_cases h1 : (start.x ≤ x ∧ x < start.x + dim.x) ∧ (start.y ≤ y ∧ y < start.y + dim.y)
    · by_cases h2 : (start2.x ≤ x ∧ x < start2.x + dim2.x) ∧
          (start2.y ≤ y ∧ y < start2.y + dim2.y)
      · exact hdisj x y ⟨h1, h2⟩
      · exact hout start2 dim2 N2 progress2 x y h2 hboth.2
    · exact hout start dim N progress x y h1 hboth.1

/-- Witness for claim C16: the tile at `(4, 2)` of size `2 x 3` with `5`
samples per pixel. -/
theorem RenderTile_AddSample_count_witness :
    (((RenderTile ⟨4, 2⟩ ⟨2, 3⟩ 5 true).count (RenderEvent.AddSample 5 4) : Nat) : Int) = 5 :=
  (RenderTile_AddSample_count ⟨4, 2⟩ ⟨2, 3⟩ 5 true (by norm_num)).1 5 4 (by norm_num)

/-- The reports of two runs in a row are the reports of the first followed by
those of the second. -/
theorem reports_append (a b : List RenderEvent) : reports (a ++ b) = reports a ++ reports b := by
  induction a with
  | nil => rfl
  | cons e rest ih =>
    rw [List.cons_append]
    cases e <;> simp only [reports, ih, List.cons_append]

/-- The sample loop reports nothing. -/
theorem reports_sample_loop (x y : Int) (l : List Int) :
    ∀ events : List RenderEvent,
      reports (l.foldl (Render_sample x y) events) = reports events := by
  induction l with
  | nil => exact fun _ => rfl
  | cons s rest ih =>
    intro events
    rw [List.foldl_cons, ih]
    unfold Render_sample
    rw [reports_append]
    simp only [reports, List.append_nil]

/-- The pixel body of `Render` with a reporter present adds `N` to the counter
and reports once, with the new counter. -/
theorem Render_pixel_reports (N total : Int) (y : Int) (st : RenderState) (x : Int) :
    (Render_pixel N total true y st x).donesamples = st.donesamples + N ∧
      reports (Render_pixel N total true y st x).events =
        reports st.events ++ [(st.donesamples + N, total)] := by
  refine ⟨rfl, ?_⟩
  simp only [Render_pixel, if_true, reports_append, reports_sample_loop, reports,
    List.append_nil]

/-- The reports of one row of `Render`. -/
theorem Render_row_reports (N total : Int) (y : Int) (xs : List Int) :
    ∀ st : RenderState,
      (xs.foldl (Render_pixel N total true y) st).donesamples =
          st.donesamples + N * (xs.length : Int) ∧
        reports (xs.foldl (Render_pixel N total true y) st).events =
          reports st.events ++
            (List.range xs.length).map
              (fun (k : Nat) => (st.donesamples + N * ((k : Int) + 1), total)) := by
  induction xs with
  | nil =>
    intro st
    simp only [List.foldl_nil, List.length_nil, Nat.cast_zero, mul_zero, add_zero,
      List.range_zero, List.map_nil, List.append_nil, and_self]
  | cons x rest ih =>
    intro st
    obtain ⟨h1, h2⟩ := Render_pixel_reports N total y st x
    obtain ⟨h3, h4⟩ := ih (Render_pixel N total true y st x)
    rw [List.foldl_cons]
    constructor
    · rw [h3, h1, List.length_cons]
      push_cast
      ring
    · rw [h4, h2, h1, List.length_cons, List.range_succ_eq_map, List.map_cons, List.map_map,
        List.append_assoc, List.singleton_append]
      congr 2
      · simp only [Nat.cast_zero, zero_add, mul_one]
      · apply List.map_congr_left
        intro k _
        simp only [Function.comp, Nat.succ_eq_add_one, Nat.cast_add, Nat.cast_one]
        congr 1
        ring

/-- The reports of the rows `ys` of `Render`, each row running over `xs`. -/
theorem Render_rows_reports (N total : Int) (xs ys : List Int) :
    ∀ st : RenderState,
      (ys.foldl (fun st y => xs.foldl (Render_pixel N total true y) st) st).donesamples =
          st.donesamples + N * ((xs.length * ys.length : Nat) : Int) ∧
        reports (ys.foldl (fun st y => xs.foldl (Render_pixel N total true y) st) st).events =
          reports st.events ++
            (List.range (xs.length * ys.length)).map
              (fun (k : Nat) => (st.donesamples + N * ((k : Int) + 1), total)) := by
  induction ys with
  | nil =>
    intro st
    simp only [List.foldl_nil, List.length_nil, Nat.mul_zero, Nat.cast_zero, mul_zero, add_zero,
      List.range_zero, List.map_nil, List.append_nil, and_self]
  | cons y rest ih =>
    intro st
    obtain ⟨h1, h2⟩ := Render_row_reports N total y xs st
    obtain ⟨h3, h4⟩ := ih (xs.foldl (Render_pixel N total true y) st)
    rw [List.foldl_cons]
    constructor
    · rw [h3, h1, List.length_cons]
      push_cast
      ring
    · rw [h4, h2, h1, List.length_cons, Nat.mul_succ, Nat.add_comm (xs.length * rest.length),
        List.range_add, List.map_append, List.map_map, List.append_assoc]
      congr 2
      apply List.map_congr_left
      intro k _
      simp only [Function.comp, Nat.cast_add]
      congr 1
      ring

/-- The operands of the reports of `Render` with a reporter present: the `k`-th
report (counting from zero) is made with `donesamples = N * (k + 1)` and
`totalsamples = N * imgres.y * imgres.x`. -/
theorem Render_reports (imgres : int2) (N : Int) :
    reports (Render imgres N true) =
      (List.range (imgres.x.toNat * imgres.y.toNat)).map
        (fun (k : Nat) => (N * ((k : Int) + 1), N * imgres.y * imgres.x)) := by
  unfold Render
  simp only [reports_append]
  rw [(Render_rows_reports N (N * imgres.y * imgres.x) (int_range 0 imgres.x)
    (int_range 0 imgres.y) _).2]
  simp only [reports, List.nil_append, List.append_nil, length_int_range, sub_zero, zero_add]

/-- In exact arithmetic `ImageRenderer::Render` with a reporter present reports
exactly `W*H` fractions, the `k`-th (`k = 1..W*H`) being `k/(W*H)`; the
sequence is strictly increasing, every value lies in `[0, 1]`, and the last
value is `1`. -/
theorem Render_fractions_exact (W H N : Int) (hW : 1 ≤ W) (hH : 1 ≤ H) (hN : 1 ≤ N)
    (_hrange : N * W * H < 2147483648) :
    (reported_fractions (Render ⟨W, H⟩ N true) : List α) =
        (List.range (W * H).toNat).map (fun (k : Nat) => ((k : α) + 1) / ((W : α) * (H : α))) ∧
      (reported_fractions (Render ⟨W, H⟩ N true) : List α).length = (W * H).toNat ∧
      (reported_fractions (Render ⟨W, H⟩ N true) : List α).Pairwise (fun a b => a < b) ∧
      (∀ q ∈ (reported_fractions (Render ⟨W, H⟩ N true) : List α), 0 ≤ q ∧ q ≤ 1) ∧
      (reported_fractions (Render ⟨W, H⟩ N true) : List α).getLast? = some 1 := by
  have hWH : (0 : α) < (W : α) * (H : α) := by
    have h1 : (0 : α) < (W : α) := by exact_mod_cast (by omega : (0 : Int) < W)
    have h2 : (0 : α) < (H : α) := by exact_mod_cast (by omega : (0 : Int) < H)
    exact mul_pos h1 h2
  have hNα : (N : α) ≠ 0 := by exact_mod_cast (by omega : N ≠ 0)
  have hnat : W.toNat * H.toNat = (W * H).toNat := by
    have h1 : (0 : Int) ≤ W := by omega
    have h2 : (0 : Int) ≤ H := by omega
    have h3 : ((W.toNat * H.toNat : Nat) : Int) = W * H := by
      push_cast
      rw [Int.toNat_of_nonneg h1, Int.toNat_of_nonneg h2]
    omega
  have hcast : (((W * H).toNat : Nat) : α) = (W : α) * (H : α) := by
    have h3 : (((W * H).toNat : Nat) : Int) = W * H :=
      Int.toNat_of_nonneg (mul_nonneg (by omega) (by omega))
    rw [← Int.cast_natCast (R := α) (W * H).toNat, h3, Int.cast_mul]
  have hpos : 0 < (W * H).toNat := by
    have h5 : (0 : Int) < W * H := mul_pos (by omega) (by omega)
    omega
  have hmain : (reported_fractions (Render ⟨W, H⟩ N true) : List α) =
      (List.range (W * H).toNat).map
        (fun (k : Nat) => ((k : α) + 1) / ((W : α) * (H : α))) := by
    unfold reported_fractions
    rw [Render_reports, hnat, List.map_map]
    apply List.map_congr_left
    intro k _
    simp only [Function.comp]
    push_cast
    rw [mul_assoc, mul_div_mul_left _ _ hNα, mul_comm (H : α)]
  refine ⟨hmain, ?_, ?_, ?_, ?_⟩
  · rw [hmain, List.length_map, List.length_range]
  · rw [hmain]
    refine List.Pairwise.map _ ?_ (List.pairwise_lt_range _)
    intro a b hab
    have hab2 : (a : α) < (b : α) := by exact_mod_cast hab
    exact div_lt_div_of_pos_right (by linarith) hWH
  · intro q hq
    rw [hmain] at hq
    obtain ⟨k, hk, rfl⟩ := List.mem_map.mp hq
    have hk2 : k + 1 ≤ (W * H).toNat := Nat.succ_le_of_lt (List.mem_range.mp hk)
    have hk3 : ((k : α) + 1) ≤ (W : α) * (H : α) := by
      rw [← hcast]
      exact_mod_cast hk2
    constructor
    · exact div_nonneg (by positivity) hWH.le
    · exact (div_le_one hWH).mpr hk3
  · rw [hmain, List.getLast?_map, List.getLast?_range, if_neg (by omega)]
    simp only [Option.map_some']
    congr 1
    have hk4 : (((W * H).toNat - 1 : Nat) : α) + 1 = (((W * H).toNat : Nat) : α) := by
      have : (W * H).toNat - 1 + 1 = (W * H).toNat := by omega
      exact_mod_cast this
    rw [hk4, hcast]
    exact div_self hWH.ne.symm

/-- The upper-left 3x3 block of `minv * m`, applied after the block of `m`, is
the identity on vectors when `minv * m` is the identity and the first three
entries of the bottom row of `m` are zero. -/
theorem mulv_inverse_cancel (m minv : matrix α) (v : float3 α)
    (hrow : m.m30 = 0 ∧ m.m31 = 0 ∧ m.m32 = 0) (hinv : minv.mul m = matrix.identity) :
    minv.mulv (m.mulv v) = v := by
  obtain ⟨h30, h31, h32⟩ := hrow
  have e00 := congrArg matrix.m00 hinv
  have e01 := congrArg matrix.m01 hinv
  have e02 := congrArg matrix.m02 hinv
  have e10 := congrArg matrix.m10 hinv
  have e11 := congrArg matrix.m11 hinv
  have e12 := congrArg matrix.m12 hinv
  have e20 := congrArg matrix.m20 hinv
  have e21 := congrArg matrix.m21 hinv
  have e22 := congrArg matrix.m22 hinv
  simp only [matrix.mul, matrix.identity, h30, h31, h32, mul_zero, add_zero] at e00 e01 e02
  simp only [matrix.mul, matrix.identity, h30, h31, h32, mul_zero, add_zero] at e10 e11 e12
  simp only [matrix.mul, matrix.identity, h30, h31, h32, mul_zero, add_zero] at e20 e21 e22
  ext
  · simp only [matrix.mulv]
    linear_combination v.x * e00 + v.y * e01 + v.z * e02
  · simp only [matrix.mulv]
    linear_combination v.x * e10 + v.y * e11 + v.z * e12
  · simp only [matrix.mulv]
    linear_combination v.x * e20 + v.y * e21 + v.z * e22

/-- Claim C17: in exact arithmetic, for every ray `r` and affine matrices `m`,
`minv` with `minv` the inverse of `m`, `transform_ray(transform_ray(r, m), minv)`
has the origin and the direction of `r`, and `transform_ray` leaves the
parametric interval `r.t` unchanged. -/
theorem transform_ray_inverse (r : ray α) (m minv : matrix α)
    (haff : m.affine ∧ minv.affine)
    (hinv : minv.mul m = matrix.identity ∧ m.mul minv = matrix.identity) :
    (transform_ray (transform_ray r m) minv).o = r.o ∧
      (transform_ray (transform_ray r m) minv).d = r.d ∧
      (transform_ray r m).t = r.t ∧
      (transform_ray (transform_ray r m) minv).t = r.t := by
  obtain ⟨h30, h31, h32, h33⟩ := haff.1
  have hv := mulv_inverse_cancel m minv r.d ⟨h30, h31, h32⟩ hinv.1
  have e00 := congrArg matrix.m00 hinv.1
  have e01 := congrArg matrix.m01 hinv.1
  have e02 := congrArg matrix.m02 hinv.1
  have e03 := congrArg matrix.m03 hinv.1
  have e10 := congrArg matrix.m10 hinv.1
  have e11 := congrArg matrix.m11 hinv.1
  have e12 := congrArg matrix.m12 hinv.1
  have e13 := congrArg matrix.m13 hinv.1
  have e20 := congrArg matrix.m20 hinv.1
  have e21 := congrArg matrix.m21 hinv.1
  have e22 := congrArg matrix.m22 hinv.1
  have e23 := congrArg matrix.m23 hinv.1
  simp only [matrix.mul, matrix.identity, h30, h31, h32, h33, mul_zero, add_zero, mul_one] at e00
  simp only [matrix.mul, matrix.identity, h30, h31, h32, h33, mul_zero, add_zero, mul_one] at e01
  simp only [matrix.mul, matrix.identity, h30, h31, h32, h33, mul_zero, add_zero, mul_one] at e02
  simp only [matrix.mul, matrix.identity, h30, h31, h32, h33, mul_zero, add_zero, mul_one] at e03
  simp only [matrix.mul, matrix.identity, h30, h31, h32, h33, mul_zero, add_zero, mul_one] at e10
  simp only [matrix.mul, matrix.identity, h30, h31, h32, h33, mul_zero, add_zero, mul_one] at e11
  simp only [matrix.mul, matrix.identity, h30, h31, h32, h33, mul_zero, add_zero, mul_one] at e12
  simp only [matrix.mul, matrix.identity, h30, h31, h32, h33, mul_zero, add_zero, mul_one] at e13
  simp only [matrix.mul, matrix.identity, h30, h31, h32, h33, mul_zero, add_zero, mul_one] at e20
  simp only [matrix.mul, matrix.identity, h30, h31, h32, h33, mul_zero, add_zero, mul_one] at e21
  simp only [matrix.mul, matrix.identity, h30, h31, h32, h33, mul_zero, add_zero, mul_one] at e22
  simp only [matrix.mul, matrix.identity, h30, h31, h32, h33, mul_zero, add_zero, mul_one] at e23
  refine ⟨?_, hv, rfl, rfl⟩
  ext
  · simp only [transform_ray, transform_point, matrix.mulv]
    linear_combination r.o.x * e00 + r.o.y * e01 + r.o.z * e02 + e03
  · simp only [transform_ray, transform_point, matrix.mulv]
    linear_combination r.o.x * e10 + r.o.y * e11 + r.o.z * e12 + e13
  · simp only [transform_ray, transform_point, matrix.mulv]
    linear_combination r.o.x * e20 + r.o.y * e21 + r.o.z * e22 + e23

/-- Witness for claim C17: the translation by `(1, 2, 3)` scaled by `2` and its
inverse, on a ray from `(1, 1, 1)` along `(0, 0, 1)`. -/
theorem transform_ray_inverse_witness :
    (transform_ray (transform_ray (⟨⟨1, 1, 1⟩, ⟨0, 0, 1⟩, ⟨0, 10⟩⟩ : ray ℚ)
        ⟨2, 0, 0, 1, 0, 2, 0, 2, 0, 0, 2, 3, 0, 0, 0, 1⟩)
        ⟨1 / 2, 0, 0, -1 / 2, 0, 1 / 2, 0, -1, 0, 0, 1 / 2, -3 / 2, 0, 0, 0, 1⟩).o =
      ⟨1, 1, 1⟩ :=
  (transform_ray_inverse (⟨⟨1, 1, 1⟩, ⟨0, 0, 1⟩, ⟨0, 10⟩⟩ : ray ℚ)
    ⟨2, 0, 0, 1, 0, 2, 0, 2, 0, 0, 2, 3, 0, 0, 0, 1⟩
    ⟨1 / 2, 0, 0, -1 / 2, 0, 1 / 2, 0, -1, 0, 0, 1 / 2, -3 / 2, 0, 0, 0, 1⟩
    ⟨⟨rfl, rfl, rfl, rfl⟩, ⟨rfl, rfl, rfl, rfl⟩⟩
    ⟨by ext <;> norm_num [matrix.mul, matrix.identity],
      by ext <;> norm_num [matrix.mul, matrix.identity]⟩).1

/-- Counterexample to claim C18 as stated: the matrix that exchanges the third
and the fourth coordinate is invertible (it is its own inverse), yet for
`n = v = (0, 0, 1)` the transformed normal and the transformed vector are both
zero, so their dot product is `0` while `dot(n, v) = 1`. -/
theorem transform_normal_not_preserved :
    matrix.mul (⟨1, 0, 0, 0, 0, 1, 0, 0, 0, 0, 0, 1, 0, 0, 1, 0⟩ : matrix ℚ)
        ⟨1, 0, 0, 0, 0, 1, 0, 0, 0, 0, 0, 1, 0, 0, 1, 0⟩ = matrix.identity ∧
    dot (transform_normal (⟨0, 0, 1⟩ : float3 ℚ)
          ⟨1, 0, 0, 0, 0, 1, 0, 0, 0, 0, 0, 1, 0, 0, 1, 0⟩)
        (transform_vector ⟨0, 0, 1⟩ ⟨1, 0, 0, 0, 0, 1, 0, 0, 0, 0, 0, 1, 0, 0, 1, 0⟩) = 0 ∧
    dot (⟨0, 0, 1⟩ : float3 ℚ) ⟨0, 0, 1⟩ = 1 := by
  refine ⟨?_, ?_, ?_⟩
  · ext <;> norm_num [matrix.mul, matrix.identity]
  · norm_num [dot, transform_normal, transform_vector, matrix.mulv, matrix.transpose]
  · norm_num [dot]

/-- Claim C18, amended: normals are transformed by the inverse-transpose: for
every matrix `m` whose bottom row starts with three zeros (as for every affine
transform) with inverse `minv`, and all vectors `n`, `v`,
`dot(transform_normal(n, minv), transform_vector(v, m)) = dot(n, v)`; in
particular a normal perpendicular to a tangent stays perpendicular to the
transformed tangent. -/
theorem transform_normal_preserves_dot (m minv : matrix α) (n v : float3 α)
    (hrow : m.m30 = 0 ∧ m.m31 = 0 ∧ m.m32 = 0)
    (hinv : minv.mul m = matrix.identity ∧ m.mul minv = matrix.identity) :
    dot (transform_normal n minv) (transform_vector v m) = dot n v ∧
      (dot n v = 0 → dot (transform_normal n minv) (transform_vector v m) = 0) := by
  have hv := mulv_inverse_cancel m minv v hrow hinv.1
  have hadj : dot (transform_normal n minv) (transform_vector v m) =
      dot n (minv.mulv (m.mulv v)) := by
    simp only [dot, transform_normal, transform_vector, matrix.mulv, matrix.transpose]
    ring
  rw [hadj, hv]
  exact ⟨rfl, fun h => h⟩

/-- Witness for claim C18, amended: the scaling by `2` with translation
`(1, 2, 3)` and its inverse. -/
theorem transform_normal_preserves_dot_witness :
    dot (transform_normal (⟨0, 0, 1⟩ : float3 ℚ)
          ⟨1 / 2, 0, 0, -1 / 2, 0, 1 / 2, 0, -1, 0, 0, 1 / 2, -3 / 2, 0, 0, 0, 1⟩)
        (transform_vector ⟨1, 0, 1⟩ ⟨2, 0, 0, 1, 0, 2, 0, 2, 0, 0, 2, 3, 0, 0, 0, 1⟩) =
      dot (⟨0, 0, 1⟩ : float3 ℚ) ⟨1, 0, 1⟩ :=
  (transform_normal_preserves_dot
    (⟨2, 0, 0, 1, 0, 2, 0, 2, 0, 0, 2, 3, 0, 0, 0, 1⟩ : matrix ℚ)
    ⟨1 / 2, 0, 0, -1 / 2, 0, 1 / 2, 0, -1, 0, 0, 1 / 2, -3 / 2, 0, 0, 0, 1⟩
    ⟨0, 0, 1⟩ ⟨1, 0, 1⟩ ⟨rfl, rfl, rfl⟩
    ⟨by ext <;> norm_num [matrix.mul, matrix.identity],
      by ext <;> norm_num [matrix.mul, matrix.identity]⟩).1

/-- Claim C20: the code of `clamp(x, a, b)` does not stay below `b`, although
its comment announces the range `[a, b)`: `clamp(2, 0, 1)` is `1`, the upper
bound itself. -/
theorem clamp_reaches_upper_bound :
    (0 : ℚ) < 1 ∧ clamp (2 : ℚ) 0 1 = 1 ∧ ¬ (clamp (2 : ℚ) 0 1 < 1) := by
  refine ⟨by norm_num, ?_, ?_⟩
  · norm_num [clamp]
  · norm_num [clamp]

/-- Claim C22: for a unit vector `n`, a sample `s` in `[0,1]^2` and an exponent
`e ≥ 0`, the three-argument `map_to_hemisphere(n, s, e)` returns a unit vector
`d` with `dot(n, d) = (1 - s.y)^(1/(e+1))`, which lies in `[0, 1]`, so `d` is in
the hemisphere around `n` (over the reals, with the real library functions). -/
theorem map_to_hemisphere_cosine (n : float3 ℝ) (s : float2 ℝ) (e : ℝ)
    (hn : dot n n = 1) (hsx : 0 ≤ s.x ∧ s.x ≤ 1) (hsy : 0 ≤ s.y ∧ s.y ≤ 1) (he : 0 ≤ e) :
    dot (map_to_hemisphere Real.sqrt Real.sin Real.cos (fun x y => x ^ y) n s e)
        (map_to_hemisphere Real.sqrt Real.sin Real.cos (fun x y => x ^ y) n s e) = 1 ∧
      dot n (map_to_hemisphere Real.sqrt Real.sin Real.cos (fun x y => x ^ y) n s e) =
        (1 - s.y) ^ (1 / (e + 1)) ∧
      (0 ≤ (1 - s.y) ^ (1 / (e + 1)) ∧ (1 - s.y) ^ (1 / (e + 1)) ≤ 1) ∧
      0 ≤ dot n (map_to_hemisphere Real.sqrt Real.sin Real.cos (fun x y => x ^ y) n s e) := by
  have _hx := hsx
  obtain ⟨h1, h2⟩ := map_to_hemisphere_unit n s e hn hsy.1 hsy.2 he
  have hc0 : 0 ≤ (1 - s.y) ^ (1 / (e + 1)) := Real.rpow_nonneg (by linarith) _
  have hc1 : (1 - s.y) ^ (1 / (e + 1)) ≤ 1 :=
    Real.rpow_le_one (by linarith) (by linarith) (by positivity)
  exact ⟨h1, h2, ⟨hc0, hc1⟩, by rw [h2]; exact hc0⟩

/-- Witness for claim C22: the normal `(0, 0, 1)`, the sample `(1/4, 1/2)` and
the exponent `1`. -/
theorem map_to_hemisphere_cosine_witness :
    dot (⟨0, 0, 1⟩ : float3 ℝ)
        (map_to_hemisphere Real.sqrt Real.sin Real.cos (fun x y => x ^ y) ⟨0, 0, 1⟩
          ⟨1 / 4, 1 / 2⟩ 1) =
      (1 - (1 / 2 : ℝ)) ^ (1 / ((1 : ℝ) + 1)) :=
  (map_to_hemisphere_cosine ⟨0, 0, 1⟩ ⟨1 / 4, 1 / 2⟩ 1 (by norm_num [dot])
    ⟨by norm_num, by norm_num⟩ ⟨by norm_num, by norm_num⟩ zero_le_one).2.1

/-- Claim C23: for a unit vector `n`, `orthovector(n)` is orthogonal to `n` and
of unit length, and the divisor `k` of the branch taken is strictly positive
(over the reals, with the real square root). -/
theorem orthovector_unit_orthogonal (n : float3 ℝ) (hn : dot n n = 1) :
    dot (orthovector Real.sqrt n) n = 0 ∧
      dot (orthovector Real.sqrt n) (orthovector Real.sqrt n) = 1 ∧
      (|n.z| > 707106781186547524401 / 1000000000000000000000 →
        0 < Real.sqrt (n.y * n.y + n.z * n.z)) ∧
      (¬ |n.z| > 707106781186547524401 / 1000000000000000000000 →
        0 < Real.sqrt (n.x * n.x + n.y * n.y)) := by
  obtain ⟨h1, h2⟩ := orthovector_orthonormal n hn
  refine ⟨h2, h1, ?_, ?_⟩
  · intro hz
    have h0 : 0 < |n.z| := lt_trans (by norm_num) hz
    have hzz : 0 < n.z * n.z := mul_self_pos.mpr (abs_pos.mp h0)
    exact Real.sqrt_pos.mpr (by nlinarith [mul_self_nonneg n.y])
  · intro hz
    have hle : |n.z| ≤ 707106781186547524401 / 1000000000000000000000 := not_lt.mp hz
    have hzz : n.z * n.z ≤ 3 / 4 := by
      have h3 : n.z * n.z = |n.z| * |n.z| := (abs_mul_abs_self n.z).symm
      rw [h3]
      nlinarith [abs_nonneg n.z]
    simp only [dot] at hn
    exact Real.sqrt_pos.mpr (by linarith)

/-- Witness for claim C23: the unit vector `(3/5, 4/5, 0)`. -/
theorem orthovector_unit_orthogonal_witness :
    dot (orthovector Real.sqrt (⟨3 / 5, 4 / 5, 0⟩ : float3 ℝ)) ⟨3 / 5, 4 / 5, 0⟩ = 0 :=
  (orthovector_unit_orthogonal ⟨3 / 5, 4 / 5, 0⟩ (by norm_num [dot])).1

/-- In exact arithmetic the MIS weights of the two strategies are complementary:
when `nf*fpdf` and `ng*gpdf` are not both zero,
`PowerHeuristic(nf, fpdf, ng, gpdf) + PowerHeuristic(ng, gpdf, nf, fpdf) = 1`
and each weight lies in `[0, 1]`. -/
theorem PowerHeuristic_exact_weights (nf ng : Int) (fpdf gpdf : α)
    (hnz : (nf : α) * fpdf ≠ 0 ∨ (ng : α) * gpdf ≠ 0) :
    PowerHeuristic nf fpdf ng gpdf + PowerHeuristic ng gpdf nf fpdf = 1 ∧
      (0 ≤ PowerHeuristic nf fpdf ng gpdf ∧ PowerHeuristic nf fpdf ng gpdf ≤ 1) ∧
      (0 ≤ PowerHeuristic ng gpdf nf fpdf ∧ PowerHeuristic ng gpdf nf fpdf ≤ 1) := by
  have hf : 0 ≤ (nf : α) * fpdf * ((nf : α) * fpdf) := mul_self_nonneg _
  have hg : 0 ≤ (ng : α) * gpdf * ((ng : α) * gpdf) := mul_self_nonneg _
  have hpos : 0 < (nf : α) * fpdf * ((nf : α) * fpdf) + (ng : α) * gpdf * ((ng : α) * gpdf) := by
    rcases hnz with h | h
    · exact add_pos_of_pos_of_nonneg (mul_self_pos.mpr h) hg
    · exact add_pos_of_nonneg_of_pos hf (mul_self_pos.mpr h)
  have hpos2 : 0 < (ng : α) * gpdf * ((ng : α) * gpdf) + (nf : α) * fpdf * ((nf : α) * fpdf) := by
    rw [add_comm]
    exact hpos
  simp only [PowerHeuristic]
  refine ⟨?_, ⟨div_nonneg hf hpos.le, ?_⟩, ⟨div_nonneg hg hpos2.le, ?_⟩⟩
  · rw [add_comm ((ng : α) * gpdf * ((ng : α) * gpdf)), ← add_div]
    exact div_self hpos.ne.symm
  · exact (div_le_one hpos).mpr (by linarith)
  · exact (div_le_one hpos2).mpr (by linarith)

/-- The corners of one box inside another: `contains(b, a)` for a well-formed
`a` means that `a` lies between the corners of `b` on every axis. -/
theorem contains_iff_corners (b a : bbox α) :
    contains b a = true ↔ b.inside a.pmin ∧ b.inside a.pmax := by
  simp only [contains, Bool.and_eq_true, bbox_contains_iff]

/-- The surface area does not decrease when every extent grows, starting from
non-negative extents. -/
theorem surface_area_mono_of_extents (a b : bbox α)
    (hx : 0 ≤ a.pmax.x - a.pmin.x ∧ a.pmax.x - a.pmin.x ≤ b.pmax.x - b.pmin.x)
    (hy : 0 ≤ a.pmax.y - a.pmin.y ∧ a.pmax.y - a.pmin.y ≤ b.pmax.y - b.pmin.y)
    (hz : 0 ≤ a.pmax.z - a.pmin.z ∧ a.pmax.z - a.pmin.z ≤ b.pmax.z - b.pmin.z) :
    a.surface_area ≤ b.surface_area := by
  simp only [bbox.surface_area, bbox.extents, float3.sub]
  have h1 := mul_le_mul hx.2 hy.2 hy.1 (le_trans hx.1 hx.2)
  have h2 := mul_le_mul hx.2 hz.2 hz.1 (le_trans hx.1 hx.2)
  have h3 := mul_le_mul hy.2 hz.2 hz.1 (le_trans hy.1 hy.2)
  linarith

/-- Claim C27: for boxes `a`, `b` with `pmin ≤ pmax`, `surface_area` is
non-negative, monotone under containment (`contains(b, a)` gives
`a.surface_area() ≤ b.surface_area()`), and the area of `bboxunion(a, b)` is at
least the larger of the two areas. -/
theorem surface_area_monotone (a b : bbox α)
    (ha : a.pmin.x ≤ a.pmax.x ∧ a.pmin.y ≤ a.pmax.y ∧ a.pmin.z ≤ a.pmax.z)
    (hb : b.pmin.x ≤ b.pmax.x ∧ b.pmin.y ≤ b.pmax.y ∧ b.pmin.z ≤ b.pmax.z) :
    0 ≤ a.surface_area ∧
      (contains b a = true → a.surface_area ≤ b.surface_area) ∧
      max a.surface_area b.surface_area ≤ (bboxunion a b).surface_area := by
  refine ⟨?_, ?_, ?_⟩
  · simp only [bbox.surface_area, bbox.extents, float3.sub]
    have h1 := mul_nonneg (sub_nonneg.mpr ha.1) (sub_nonneg.mpr ha.2.1)
    have h2 := mul_nonneg (sub_nonneg.mpr ha.1) (sub_nonneg.mpr ha.2.2)
    have h3 := mul_nonneg (sub_nonneg.mpr ha.2.1) (sub_nonneg.mpr ha.2.2)
    linarith
  · intro hc
    obtain ⟨⟨⟨c1, c2⟩, ⟨c3, c4⟩, c5, c6⟩, ⟨c7, c8⟩, ⟨c9, c10⟩, c11, c12⟩ :=
      (contains_iff_corners b a).mp hc
    exact surface_area_mono_of_extents a b ⟨sub_nonneg.mpr ha.1, by linarith⟩
      ⟨sub_nonneg.mpr ha.2.1, by linarith⟩ ⟨sub_nonneg.mpr ha.2.2, by linarith⟩
  · have hmin : ∀ p q : α, min p q ≤ p ∧ min p q ≤ q := fun p q => ⟨min_le_left _ _, min_le_right _ _⟩
    have hmax : ∀ p q : α, p ≤ max p q ∧ q ≤ max p q := fun p q => ⟨le_max_left _ _, le_max_right _ _⟩
    refine max_le ?_ ?_
    · refine surface_area_mono_of_extents a (bboxunion a b) ⟨sub_nonneg.mpr ha.1, ?_⟩
        ⟨sub_nonneg.mpr ha.2.1, ?_⟩ ⟨sub_nonneg.mpr ha.2.2, ?_⟩ <;>
      simp only [bboxunion, vmin, vmax, stdmin_eq_min, stdmax_eq_max]
      · linarith [(hmin a.pmin.x b.pmin.x).1, (hmax a.pmax.x b.pmax.x).1]
      · linarith [(hmin a.pmin.y b.pmin.y).1, (hmax a.pmax.y b.pmax.y).1]
      · linarith [(hmin a.pmin.z b.pmin.z).1, (hmax a.pmax.z b.pmax.z).1]
    · refine surface_area_mono_of_extents b (bboxunion a b) ⟨sub_nonneg.mpr hb.1, ?_⟩
        ⟨sub_nonneg.mpr hb.2.1, ?_⟩ ⟨sub_nonneg.mpr hb.2.2, ?_⟩ <;>
      simp only [bboxunion, vmin, vmax, stdmin_eq_min, stdmax_eq_max]
      · linarith [(hmin a.pmin.x b.pmin.x).2, (hmax a.pmax.x b.pmax.x).2]
      · linarith [(hmin a.pmin.y b.pmin.y).2, (hmax a.pmax.y b.pmax.y).2]
      · linarith [(hmin a.pmin.z b.pmin.z).2, (hmax a.pmax.z b.pmax.z).2]

/-- Witness for claim C27: the unit cube and the cube `[0, 2]^3`. -/
theorem surface_area_monotone_witness :
    0 ≤ (⟨⟨0, 0, 0⟩, ⟨1, 1, 1⟩⟩ : bbox ℚ).surface_area :=
  (surface_area_monotone (α := ℚ) ⟨⟨0, 0, 0⟩, ⟨1, 1, 1⟩⟩ ⟨⟨0, 0, 0⟩, ⟨2, 2, 2⟩⟩
    (by norm_num) (by norm_num)).1

/-- For a unit normal `n`, the two-argument `map_to_hemisphere(n, s)` is a unit
vector whose cosine with `n` is `cos(PI * s.y)` (over the reals). -/
theorem map_to_hemisphere2_unit (n : float3 ℝ) (s : float2 ℝ) (hn : dot n n = 1) :
    dot (map_to_hemisphere2 Real.sqrt Real.sin Real.cos n s)
        (map_to_hemisphere2 Real.sqrt Real.sin Real.cos n s) = 1 ∧
      dot n (map_to_hemisphere2 Real.sqrt Real.sin Real.cos n s) = Real.cos (PI * s.y) := by
  obtain ⟨hpp, hpn⟩ := orthovector_orthonormal n hn
  have hvv : dot (cross (orthovector Real.sqrt n) n) (cross (orthovector Real.sqrt n) n) = 1 := by
    rw [dot_cross_cross, hpp, hn, hpn]
    ring
  have hpv : dot (orthovector Real.sqrt n) (cross (orthovector Real.sqrt n) n) = 0 := by
    rw [dot_comm]
    exact dot_cross_self_left _ _
  have hvn : dot (cross (orthovector Real.sqrt n) n) n = 0 := dot_cross_self_right _ _
  have hu : cross n (cross (orthovector Real.sqrt n) n) = orthovector Real.sqrt n :=
    cross_cross_of_orthonormal n _ hn hpn
  have htrig := Real.sin_sq_add_cos_sq (2 * PI * s.x)
  have htrig2 := Real.sin_sq_add_cos_sq (PI * s.y)
  have hcomb := dot_orthonormal_combination (orthovector Real.sqrt n)
    (cross (orthovector Real.sqrt n) n) n
    (Real.sin (PI * s.y) * Real.cos (2 * PI * s.x))
    (Real.sin (PI * s.y) * Real.sin (2 * PI * s.x))
    (Real.cos (PI * s.y)) hpp hvv hn hpv hpn hvn
  have hunit : dot
      ((((orthovector Real.sqrt n).muls (Real.sin (PI * s.y) * Real.cos (2 * PI * s.x))).add
        ((cross (orthovector Real.sqrt n) n).muls
          (Real.sin (PI * s.y) * Real.sin (2 * PI * s.x)))).add
        (n.muls (Real.cos (PI * s.y))))
      ((((orthovector Real.sqrt n).muls (Real.sin (PI * s.y) * Real.cos (2 * PI * s.x))).add
        ((cross (orthovector Real.sqrt n) n).muls
          (Real.sin (PI * s.y) * Real.sin (2 * PI * s.x)))).add
        (n.muls (Real.cos (PI * s.y)))) = 1 := by
    rw [hcomb.1]
    linear_combination (Real.sin (PI * s.y) * Real.sin (PI * s.y)) * htrig + htrig2
  simp only [map_to_hemisphere2, hu, muls_muls]
  rw [normalize_of_unit _ hunit]
  exact ⟨hunit, hcomb.2⟩

/-- The cosine of the program's constant `PI` is negative. -/
theorem cos_PI_neg : Real.cos (PI : ℝ) < 0 := by
  have h3 := Real.pi_gt_three
  have h4 := Real.pi_le_four
  apply Real.cos_neg_of_pi_div_two_lt_of_lt
  · unfold PI
    linarith
  · unfold PI
    linarith

/-- Claim C21: the two-argument `map_to_hemisphere(n, s)` does not stay in the
hemisphere around `n`, although its comment announces the unit hemisphere: its
polar angle is `PI * s.y`, which runs over the whole sphere.  For the unit
normal `n = (0, 0, 1)` and the sample `s = (0, 1)` the result is a unit vector
with `dot(n, d) = cos(PI) < 0`. -/
theorem map_to_hemisphere2_leaves_hemisphere :
    dot (⟨0, 0, 1⟩ : float3 ℝ) ⟨0, 0, 1⟩ = 1 ∧
    dot (map_to_hemisphere2 Real.sqrt Real.sin Real.cos (⟨0, 0, 1⟩ : float3 ℝ) ⟨0, 1⟩)
        (map_to_hemisphere2 Real.sqrt Real.sin Real.cos (⟨0, 0, 1⟩ : float3 ℝ) ⟨0, 1⟩) = 1 ∧
    dot (⟨0, 0, 1⟩ : float3 ℝ)
        (map_to_hemisphere2 Real.sqrt Real.sin Real.cos (⟨0, 0, 1⟩ : float3 ℝ) ⟨0, 1⟩) =
      Real.cos PI ∧
    dot (⟨0, 0, 1⟩ : float3 ℝ)
        (map_to_hemisphere2 Real.sqrt Real.sin Real.cos (⟨0, 0, 1⟩ : float3 ℝ) ⟨0, 1⟩) < 0 := by
  have hn : dot (⟨0, 0, 1⟩ : float3 ℝ) ⟨0, 0, 1⟩ = 1 := by norm_num [dot]
  obtain ⟨h1, h2⟩ := map_to_hemisphere2_unit ⟨0, 0, 1⟩ ⟨0, 1⟩ hn
  simp only [mul_one] at h2
  exact ⟨hn, h1, h2, by rw [h2]; exact cos_PI_neg⟩

/-- When two boxes overlap on every axis, `intersection(a, b)` contains exactly
the points contained in both. -/
theorem intersection_contains_iff_of_overlap (a b : bbox α) (p : float3 α)
    (hx : max a.pmin.x b.pmin.x ≤ min a.pmax.x b.pmax.x)
    (hy : max a.pmin.y b.pmin.y ≤ min a.pmax.y b.pmax.y)
    (hz : max a.pmin.z b.pmin.z ≤ min a.pmax.z b.pmax.z) :
    (intersection a b).contains p = true ↔ (a.contains p = true ∧ b.contains p = true) := by
  simp only [bbox_contains_iff, bbox.inside, intersection, bbox.ofPoints, vmin, vmax,
    stdmin_eq_min, stdmax_eq_max, min_eq_left hx, max_eq_right hx, min_eq_left hy,
    max_eq_right hy, min_eq_left hz, max_eq_right hz, max_le_iff, le_min_iff]
  constructor
  · rintro ⟨⟨⟨h1, h2⟩, h3, h4⟩, ⟨⟨h5, h6⟩, h7, h8⟩, ⟨h9, h10⟩, h11, h12⟩
    exact ⟨⟨⟨h1, h3⟩, ⟨h5, h7⟩, h9, h11⟩, ⟨h2, h4⟩, ⟨h6, h8⟩, h10, h12⟩
  · rintro ⟨⟨⟨h1, h3⟩, ⟨h5, h7⟩, h9, h11⟩, ⟨h2, h4⟩, ⟨h6, h8⟩, h10, h12⟩
    exact ⟨⟨⟨h1, h2⟩, h3, h4⟩, ⟨⟨h5, h6⟩, h7, h8⟩, ⟨h9, h10⟩, h11, h12⟩

/-- Claim C26: the code of `intersection(a, b)` does not give the common points
of two disjoint boxes.  The two-point constructor sorts the corners again, so for
the unit cube `a` and its copy `b` moved by `2` along `x` the result is the box
of the gap between them: it contains `(3/2, 1/2, 1/2)`, which is in neither box,
and its surface area is `6`. -/
theorem intersection_of_disjoint_boxes :
    (intersection (⟨⟨0, 0, 0⟩, ⟨1, 1, 1⟩⟩ : bbox ℚ) ⟨⟨2, 0, 0⟩, ⟨3, 1, 1⟩⟩).contains
        ⟨3 / 2, 1 / 2, 1 / 2⟩ = true ∧
    (⟨⟨0, 0, 0⟩, ⟨1, 1, 1⟩⟩ : bbox ℚ).contains ⟨3 / 2, 1 / 2, 1 / 2⟩ = false ∧
    (⟨⟨2, 0, 0⟩, ⟨3, 1, 1⟩⟩ : bbox ℚ).contains ⟨3 / 2, 1 / 2, 1 / 2⟩ = false ∧
    intersection (⟨⟨0, 0, 0⟩, ⟨1, 1, 1⟩⟩ : bbox ℚ) ⟨⟨2, 0, 0⟩, ⟨3, 1, 1⟩⟩ =
      ⟨⟨1, 0, 0⟩, ⟨2, 1, 1⟩⟩ ∧
    (intersection (⟨⟨0, 0, 0⟩, ⟨1, 1, 1⟩⟩ : bbox ℚ) ⟨⟨2, 0, 0⟩, ⟨3, 1, 1⟩⟩).surface_area =
      6 := by
  have hbox : intersection (⟨⟨0, 0, 0⟩, ⟨1, 1, 1⟩⟩ : bbox ℚ) ⟨⟨2, 0, 0⟩, ⟨3, 1, 1⟩⟩ =
      ⟨⟨1, 0, 0⟩, ⟨2, 1, 1⟩⟩ := by
    norm_num [intersection, bbox.ofPoints, vmin, vmax, stdmin, stdmax]
  refine ⟨?_, ?_, ?_, hbox, ?_⟩
  · rw [hbox]
    norm_num [bbox.contains, bbox.center, bbox.extents, float3.scale, float3.add, float3.sub,
      abs_le]
  · norm_num [bbox.contains, bbox.center, bbox.extents, float3.scale, float3.add, float3.sub,
      abs_le]
  · norm_num [bbox.contains, bbox.center, bbox.extents, float3.scale, float3.add, float3.sub,
      abs_le]
  · rw [hbox]
    norm_num [bbox.surface_area, bbox.extents, float3.sub]

/-- Claim C28: the two spherical conversions of the code are not inverse to each
other: `cartesian_to_spherical` takes the azimuth `atan2(z, x)` from the `x` axis,
`spherical_to_cartesian` puts `cos(phi)` on `z` and `sin(phi)` on `x`.  The unit
vector `(1, 0, 0)` has the coordinates `(r, phi, theta) = (1, 0, pi/2)` and comes
back as `(0, 0, 1)`. -/
theorem spherical_roundtrip_swaps_axes :
    cartesian_to_spherical (fun y x => Complex.arg ⟨x, y⟩) Real.sqrt Real.arccos
        (⟨1, 0, 0⟩ : float3 ℝ) = (1, 0, Real.pi / 2) ∧
    spherical_to_cartesian Real.sin Real.cos
        (cartesian_to_spherical (fun y x => Complex.arg ⟨x, y⟩) Real.sqrt Real.arccos
          (⟨1, 0, 0⟩ : float3 ℝ)).1
        (cartesian_to_spherical (fun y x => Complex.arg ⟨x, y⟩) Real.sqrt Real.arccos
          (⟨1, 0, 0⟩ : float3 ℝ)).2.1
        (cartesian_to_spherical (fun y x => Complex.arg ⟨x, y⟩) Real.sqrt Real.arccos
          (⟨1, 0, 0⟩ : float3 ℝ)).2.2 = ⟨0, 0, 1⟩ ∧
    (⟨0, 0, 1⟩ : float3 ℝ) ≠ ⟨1, 0, 0⟩ := by
  have harg : Complex.arg ⟨1, 0⟩ = 0 := by
    have h1 : (⟨1, 0⟩ : ℂ) = 1 := rfl
    rw [h1, Complex.arg_one]
  have hc : cartesian_to_spherical (fun y x => Complex.arg ⟨x, y⟩) Real.sqrt Real.arccos
      (⟨1, 0, 0⟩ : float3 ℝ) = (1, 0, Real.pi / 2) := by
    simp only [cartesian_to_spherical, harg, mul_one, mul_zero, add_zero, Real.sqrt_one,
      div_one, Real.arccos_zero, ge_iff_le, le_refl, if_true]
  refine ⟨hc, ?_, ?_⟩
  · rw [hc]
    simp only [spherical_to_cartesian, Real.sin_pi_div_two, Real.cos_pi_div_two, Real.sin_zero,
      Real.cos_zero, mul_one, mul_zero]
  · intro h
    have hx := congrArg float3.x h
    norm_num at hx

/-- One shift-and-or step doubles the window of bits gathered at each position. -/
theorem smear_step (x y m n : Nat) (hn : n = 2 * m)
    (h : ∀ i, y.testBit i = true ↔ ∃ j, j < m ∧ x.testBit (i + j) = true) :
    ∀ i, (y ||| (y >>> m)).testBit i = true ↔ ∃ j, j < n ∧ x.testBit (i + j) = true := by
  intro i
  rw [Nat.testBit_or, Nat.testBit_shiftRight, Bool.or_eq_true, h, h]
  constructor
  · rintro (⟨j, hj, hb⟩ | ⟨j, hj, hb⟩)
    · exact ⟨j, by omega, hb⟩
    · refine ⟨m + j, by omega, ?_⟩
      have he : i + (m + j) = m + i + j := by omega
      rw [he]
      exact hb
  · rintro ⟨j, hj, hb⟩
    by_cases hjm : j < m
    · exact Or.inl ⟨j, hjm, hb⟩
    · refine Or.inr ⟨j - m, by omega, ?_⟩
      have he : m + i + (j - m) = i + j := by omega
      rw [he]
      exact hb

/-- A number in `[2^k, 2^(k+1))` has bit `k` set. -/
theorem testBit_top (x k : Nat) (hge : 2 ^ k ≤ x) (hlt : x < 2 ^ (k + 1)) :
    x.testBit k = true := by
  by_contra hb
  have hfalse : ∀ i, i ≥ k → x.testBit i = false := by
    intro i hi
    rcases Nat.eq_or_lt_of_le hi with heq | hgt
    · rw [← heq]
      exact Bool.eq_false_iff.mpr hb
    · apply Nat.testBit_lt_two_pow
      exact lt_of_lt_of_le hlt (Nat.pow_le_pow_right (by norm_num) hgt)
  have := Nat.lt_pow_two_of_testBit x hfalse
  omega

/-- The five shift-and-or steps turn a number below `2^32` of bit length `L`
into `2^L - 1`. -/
theorem smear_eq (x L : Nat) (hL : L ≤ 32) (hlt : x < 2 ^ L)
    (hge : L = 0 ∨ 2 ^ (L - 1) ≤ x) :
    ((((x ||| (x >>> 1)) ||| ((x ||| (x >>> 1)) >>> 2)) |||
          (((x ||| (x >>> 1)) ||| ((x ||| (x >>> 1)) >>> 2)) >>> 4)) |||
        ((((x ||| (x >>> 1)) ||| ((x ||| (x >>> 1)) >>> 2)) |||
          (((x ||| (x >>> 1)) ||| ((x ||| (x >>> 1)) >>> 2)) >>> 4)) >>> 8)) |||
      (((((x ||| (x >>> 1)) ||| ((x ||| (x >>> 1)) >>> 2)) |||
          (((x ||| (x >>> 1)) ||| ((x ||| (x >>> 1)) >>> 2)) >>> 4)) |||
        ((((x ||| (x >>> 1)) ||| ((x ||| (x >>> 1)) >>> 2)) |||
          (((x ||| (x >>> 1)) ||| ((x ||| (x >>> 1)) >>> 2)) >>> 4)) >>> 8)) >>> 16) =
      2 ^ L - 1 := by
  have h0 : ∀ i, x.testBit i = true ↔ ∃ j, j < 1 ∧ x.testBit (i + j) = true := by
    intro i
    constructor
    · intro hb
      exact ⟨0, by norm_num, hb⟩
    · rintro ⟨j, hj, hb⟩
      have hj0 : j = 0 := by omega
      rw [hj0] at hb
      exact hb
  have h1 := smear_step x x 1 2 rfl h0
  have h2 := smear_step x _ 2 4 rfl h1
  have h3 := smear_step x _ 4 8 rfl h2
  have h4 := smear_step x _ 8 16 rfl h3
  have h5 := smear_step x _ 16 32 rfl h4
  apply Nat.eq_of_testBit_eq
  intro i
  rw [Nat.testBit_two_pow_sub_one]
  by_cases hi : i < L
  · rw [decide_eq_true hi]
    apply (h5 i).mpr
    refine ⟨L - 1 - i, by omega, ?_⟩
    have he : i + (L - 1 - i) = L - 1 := by omega
    rw [he]
    rcases hge with h | h
    · omega
    · apply testBit_top x (L - 1) h
      have hL1 : L - 1 + 1 = L := by omega
      rw [hL1]
      exact hlt
  · rw [decide_eq_false hi]
    apply Bool.eq_false_iff.mpr
    intro hb
    obtain ⟨j, _, hbj⟩ := (h5 i).mp hb
    have hbig : x < 2 ^ (i + j) :=
      lt_of_lt_of_le hlt (Nat.pow_le_pow_right (by norm_num) (by omega))
    rw [Nat.testBit_lt_two_pow hbig] at hbj
    exact Bool.false_ne_true hbj

/-- For `1 ≤ v ≤ 2^31` and an `unsigned long` of at least `32` bits,
`upper_power_of_two(v)` is `2` to the bit length of `v - 1`. -/
theorem upper_power_of_two_eq (w v : Nat) (hw : 32 ≤ w) (hv1 : 1 ≤ v) (hv2 : v ≤ 2 ^ 31) :
    upper_power_of_two w v = 2 ^ Nat.size (v - 1) := by
  have hpw : (2 : Nat) ^ 32 ≤ 2 ^ w := Nat.pow_le_pow_right (by norm_num) hw
  have hsize : Nat.size (v - 1) ≤ 31 := Nat.size_le.mpr (by omega)
  have hdec : (v + 2 ^ w - 1) % 2 ^ w = v - 1 := by
    have he : v + 2 ^ w - 1 = (v - 1) + 2 ^ w := by omega
    rw [he, Nat.add_mod_right]
    exact Nat.mod_eq_of_lt (by omega)
  have hge : Nat.size (v - 1) = 0 ∨ 2 ^ (Nat.size (v - 1) - 1) ≤ v - 1 := by
    rcases Nat.eq_zero_or_pos (Nat.size (v - 1)) with h | h
    · exact Or.inl h
    · exact Or.inr (Nat.lt_size.mp (by omega))
  have hsm := smear_eq (v - 1) (Nat.size (v - 1)) (by omega) (Nat.lt_size_self _) hge
  have hpos : 0 < 2 ^ Nat.size (v - 1) := Nat.pow_pos (by norm_num)
  have hle : 2 ^ Nat.size (v - 1) ≤ 2 ^ 31 := Nat.pow_le_pow_right (by norm_num) hsize
  simp only [upper_power_of_two, hdec]
  rw [hsm]
  have he2 : 2 ^ Nat.size (v - 1) - 1 + 1 = 2 ^ Nat.size (v - 1) := by omega
  rw [he2]
  exact Nat.mod_eq_of_lt (by omega)

/-- Claim C24: for `1 ≤ v ≤ 2^31`, `upper_power_of_two(v)` is the smallest
power of two that is `≥ v`: it is a power of two, `≥ v`, `< 2*v`, below every
other power of two that is `≥ v`, and every power of two up to `2^31` is a fixed
point (for an `unsigned long` of at least `32` bits). -/
theorem upper_power_of_two_smallest (w v : Nat) (hw : 32 ≤ w) (hv1 : 1 ≤ v)
    (hv2 : v ≤ 2 ^ 31) :
    (∃ k, upper_power_of_two w v = 2 ^ k) ∧
      v ≤ upper_power_of_two w v ∧
      upper_power_of_two w v < 2 * v ∧
      (∀ k, v ≤ 2 ^ k → upper_power_of_two w v ≤ 2 ^ k) ∧
      (∀ k, k ≤ 31 → upper_power_of_two w (2 ^ k) = 2 ^ k) := by
  have hmain := upper_power_of_two_eq w v hw hv1 hv2
  have hlt : v - 1 < 2 ^ Nat.size (v - 1) := Nat.lt_size_self _
  refine ⟨⟨_, hmain⟩, ?_, ?_, ?_, ?_⟩
  · rw [hmain]
    omega
  · rw [hmain]
    rcases Nat.eq_zero_or_pos (Nat.size (v - 1)) with h | h
    · rw [h]
      simp only [pow_zero]
      omega
    · have h2 : 2 ^ (Nat.size (v - 1) - 1) ≤ v - 1 := Nat.lt_size.mp (by omega)
      have h3 : 2 ^ Nat.size (v - 1) = 2 * 2 ^ (Nat.size (v - 1) - 1) := by
        rw [← pow_succ']
        congr 1
        omega
      omega
  · intro k hk
    rw [hmain]
    apply Nat.pow_le_pow_right (by norm_num)
    exact Nat.size_le.mpr (by omega)
  · intro k hk
    have hk2 : (2 : Nat) ^ k ≤ 2 ^ 31 := Nat.pow_le_pow_right (by norm_num) hk
    have hk1 : 1 ≤ (2 : Nat) ^ k := Nat.pow_pos (by norm_num)
    rw [upper_power_of_two_eq w (2 ^ k) hw hk1 hk2]
    congr 1
    apply le_antisymm
    · exact Nat.size_le.mpr (by omega)
    · rcases Nat.eq_zero_or_pos k with h | h
      · omega
      · have h5 : k - 1 < Nat.size (2 ^ k - 1) := by
          apply Nat.lt_size.mpr
          have h6 : (2 : Nat) ^ k = 2 * 2 ^ (k - 1) := by
            rw [← pow_succ']
            congr 1
            omega
          have h7 : 1 ≤ (2 : Nat) ^ (k - 1) := Nat.pow_pos (by norm_num)
          omega
        omega

/-- Witness for claim C24: `v = 5` on a 64-bit `unsigned long`. -/
theorem upper_power_of_two_smallest_witness :
    5 ≤ upper_power_of_two 64 5 ∧ upper_power_of_two 64 5 < 2 * 5 :=
  ⟨(upper_power_of_two_smallest 64 5 (by norm_num) (by norm_num) (by norm_num)).2.1,
    (upper_power_of_two_smallest 64 5 (by norm_num) (by norm_num) (by norm_num)).2.2.1⟩

/-- The values of `a + b` calls are those of the first `a` calls followed by
those of the next `b`. -/
theorem UlamSpiral_values_add (a b : Nat) :
    ∀ s : UlamSpiral,
      UlamSpiral.values (a + b) s =
        UlamSpiral.values a s ++ UlamSpiral.values b (UlamSpiral.after a s) := by
  induction a with
  | zero =>
    intro s
    simp only [Nat.zero_add, UlamSpiral.values, UlamSpiral.after, List.nil_append]
  | succ n ih =>
    intro s
    have he : n + 1 + b = (n + b) + 1 := by omega
    rw [he]
    simp only [UlamSpiral.values, UlamSpiral.after, ih, List.cons_append]

/-- The object after `a + b` calls is the object after `b` calls made on the
object after `a` calls. -/
theorem UlamSpiral_after_add (a b : Nat) :
    ∀ s : UlamSpiral,
      UlamSpiral.after (a + b) s = UlamSpiral.after b (UlamSpiral.after a s) := by
  induction a with
  | zero =>
    intro s
    simp only [Nat.zero_add, UlamSpiral.after]
  | succ n ih =>
    intro s
    have he : n + 1 + b = (n + b) + 1 := by omega
    rw [he]
    simp only [UlamSpiral.after, ih]

/-- While the `switch` of `Next` changes nothing, the spiral returns the cells of
a straight line and moves along it. -/
theorem UlamSpiral_straight (m : Nat) :
    ∀ s : UlamSpiral, (∀ j, j < m → (s.shift j).turn = s.shift j) →
      UlamSpiral.values m s = UlamSpiral.line s.pos (UlamSpiral.pdir s.dir) m ∧
        UlamSpiral.after m s = s.shift m := by
  induction m with
  | zero =>
    intro s _
    refine ⟨rfl, ?_⟩
    simp only [UlamSpiral.after, UlamSpiral.shift, Nat.cast_zero, zero_mul, add_zero]
  | succ n ih =>
    intro s h
    have h0 : s.turn = s := by
      have := h 0 (Nat.succ_pos n)
      simpa [UlamSpiral.shift] using this
    have hnext : s.Next = (s.pos, s.shift 1) := by
      simp only [UlamSpiral.Next, h0, UlamSpiral.shift, Nat.cast_one, one_mul]
    have hshift : ∀ j, (s.shift 1).shift j = s.shift (j + 1) := by
      intro j
      simp only [UlamSpiral.shift, Nat.cast_one, one_mul, Nat.cast_add]
      congr 1
      congr 1 <;> ring
    have hrest : ∀ j, j < n → ((s.shift 1).shift j).turn = (s.shift 1).shift j := by
      intro j hj
      rw [hshift]
      exact h (j + 1) (by omega)
    obtain ⟨i1, i2⟩ := ih (s.shift 1) hrest
    constructor
    · simp only [UlamSpiral.values, hnext, i1]
      simp only [UlamSpiral.line, List.range_succ_eq_map, List.map_cons, List.map_map,
        Nat.cast_zero, zero_mul, add_zero]
      congr 1
      apply List.map_congr_left
      intro j _
      simp only [Function.comp, UlamSpiral.shift, Nat.cast_one, one_mul, Nat.succ_eq_add_one,
        Nat.cast_add]
      congr 1 <;> ring
    · simp only [UlamSpiral.after, hnext, i2, hshift]

/-- The value of a single call of `Next`. -/
theorem UlamSpiral_values_one (s : UlamSpiral) : UlamSpiral.values 1 s = [s.Next.1] := rfl

/-- The object after a single call of `Next`. -/
theorem UlamSpiral_after_one (s : UlamSpiral) : UlamSpiral.after 1 s = s.Next.2 := rfl

/-- A line of `m + 1` cells is its first cell followed by the line of `m` cells
from the next one. -/
theorem UlamSpiral_line_succ (p d : int2) (m : Nat) :
    UlamSpiral.line p d (m + 1) = p :: UlamSpiral.line ⟨p.x + d.x, p.y + d.y⟩ d m := by
  simp only [UlamSpiral.line, List.range_succ_eq_map, List.map_cons, List.map_map,
    Nat.cast_zero, zero_mul, add_zero]
  congr 1
  apply List.map_congr_left
  intro j _
  simp only [Function.comp, Nat.succ_eq_add_one, Nat.cast_add, Nat.cast_one]
  congr 1 <;> ring

/-- The right column of ring `k + 1`: from the start of the ring the spiral turns
upward and returns the `2k + 1` cells `(k+1, -k), ..., (k+1, k)`. -/
theorem UlamSpiral_ring_up (k : Nat) :
    UlamSpiral.values (1 + 2 * k) (UlamSpiral.ringStart k) =
        UlamSpiral.line ⟨(k : Int) + 1, -(k : Int)⟩ ⟨0, 1⟩ (2 * k + 1) ∧
      UlamSpiral.after (1 + 2 * k) (UlamSpiral.ringStart k) =
        { pos := ⟨(k : Int) + 1, (k : Int) + 1⟩, pmin := ⟨-((k : Int) + 1), -((k : Int) + 1)⟩,
          pmax := ⟨(k : Int) + 2, (k : Int) + 1⟩, dir := 1 } := by
  have hnext : (UlamSpiral.ringStart k).Next =
      (⟨(k : Int) + 1, -(k : Int)⟩,
        { pos := ⟨(k : Int) + 1, -(k : Int) + 1⟩, pmin := ⟨-((k : Int) + 1), -((k : Int) + 1)⟩,
          pmax := ⟨(k : Int) + 2, (k : Int) + 1⟩, dir := 1 }) := by
    simp only [UlamSpiral.Next, UlamSpiral.ringStart, UlamSpiral.turn, UlamSpiral.pdir, if_true,
      add_zero, Nat.zero_add, Prod.mk.injEq, true_and]
    congr 2
  have hrun := UlamSpiral_straight (2 * k)
    { pos := ⟨(k : Int) + 1, -(k : Int) + 1⟩, pmin := ⟨-((k : Int) + 1), -((k : Int) + 1)⟩,
      pmax := ⟨(k : Int) + 2, (k : Int) + 1⟩, dir := 1 }
    (by
      intro j hj
      have hne : ¬ (-(k : Int) + 1 + (j : Int) * 1 = (k : Int) + 1) := by omega
      simp only [UlamSpiral.shift, UlamSpiral.turn, UlamSpiral.pdir, hne, if_false])
  rw [UlamSpiral_values_add, UlamSpiral_after_add, UlamSpiral_values_one, UlamSpiral_after_one]
  simp only [hnext, hrun.1, hrun.2, List.singleton_append]
  constructor
  · conv_rhs => rw [UlamSpiral_line_succ]
    simp only [add_zero, UlamSpiral.pdir]
  · simp only [UlamSpiral.shift, UlamSpiral.pdir, mul_zero, add_zero, mul_one, Nat.cast_mul,
      Nat.cast_ofNat]
    congr 2
    ring

/-- The top row of ring `k + 1`: from the upper right corner the spiral turns
left and returns the `2k + 2` cells `(k+1, k+1), ..., (-k, k+1)`. -/
theorem UlamSpiral_ring_left (k : Nat) :
    UlamSpiral.values (1 + (2 * k + 1))
        { pos := ⟨(k : Int) + 1, (k : Int) + 1⟩, pmin := ⟨-((k : Int) + 1), -((k : Int) + 1)⟩,
          pmax := ⟨(k : Int) + 2, (k : Int) + 1⟩, dir := 1 } =
        UlamSpiral.line ⟨(k : Int) + 1, (k : Int) + 1⟩ ⟨-1, 0⟩ (2 * k + 2) ∧
      UlamSpiral.after (1 + (2 * k + 1))
        { pos := ⟨(k : Int) + 1, (k : Int) + 1⟩, pmin := ⟨-((k : Int) + 1), -((k : Int) + 1)⟩,
          pmax := ⟨(k : Int) + 2, (k : Int) + 1⟩, dir := 1 } =
        { pos := ⟨-((k : Int) + 1), (k : Int) + 1⟩,
          pmin := ⟨-((k : Int) + 1), -((k : Int) + 1)⟩,
          pmax := ⟨(k : Int) + 2, (k : Int) + 2⟩, dir := 2 } := by
  have hnext : UlamSpiral.Next
      { pos := ⟨(k : Int) + 1, (k : Int) + 1⟩, pmin := ⟨-((k : Int) + 1), -((k : Int) + 1)⟩,
        pmax := ⟨(k : Int) + 2, (k : Int) + 1⟩, dir := 1 } =
      (⟨(k : Int) + 1, (k : Int) + 1⟩,
        { pos := ⟨(k : Int) + 1 + -1, (k : Int) + 1⟩,
          pmin := ⟨-((k : Int) + 1), -((k : Int) + 1)⟩,
          pmax := ⟨(k : Int) + 2, (k : Int) + 2⟩, dir := 2 }) := by
    simp only [UlamSpiral.Next, UlamSpiral.turn, UlamSpiral.pdir, if_true, add_zero,
      Prod.mk.injEq, true_and, UlamSpiral.mk.injEq, int2.mk.injEq, and_true]
    omega
  have hrun := UlamSpiral_straight (2 * k + 1)
    { pos := ⟨(k : Int) + 1 + -1, (k : Int) + 1⟩, pmin := ⟨-((k : Int) + 1), -((k : Int) + 1)⟩,
      pmax := ⟨(k : Int) + 2, (k : Int) + 2⟩, dir := 2 }
    (by
      intro j hj
      have hne : ¬ ((k : Int) + 1 + -1 + (j : Int) * -1 = -((k : Int) + 1)) := by omega
      simp only [UlamSpiral.shift, UlamSpiral.turn, UlamSpiral.pdir, hne, if_false])
  rw [UlamSpiral_values_add, UlamSpiral_after_add, UlamSpiral_values_one, UlamSpiral_after_one]
  simp only [hnext, hrun.1, hrun.2, List.singleton_append]
  constructor
  · conv_rhs => rw [UlamSpiral_line_succ]
    simp only [add_zero, UlamSpiral.pdir]
  · simp only [UlamSpiral.shift, UlamSpiral.pdir, UlamSpiral.mk.injEq, int2.mk.injEq, and_true,
      true_and]
    push_cast
    omega

/-- The left column of ring `k + 1`: from the upper left corner the spiral turns
downward and returns the `2k + 2` cells `(-(k+1), k+1), ..., (-(k+1), -k)`. -/
theorem UlamSpiral_ring_down (k : Nat) :
    UlamSpiral.values (1 + (2 * k + 1))
        { pos := ⟨-((k : Int) + 1), (k : Int) + 1⟩,
          pmin := ⟨-((k : Int) + 1), -((k : Int) + 1)⟩,
          pmax := ⟨(k : Int) + 2, (k : Int) + 2⟩, dir := 2 } =
        UlamSpiral.line ⟨-((k : Int) + 1), (k : Int) + 1⟩ ⟨0, -1⟩ (2 * k + 2) ∧
      UlamSpiral.after (1 + (2 * k + 1))
        { pos := ⟨-((k : Int) + 1), (k : Int) + 1⟩,
          pmin := ⟨-((k : Int) + 1), -((k : Int) + 1)⟩,
          pmax := ⟨(k : Int) + 2, (k : Int) + 2⟩, dir := 2 } =
        { pos := ⟨-((k : Int) + 1), -((k : Int) + 1)⟩,
          pmin := ⟨-((k : Int) + 2), -((k : Int) + 1)⟩,
          pmax := ⟨(k : Int) + 2, (k : Int) + 2⟩, dir := 3 } := by
  have hnext : UlamSpiral.Next
      { pos := ⟨-((k : Int) + 1), (k : Int) + 1⟩,
        pmin := ⟨-((k : Int) + 1), -((k : Int) + 1)⟩,
        pmax := ⟨(k : Int) + 2, (k : Int) + 2⟩, dir := 2 } =
      (⟨-((k : Int) + 1), (k : Int) + 1⟩,
        { pos := ⟨-((k : Int) + 1), (k : Int) + 1 + -1⟩,
          pmin := ⟨-((k : Int) + 2), -((k : Int) + 1)⟩,
          pmax := ⟨(k : Int) + 2, (k : Int) + 2⟩, dir := 3 }) := by
    simp only [UlamSpiral.Next, UlamSpiral.turn, UlamSpiral.pdir, if_true, add_zero,
      Prod.mk.injEq, true_and, UlamSpiral.mk.injEq, int2.mk.injEq, and_true]
    omega
  have hrun := UlamSpiral_straight (2 * k + 1)
    { pos := ⟨-((k : Int) + 1), (k : Int) + 1 + -1⟩,
      pmin := ⟨-((k : Int) + 2), -((k : Int) + 1)⟩,
      pmax := ⟨(k : Int) + 2, (k : Int) + 2⟩, dir := 3 }
    (by
      intro j hj
      have hne : ¬ ((k : Int) + 1 + -1 + (j : Int) * -1 = -((k : Int) + 1)) := by omega
      simp only [UlamSpiral.shift, UlamSpiral.turn, UlamSpiral.pdir, hne, if_false])
  rw [UlamSpiral_values_add, UlamSpiral_after_add, UlamSpiral_values_one, UlamSpiral_after_one]
  simp only [hnext, hrun.1, hrun.2, List.singleton_append]
  constructor
  · conv_rhs => rw [UlamSpiral_line_succ]
    simp only [add_zero, UlamSpiral.pdir]
  · simp only [UlamSpiral.shift, UlamSpiral.pdir, UlamSpiral.mk.injEq, int2.mk.injEq, and_true,
      true_and]
    push_cast
    omega

/-- The bottom row of ring `k + 1`: from the lower left corner the spiral turns
right and returns the `2k + 3` cells `(-(k+1), -(k+1)), ..., (k+1, -(k+1))`,
which completes the ring. -/
theorem UlamSpiral_ring_right (k : Nat) :
    UlamSpiral.values (1 + (2 * k + 2))
        { pos := ⟨-((k : Int) + 1), -((k : Int) + 1)⟩,
          pmin := ⟨-((k : Int) + 2), -((k : Int) + 1)⟩,
          pmax := ⟨(k : Int) + 2, (k : Int) + 2⟩, dir := 3 } =
        UlamSpiral.line ⟨-((k : Int) + 1), -((k : Int) + 1)⟩ ⟨1, 0⟩ (2 * k + 3) ∧
      UlamSpiral.after (1 + (2 * k + 2))
        { pos := ⟨-((k : Int) + 1), -((k : Int) + 1)⟩,
          pmin := ⟨-((k : Int) + 2), -((k : Int) + 1)⟩,
          pmax := ⟨(k : Int) + 2, (k : Int) + 2⟩, dir := 3 } =
        UlamSpiral.ringStart (k + 1) := by
  have hnext : UlamSpiral.Next
      { pos := ⟨-((k : Int) + 1), -((k : Int) + 1)⟩,
        pmin := ⟨-((k : Int) + 2), -((k : Int) + 1)⟩,
        pmax := ⟨(k : Int) + 2, (k : Int) + 2⟩, dir := 3 } =
      (⟨-((k : Int) + 1), -((k : Int) + 1)⟩,
        { pos := ⟨-((k : Int) + 1) + 1, -((k : Int) + 1)⟩,
          pmin := ⟨-((k : Int) + 2), -((k : Int) + 2)⟩,
          pmax := ⟨(k : Int) + 2, (k : Int) + 2⟩, dir := 0 }) := by
    simp only [UlamSpiral.Next, UlamSpiral.turn, UlamSpiral.pdir, if_true, add_zero,
      Prod.mk.injEq, true_and, UlamSpiral.mk.injEq, int2.mk.injEq, and_true]
    omega
  have hrun := UlamSpiral_straight (2 * k + 2)
    { pos := ⟨-((k : Int) + 1) + 1, -((k : Int) + 1)⟩,
      pmin := ⟨-((k : Int) + 2), -((k : Int) + 2)⟩,
      pmax := ⟨(k : Int) + 2, (k : Int) + 2⟩, dir := 0 }
    (by
      intro j hj
      have hne : ¬ (-((k : Int) + 1) + 1 + (j : Int) * 1 = (k : Int) + 2) := by omega
      simp only [UlamSpiral.shift, UlamSpiral.turn, UlamSpiral.pdir, hne, if_false])
  rw [UlamSpiral_values_add, UlamSpiral_after_add, UlamSpiral_values_one, UlamSpiral_after_one]
  simp only [hnext, hrun.1, hrun.2, List.singleton_append]
  constructor
  · conv_rhs => rw [UlamSpiral_line_succ]
    simp only [add_zero, UlamSpiral.pdir]
  · simp only [UlamSpiral.shift, UlamSpiral.pdir, UlamSpiral.ringStart, UlamSpiral.mk.injEq,
      int2.mk.injEq, and_true, true_and]
    push_cast
    omega

/-- The first half of ring `k + 1`. -/
theorem UlamSpiral_half_ring (k : Nat) :
    UlamSpiral.values (4 * k + 3) (UlamSpiral.ringStart k) = UlamSpiral.halfRing k ∧
      UlamSpiral.after (4 * k + 3) (UlamSpiral.ringStart k) =
        { pos := ⟨-((k : Int) + 1), (k : Int) + 1⟩,
          pmin := ⟨-((k : Int) + 1), -((k : Int) + 1)⟩,
          pmax := ⟨(k : Int) + 2, (k : Int) + 2⟩, dir := 2 } := by
  have he : 4 * k + 3 = (1 + 2 * k) + (1 + (2 * k + 1)) := by omega
  obtain ⟨u1, u2⟩ := UlamSpiral_ring_up k
  obtain ⟨l1, l2⟩ := UlamSpiral_ring_left k
  rw [he, UlamSpiral_values_add (1 + 2 * k) (1 + (2 * k + 1)),
    UlamSpiral_after_add (1 + 2 * k) (1 + (2 * k + 1)), u1, u2, l1, l2]
  exact ⟨rfl, rfl⟩

/-- The second half of ring `k + 1`, after which ring `k + 2` starts. -/
theorem UlamSpiral_rest_ring (k : Nat) :
    UlamSpiral.values (4 * k + 5)
        { pos := ⟨-((k : Int) + 1), (k : Int) + 1⟩,
          pmin := ⟨-((k : Int) + 1), -((k : Int) + 1)⟩,
          pmax := ⟨(k : Int) + 2, (k : Int) + 2⟩, dir := 2 } = UlamSpiral.restRing k ∧
      UlamSpiral.after (4 * k + 5)
        { pos := ⟨-((k : Int) + 1), (k : Int) + 1⟩,
          pmin := ⟨-((k : Int) + 1), -((k : Int) + 1)⟩,
          pmax := ⟨(k : Int) + 2, (k : Int) + 2⟩, dir := 2 } =
        UlamSpiral.ringStart (k + 1) := by
  have he : 4 * k + 5 = (1 + (2 * k + 1)) + (1 + (2 * k + 2)) := by omega
  obtain ⟨d1, d2⟩ := UlamSpiral_ring_down k
  obtain ⟨r1, r2⟩ := UlamSpiral_ring_right k
  rw [he, UlamSpiral_values_add (1 + (2 * k + 1)) (1 + (2 * k + 2)),
    UlamSpiral_after_add (1 + (2 * k + 1)) (1 + (2 * k + 2)), d1, d2, r1, r2]
  exact ⟨rfl, rfl⟩

/-- After `(2k+1)^2` calls the spiral stands at the start of ring `k + 1`. -/
theorem UlamSpiral_after_square (k : Nat) :
    UlamSpiral.after ((2 * k + 1) ^ 2) UlamSpiral.Reset = UlamSpiral.ringStart k := by
  induction k with
  | zero => decide
  | succ n ih =>
    have he : (2 * (n + 1) + 1) ^ 2 = (2 * n + 1) ^ 2 + ((4 * n + 3) + (4 * n + 5)) := by ring
    rw [he, UlamSpiral_after_add ((2 * n + 1) ^ 2) ((4 * n + 3) + (4 * n + 5)), ih,
      UlamSpiral_after_add (4 * n + 3) (4 * n + 5), (UlamSpiral_half_ring n).2,
      (UlamSpiral_rest_ring n).2]

/-- The first `(2k+2)^2` values are the first `(2k+1)^2` followed by the first
half of ring `k + 1`. -/
theorem UlamSpiral_values_even_square (k : Nat) :
    UlamSpiral.values ((2 * (k + 1)) ^ 2) UlamSpiral.Reset =
      UlamSpiral.values ((2 * k + 1) ^ 2) UlamSpiral.Reset ++ UlamSpiral.halfRing k := by
  have he : (2 * (k + 1)) ^ 2 = (2 * k + 1) ^ 2 + (4 * k + 3) := by ring
  rw [he, UlamSpiral_values_add ((2 * k + 1) ^ 2) (4 * k + 3), UlamSpiral_after_square,
    (UlamSpiral_half_ring k).1]

/-- The first `(2k+3)^2` values are the first `(2k+2)^2` followed by the second
half of ring `k + 1`. -/
theorem UlamSpiral_values_odd_square (k : Nat) :
    UlamSpiral.values ((2 * (k + 1) + 1) ^ 2) UlamSpiral.Reset =
      UlamSpiral.values ((2 * (k + 1)) ^ 2) UlamSpiral.Reset ++ UlamSpiral.restRing k := by
  have he : (2 * (k + 1) + 1) ^ 2 = (2 * k + 1) ^ 2 + ((4 * k + 3) + (4 * k + 5)) := by ring
  rw [UlamSpiral_values_even_square, he,
    UlamSpiral_values_add ((2 * k + 1) ^ 2) ((4 * k + 3) + (4 * k + 5)), UlamSpiral_after_square,
    UlamSpiral_values_add (4 * k + 3) (4 * k + 5), (UlamSpiral_half_ring k).1,
    (UlamSpiral_half_ring k).2, (UlamSpiral_rest_ring k).1, List.append_assoc]

/-- The cells of a line going up. -/
theorem UlamSpiral_mem_line_up (a b : Int) (m : Nat) (c : int2) :
    c ∈ UlamSpiral.line ⟨a, b⟩ ⟨0, 1⟩ m ↔ c.x = a ∧ b ≤ c.y ∧ c.y < b + m := by
  simp only [UlamSpiral.line, List.mem_map, List.mem_range, mul_zero, add_zero, mul_one]
  constructor
  · rintro ⟨j, hj, rfl⟩
    simp only [true_and]
    omega
  · rintro ⟨h1, h2, h3⟩
    refine ⟨(c.y - b).toNat, by omega, ?_⟩
    cases c
    simp only [int2.mk.injEq] at h1 h2 h3 ⊢
    omega

/-- The cells of a line going left. -/
theorem UlamSpiral_mem_line_left (a b : Int) (m : Nat) (c : int2) :
    c ∈ UlamSpiral.line ⟨a, b⟩ ⟨-1, 0⟩ m ↔ c.y = b ∧ a - m < c.x ∧ c.x ≤ a := by
  simp only [UlamSpiral.line, List.mem_map, List.mem_range, mul_zero, add_zero, mul_neg, mul_one]
  constructor
  · rintro ⟨j, hj, rfl⟩
    simp only [true_and]
    omega
  · rintro ⟨h1, h2, h3⟩
    refine ⟨(a - c.x).toNat, by omega, ?_⟩
    cases c
    simp only [int2.mk.injEq] at h1 h2 h3 ⊢
    omega

/-- The cells of a line going down. -/
theorem UlamSpiral_mem_line_down (a b : Int) (m : Nat) (c : int2) :
    c ∈ UlamSpiral.line ⟨a, b⟩ ⟨0, -1⟩ m ↔ c.x = a ∧ b - m < c.y ∧ c.y ≤ b := by
  simp only [UlamSpiral.line, List.mem_map, List.mem_range, mul_zero, add_zero, mul_neg, mul_one]
  constructor
  · rintro ⟨j, hj, rfl⟩
    simp only [true_and]
    omega
  · rintro ⟨h1, h2, h3⟩
    refine ⟨(b - c.y).toNat, by omega, ?_⟩
    cases c
    simp only [int2.mk.injEq] at h1 h2 h3 ⊢
    omega

/-- The cells of a line going right. -/
theorem UlamSpiral_mem_line_right (a b : Int) (m : Nat) (c : int2) :
    c ∈ UlamSpiral.line ⟨a, b⟩ ⟨1, 0⟩ m ↔ c.y = b ∧ a ≤ c.x ∧ c.x < a + m := by
  simp only [UlamSpiral.line, List.mem_map, List.mem_range, mul_zero, add_zero, mul_one]
  constructor
  · rintro ⟨j, hj, rfl⟩
    simp only [true_and]
    omega
  · rintro ⟨h1, h2, h3⟩
    refine ⟨(c.x - a).toNat, by omega, ?_⟩
    cases c
    simp only [int2.mk.injEq] at h1 h2 h3 ⊢
    omega

/-- A line in a non-zero direction visits no cell twice. -/
theorem UlamSpiral_nodup_line (p d : int2) (m : Nat) (hd : d.x ≠ 0 ∨ d.y ≠ 0) :
    (UlamSpiral.line p d m).Nodup := by
  unfold UlamSpiral.line
  refine List.Nodup.map ?_ (List.nodup_range m)
  intro i j hij
  simp only [int2.mk.injEq, add_right_inj] at hij
  rcases hd with h | h
  · exact_mod_cast mul_right_cancel₀ h hij.1
  · exact_mod_cast mul_right_cancel₀ h hij.2

/-- The cells of the first half of ring `k + 1`. -/
theorem UlamSpiral_mem_halfRing (k : Nat) (c : int2) :
    c ∈ UlamSpiral.halfRing k ↔
      (c.x = (k : Int) + 1 ∧ -(k : Int) ≤ c.y ∧ c.y ≤ k) ∨
        (c.y = (k : Int) + 1 ∧ -(k : Int) ≤ c.x ∧ c.x ≤ (k : Int) + 1) := by
  simp only [UlamSpiral.halfRing, List.mem_append, UlamSpiral_mem_line_up,
    UlamSpiral_mem_line_left]
  push_cast
  omega

/-- The cells of the second half of ring `k + 1`. -/
theorem UlamSpiral_mem_restRing (k : Nat) (c : int2) :
    c ∈ UlamSpiral.restRing k ↔
      (c.x = -((k : Int) + 1) ∧ -(k : Int) ≤ c.y ∧ c.y ≤ (k : Int) + 1) ∨
        (c.y = -((k : Int) + 1) ∧ -((k : Int) + 1) ≤ c.x ∧ c.x ≤ (k : Int) + 1) := by
  simp only [UlamSpiral.restRing, List.mem_append, UlamSpiral_mem_line_down,
    UlamSpiral_mem_line_right]
  push_cast
  omega

/-- The first half of a ring visits no cell twice. -/
theorem UlamSpiral_nodup_halfRing (k : Nat) : (UlamSpiral.halfRing k).Nodup := by
  unfold UlamSpiral.halfRing
  refine List.nodup_append.mpr ⟨UlamSpiral_nodup_line _ _ _ (Or.inr (by norm_num)),
    UlamSpiral_nodup_line _ _ _ (Or.inl (by norm_num)), ?_⟩
  intro c h1 h2
  rw [UlamSpiral_mem_line_up] at h1
  rw [UlamSpiral_mem_line_left] at h2
  push_cast at h1 h2
  omega

/-- The second half of a ring visits no cell twice. -/
theorem UlamSpiral_nodup_restRing (k : Nat) : (UlamSpiral.restRing k).Nodup := by
  unfold UlamSpiral.restRing
  refine List.nodup_append.mpr ⟨UlamSpiral_nodup_line _ _ _ (Or.inr (by norm_num)),
    UlamSpiral_nodup_line _ _ _ (Or.inl (by norm_num)), ?_⟩
  intro c h1 h2
  rw [UlamSpiral_mem_line_down] at h1
  rw [UlamSpiral_mem_line_right] at h2
  push_cast at h1 h2
  omega

/-- From the square `[-k, k]^2` to the square `[-k, k+1]^2`: if the first
`(2k+1)^2` values are the cells of the former, each once, the first `(2k+2)^2`
values are the cells of the latter, each once. -/
theorem UlamSpiral_even_of_odd (k : Nat)
    (hP : (UlamSpiral.values ((2 * k + 1) ^ 2) UlamSpiral.Reset).Nodup ∧
      ∀ c : int2, c ∈ UlamSpiral.values ((2 * k + 1) ^ 2) UlamSpiral.Reset ↔
        (-(k : Int) ≤ c.x ∧ c.x ≤ k) ∧ (-(k : Int) ≤ c.y ∧ c.y ≤ k)) :
    (UlamSpiral.values ((2 * (k + 1)) ^ 2) UlamSpiral.Reset).Nodup ∧
      ∀ c : int2, c ∈ UlamSpiral.values ((2 * (k + 1)) ^ 2) UlamSpiral.Reset ↔
        (-(k : Int) ≤ c.x ∧ c.x ≤ (k : Int) + 1) ∧ (-(k : Int) ≤ c.y ∧ c.y ≤ (k : Int) + 1) := by
  obtain ⟨hnd, hmem⟩ := hP
  rw [UlamSpiral_values_even_square]
  constructor
  · refine List.nodup_append.mpr ⟨hnd, UlamSpiral_nodup_halfRing k, ?_⟩
    intro c h1 h2
    rw [hmem] at h1
    rw [UlamSpiral_mem_halfRing] at h2
    omega
  · intro c
    rw [List.mem_append, hmem, UlamSpiral_mem_halfRing]
    omega

/-- From the square `[-k, k+1]^2` to the square `[-(k+1), k+1]^2`. -/
theorem UlamSpiral_odd_of_even (k : Nat)
    (hQ : (UlamSpiral.values ((2 * (k + 1)) ^ 2) UlamSpiral.Reset).Nodup ∧
      ∀ c : int2, c ∈ UlamSpiral.values ((2 * (k + 1)) ^ 2) UlamSpiral.Reset ↔
        (-(k : Int) ≤ c.x ∧ c.x ≤ (k : Int) + 1) ∧ (-(k : Int) ≤ c.y ∧ c.y ≤ (k : Int) + 1)) :
    (UlamSpiral.values ((2 * (k + 1) + 1) ^ 2) UlamSpiral.Reset).Nodup ∧
      ∀ c : int2, c ∈ UlamSpiral.values ((2 * (k + 1) + 1) ^ 2) UlamSpiral.Reset ↔
        (-((k : Int) + 1) ≤ c.x ∧ c.x ≤ (k : Int) + 1) ∧
          (-((k : Int) + 1) ≤ c.y ∧ c.y ≤ (k : Int) + 1) := by
  obtain ⟨hnd, hmem⟩ := hQ
  rw [UlamSpiral_values_odd_square]
  constructor
  · refine List.nodup_append.mpr ⟨hnd, UlamSpiral_nodup_restRing k, ?_⟩
    intro c h1 h2
    rw [hmem] at h1
    rw [UlamSpiral_mem_restRing] at h2
    omega
  · intro c
    rw [List.mem_append, hmem, UlamSpiral_mem_restRing]
    omega

/-- The first `(2k+1)^2` values of the spiral are the cells of `[-k, k]^2`,
each once. -/
theorem UlamSpiral_odd_square (k : Nat) :
    (UlamSpiral.values ((2 * k + 1) ^ 2) UlamSpiral.Reset).Nodup ∧
      ∀ c : int2, c ∈ UlamSpiral.values ((2 * k + 1) ^ 2) UlamSpiral.Reset ↔
        (-(k : Int) ≤ c.x ∧ c.x ≤ k) ∧ (-(k : Int) ≤ c.y ∧ c.y ≤ k) := by
  induction k with
  | zero =>
    have h0 : UlamSpiral.values ((2 * 0 + 1) ^ 2) UlamSpiral.Reset = [⟨0, 0⟩] := by decide
    rw [h0]
    refine ⟨List.nodup_singleton _, ?_⟩
    intro c
    cases c
    simp only [List.mem_singleton, int2.mk.injEq, Nat.cast_zero, neg_zero]
    omega
  | succ n ih =>
    have h := UlamSpiral_odd_of_even n (UlamSpiral_even_of_odd n ih)
    push_cast
    exact h

/-- The number of values returned by `n` calls. -/
theorem UlamSpiral_length_values (n : Nat) :
    ∀ s : UlamSpiral, (UlamSpiral.values n s).length = n := by
  induction n with
  | zero => exact fun _ => rfl
  | succ m ih =>
    intro s
    simp only [UlamSpiral.values, List.length_cons, ih]

/-- Claim C30: after `Reset` the tile spiral never returns the same cell twice
and fills squares in order: for every `k` the first `(2k+1)^2` values of
`UlamSpiral::Next` are exactly the cells of `[-k, k] x [-k, k]`, each once, and
the first `(2(k+1))^2` values are exactly the cells of `[-k, k+1] x [-k, k+1]`,
each once (the second statement of the claim with `k + 1` for its `k ≥ 1`). -/
theorem UlamSpiral_fills_squares :
    (∀ n : Nat, (UlamSpiral.values n UlamSpiral.Reset).Nodup) ∧
      (∀ k : Nat,
        (UlamSpiral.values ((2 * k + 1) ^ 2) UlamSpiral.Reset).length = (2 * k + 1) ^ 2 ∧
        (UlamSpiral.values ((2 * k + 1) ^ 2) UlamSpiral.Reset).Nodup ∧
        ∀ c : int2, c ∈ UlamSpiral.values ((2 * k + 1) ^ 2) UlamSpiral.Reset ↔
          (-(k : Int) ≤ c.x ∧ c.x ≤ k) ∧ (-(k : Int) ≤ c.y ∧ c.y ≤ k)) ∧
      (∀ k : Nat,
        (UlamSpiral.values ((2 * (k + 1)) ^ 2) UlamSpiral.Reset).length = (2 * (k + 1)) ^ 2 ∧
        (UlamSpiral.values ((2 * (k + 1)) ^ 2) UlamSpiral.Reset).Nodup ∧
        ∀ c : int2, c ∈ UlamSpiral.values ((2 * (k + 1)) ^ 2) UlamSpiral.Reset ↔
          (-(k : Int) ≤ c.x ∧ c.x ≤ (k : Int) + 1) ∧
            (-(k : Int) ≤ c.y ∧ c.y ≤ (k : Int) + 1)) := by
  refine ⟨?_, ?_, ?_⟩
  · intro n
    have hle : n ≤ (2 * n + 1) ^ 2 := by nlinarith
    obtain ⟨m, hm⟩ := Nat.exists_eq_add_of_le hle
    have hnd := (UlamSpiral_odd_square n).1
    rw [hm, UlamSpiral_values_add n m] at hnd
    exact (List.nodup_append.mp hnd).1
  · intro k
    exact ⟨UlamSpiral_length_values _ _, UlamSpiral_odd_square k⟩
  · intro k
    exact ⟨UlamSpiral_length_values _ _, UlamSpiral_even_of_odd k (UlamSpiral_odd_square k)⟩

/-! ## Binary32: rounding, order and the claims that depend on them -/

/-! ### Rounding to binary32 -/

/-- The halving count finds the leading binary digit when the fuel suffices. -/
theorem f32_log2_fuel_spec : ∀ (fuel n : Nat), n ≤ fuel → 1 ≤ n →
    2 ^ f32.log2_fuel fuel n ≤ n ∧ n < 2 ^ (f32.log2_fuel fuel n + 1) := by
  intro fuel
  induction fuel with
  | zero =>
    intro n h1 h2
    omega
  | succ f ih =>
    intro n h1 h2
    simp only [f32.log2_fuel]
    split_ifs with h
    · have hn : n = 1 := by omega
      subst hn
      norm_num
    · obtain ⟨h4, h5⟩ := ih (n / 2) (by omega) (by omega)
      constructor
      · rw [pow_succ]
        omega
      · rw [pow_succ]
        omega

/-- The leading binary digit of a positive natural. -/
theorem f32_log2_spec (n : Nat) (h : 1 ≤ n) :
    2 ^ f32.log2 n ≤ n ∧ n < 2 ^ (f32.log2 n + 1) :=
  f32_log2_fuel_spec n n le_rfl h

/-- The binary exponent of a positive quotient. -/
theorem f32_ilog2_spec (n d : Nat) (hn : 0 < n) (hd : 0 < d) :
    (2 : ℚ) ^ (f32.ilog2 n d) ≤ (n : ℚ) / d ∧
      (n : ℚ) / d < (2 : ℚ) ^ (f32.ilog2 n d + 1) := by
  have hdq : (0 : ℚ) < d := by exact_mod_cast hd
  have hnq : (0 : ℚ) < n := by exact_mod_cast hn
  unfold f32.ilog2
  split_ifs with h
  · obtain ⟨h1, h2⟩ := f32_log2_spec (n / d) (Nat.div_pos h hd)
    have h3 : 2 ^ f32.log2 (n / d) * d ≤ n := (Nat.le_div_iff_mul_le hd).mp h1
    have h4 : n < 2 ^ (f32.log2 (n / d) + 1) * d := (Nat.div_lt_iff_lt_mul hd).mp h2
    have e1 : ((f32.log2 (n / d) : Int) + 1) = ((f32.log2 (n / d) + 1 : Nat) : Int) := by
      push_cast
      ring
    rw [e1, zpow_natCast, zpow_natCast]
    constructor
    · rw [le_div_iff₀ hdq]
      exact_mod_cast h3
    · rw [div_lt_iff₀ hdq]
      exact_mod_cast h4
  · have hlt : n < d := Nat.lt_of_not_le h
    have hpos : 1 ≤ (d - 1) / n := (Nat.le_div_iff_mul_le hn).mpr (by omega)
    obtain ⟨h1, h2⟩ := f32_log2_spec ((d - 1) / n) hpos
    generalize f32.log2 ((d - 1) / n) = t at h1 h2 ⊢
    have h3 : 2 ^ t * n ≤ d - 1 := (Nat.le_div_iff_mul_le hn).mp h1
    have h4 : d - 1 < 2 ^ (t + 1) * n := (Nat.div_lt_iff_lt_mul hn).mp h2
    have h5 : 2 ^ t * n < d := by omega
    have h6 : d ≤ 2 ^ (t + 1) * n := by omega
    have h5q : (2 : ℚ) ^ t * n < d := by exact_mod_cast h5
    have h6q : (d : ℚ) ≤ 2 ^ (t + 1) * n := by exact_mod_cast h6
    have e1 : (-((t : Int) + 1) + 1) = -(t : Int) := by ring
    have e2 : -((t : Int) + 1) = -((t + 1 : Nat) : Int) := by
      push_cast
      ring
    have p1 : (0 : ℚ) < 2 ^ t := by positivity
    have p2 : (0 : ℚ) < 2 ^ (t + 1) := by positivity
    rw [e1, e2, zpow_neg, zpow_neg, zpow_natCast, zpow_natCast]
    constructor
    · rw [le_div_iff₀ hdq, inv_mul_le_iff₀ p2]
      exact h6q
    · rw [div_lt_iff₀ hdq, lt_inv_mul_iff₀ p1]
      linarith

/-- The rounded quotient lies between the floor and the floor plus one. -/
theorem f32_div_rne_bounds (a b : Nat) :
    a / b ≤ f32.div_rne a b ∧ f32.div_rne a b ≤ a / b + 1 := by
  unfold f32.div_rne
  split_ifs <;> omega

/-- The rounded quotient is a nearest integer to the quotient, and an even one
on a tie. -/
theorem f32_div_rne_nearest (a b : Nat) (hb : 0 < b) :
    |(a : ℚ) / b - (f32.div_rne a b : ℚ)| ≤ 1 / 2 ∧
      (|(a : ℚ) / b - (f32.div_rne a b : ℚ)| = 1 / 2 → f32.div_rne a b % 2 = 0) := by
  have hbq : (0 : ℚ) < b := by exact_mod_cast hb
  have hqr : (a : ℚ) = (b : ℚ) * ((a / b : Nat) : ℚ) + ((a % b : Nat) : ℚ) := by
    exact_mod_cast (Nat.div_add_mod a b).symm
  have hx : (a : ℚ) / b = ((a / b : Nat) : ℚ) + ((a % b : Nat) : ℚ) / b := by
    rw [eq_comm, ← sub_eq_zero]
    field_simp
    linarith
  have hr0 : (0 : ℚ) ≤ ((a % b : Nat) : ℚ) / b := div_nonneg (Nat.cast_nonneg _) hbq.le
  have hr1 : ((a % b : Nat) : ℚ) / b < 1 := by
    rw [div_lt_one hbq]
    exact_mod_cast Nat.mod_lt a hb
  unfold f32.div_rne
  split_ifs with c1 c2 c3
  · have h2 : ((a % b : Nat) : ℚ) / b < 1 / 2 := by
      rw [div_lt_iff₀ hbq]
      have : ((2 * (a % b) : Nat) : ℚ) < (b : ℚ) := by exact_mod_cast c1
      push_cast at this
      linarith
    rw [hx, add_sub_cancel_left, abs_of_nonneg hr0]
    exact ⟨h2.le, fun h => absurd h (ne_of_lt h2)⟩
  · have h2 : 1 / 2 < ((a % b : Nat) : ℚ) / b := by
      rw [lt_div_iff₀ hbq]
      have : (b : ℚ) < ((2 * (a % b) : Nat) : ℚ) := by exact_mod_cast c2
      push_cast at this
      linarith
    have h3 : (a : ℚ) / b - ((a / b + 1 : Nat) : ℚ) = -(1 - ((a % b : Nat) : ℚ) / b) := by
      rw [hx]
      push_cast
      ring
    rw [h3, abs_neg, abs_of_nonneg (by linarith)]
    exact ⟨by linarith, fun h => absurd h (by linarith)⟩
  · have h2 : ((a % b : Nat) : ℚ) / b = 1 / 2 := by
      rw [div_eq_iff hbq.ne.symm]
      have : ((2 * (a % b) : Nat) : ℚ) = (b : ℚ) := by
        have : 2 * (a % b) = b := by omega
        exact_mod_cast this
      push_cast at this
      linarith
    rw [hx, add_sub_cancel_left, abs_of_nonneg hr0]
    exact ⟨h2.le, fun _ => c3⟩
  · have h2 : ((a % b : Nat) : ℚ) / b = 1 / 2 := by
      rw [div_eq_iff hbq.ne.symm]
      have : ((2 * (a % b) : Nat) : ℚ) = (b : ℚ) := by
        have : 2 * (a % b) = b := by omega
        exact_mod_cast this
      push_cast at this
      linarith
    have h3 : (a : ℚ) / b - ((a / b + 1 : Nat) : ℚ) = -(1 - ((a % b : Nat) : ℚ) / b) := by
      rw [hx]
      push_cast
      ring
    rw [h3, abs_neg, abs_of_nonneg (by linarith)]
    exact ⟨by linarith, fun _ => by omega⟩

/-- Rounding a quotient to the nearest integer is monotone in the quotient. -/
theorem f32_div_rne_mono (a1 b1 a2 b2 : Nat) (h1 : 0 < b1) (h2 : 0 < b2)
    (h : a1 * b2 ≤ a2 * b1) : f32.div_rne a1 b1 ≤ f32.div_rne a2 b2 := by
  have d1 := Nat.div_add_mod a1 b1
  have d2 := Nat.div_add_mod a2 b2
  have r1 := Nat.mod_lt a1 h1
  have r2 := Nat.mod_lt a2 h2
  have hq : a1 / b1 ≤ a2 / b2 := by
    rw [Nat.le_div_iff_mul_le h2]
    have h3 : a1 / b1 * b1 ≤ a1 := Nat.div_mul_le_self a1 b1
    have h4 : a1 / b1 * b2 * b1 ≤ a2 * b1 := by
      calc a1 / b1 * b2 * b1 = a1 / b1 * b1 * b2 := by ring
        _ ≤ a1 * b2 := Nat.mul_le_mul_right b2 h3
        _ ≤ a2 * b1 := h
    exact Nat.le_of_mul_le_mul_right h4 h1
  rcases Nat.lt_or_eq_of_le hq with hlt | heq
  · have b1' := (f32_div_rne_bounds a1 b1).2
    have b2' := (f32_div_rne_bounds a2 b2).1
    omega
  · have hr : a1 % b1 * b2 ≤ a2 % b2 * b1 := by
      have e1 : a1 * b2 = b1 * b2 * (a1 / b1) + a1 % b1 * b2 := by
        conv_lhs => rw [← d1]
        ring
      have e2 : a2 * b1 = b1 * b2 * (a1 / b1) + a2 % b2 * b1 := by
        conv_lhs => rw [← d2, ← heq]
        ring
      rw [e1, e2] at h
      omega
    unfold f32.div_rne
    rw [← heq]
    generalize a1 / b1 = q at *
    generalize a1 % b1 = s1 at *
    generalize a2 % b2 = s2 at *
    split_ifs with c1 c2 c3 c4 c5 c6 c7 c8 c9 <;> try omega
    all_goals (exfalso; nlinarith)

/-- A rounded quotient is at most an integer bound of the quotient. -/
theorem f32_div_rne_le (a b c : Nat) (hb : 0 < b) (h : a ≤ c * b) : f32.div_rne a b ≤ c := by
  have h1 := f32_div_rne_mono a b c 1 hb Nat.one_pos (by omega)
  have h2 : f32.div_rne c 1 = c := by
    unfold f32.div_rne
    simp only [Nat.mod_one, Nat.div_one, mul_zero, Nat.lt_one_iff, if_true, Nat.one_pos]
  omega

/-- A rounded quotient is at least an integer bound of the quotient. -/
theorem f32_div_rne_ge (a b c : Nat) (hb : 0 < b) (h : c * b ≤ a) : c ≤ f32.div_rne a b := by
  have h1 := f32_div_rne_mono c 1 a b Nat.one_pos hb (by omega)
  have h2 : f32.div_rne c 1 = c := by
    unfold f32.div_rne
    simp only [Nat.mod_one, Nat.div_one, mul_zero, Nat.lt_one_iff, if_true, Nat.one_pos]
  omega

/-- A power of two with a nonnegative integer exponent is a natural power. -/
theorem f32_zpow_of_nonneg (e : Int) (h : 0 ≤ e) : (2 : ℚ) ^ e = ((2 ^ e.toNat : Nat) : ℚ) := by
  have h1 : e = (e.toNat : Int) := (Int.toNat_of_nonneg h).symm
  conv_lhs => rw [h1]
  rw [zpow_natCast]
  push_cast
  rfl

/-- A power of two with a negative integer exponent is the inverse of a natural
power. -/
theorem f32_zpow_of_neg (e : Int) (h : e < 0) :
    (2 : ℚ) ^ e = (((2 ^ (-e).toNat : Nat) : ℚ))⁻¹ := by
  have h1 : e = -((-e).toNat : Int) := by
    rw [Int.toNat_of_nonneg (by omega)]
    ring
  conv_lhs => rw [h1]
  rw [zpow_neg, zpow_natCast]
  push_cast
  rfl

/-- The significand of a rounding is at most `c` when the quotient is at most
`c * 2^e`. -/
theorem f32_round_sig_le (n d c : Nat) (e : Int) (hd : 0 < d)
    (h : (n : ℚ) / d ≤ c * (2 : ℚ) ^ e) : f32.round_sig n d e ≤ c := by
  have hdq : (0 : ℚ) < d := by exact_mod_cast hd
  unfold f32.round_sig
  split_ifs with he
  · rw [f32_zpow_of_nonneg e he, div_le_iff₀ hdq] at h
    apply f32_div_rne_le _ _ _ (Nat.mul_pos hd (Nat.pow_pos (by norm_num)))
    have h2 : (n : ℚ) ≤ ((c * (d * 2 ^ e.toNat) : Nat) : ℚ) := by
      push_cast at h ⊢
      linarith
    exact_mod_cast h2
  · have hp : (0 : ℚ) < ((2 ^ (-e).toNat : Nat) : ℚ) := by positivity
    rw [f32_zpow_of_neg e (by omega), div_le_iff₀ hdq] at h
    apply f32_div_rne_le _ _ _ hd
    have h2 : ((n * 2 ^ (-e).toNat : Nat) : ℚ) ≤ ((c * d : Nat) : ℚ) := by
      rw [Nat.cast_mul, Nat.cast_mul]
      calc (n : ℚ) * ((2 ^ (-e).toNat : Nat) : ℚ)
          ≤ (c : ℚ) * (((2 ^ (-e).toNat : Nat) : ℚ))⁻¹ * d * ((2 ^ (-e).toNat : Nat) : ℚ) :=
            mul_le_mul_of_nonneg_right h hp.le
        _ = (c : ℚ) * d := by
            field_simp
    exact_mod_cast h2

/-- The significand of a rounding is at least `c` when the quotient is at least
`c * 2^e`. -/
theorem f32_round_sig_ge (n d c : Nat) (e : Int) (hd : 0 < d)
    (h : c * (2 : ℚ) ^ e ≤ (n : ℚ) / d) : c ≤ f32.round_sig n d e := by
  have hdq : (0 : ℚ) < d := by exact_mod_cast hd
  unfold f32.round_sig
  split_ifs with he
  · rw [f32_zpow_of_nonneg e he, le_div_iff₀ hdq] at h
    apply f32_div_rne_ge _ _ _ (Nat.mul_pos hd (Nat.pow_pos (by norm_num)))
    have h2 : ((c * (d * 2 ^ e.toNat) : Nat) : ℚ) ≤ (n : ℚ) := by
      push_cast at h ⊢
      linarith
    exact_mod_cast h2
  · have hp : (0 : ℚ) < ((2 ^ (-e).toNat : Nat) : ℚ) := by positivity
    rw [f32_zpow_of_neg e (by omega), le_div_iff₀ hdq] at h
    apply f32_div_rne_ge _ _ _ hd
    have h2 : ((c * d : Nat) : ℚ) ≤ ((n * 2 ^ (-e).toNat : Nat) : ℚ) := by
      rw [Nat.cast_mul, Nat.cast_mul]
      calc (c : ℚ) * d
          = (c : ℚ) * (((2 ^ (-e).toNat : Nat) : ℚ))⁻¹ * d * ((2 ^ (-e).toNat : Nat) : ℚ) := by
            field_simp
        _ ≤ (n : ℚ) * ((2 ^ (-e).toNat : Nat) : ℚ) := mul_le_mul_of_nonneg_right h hp.le
    exact_mod_cast h2

/-- At a fixed exponent the significand of a rounding is monotone in the
quotient. -/
theorem f32_round_sig_mono (n1 d1 n2 d2 : Nat) (e : Int) (h1 : 0 < d1) (h2 : 0 < d2)
    (h : (n1 : ℚ) / d1 ≤ (n2 : ℚ) / d2) :
    f32.round_sig n1 d1 e ≤ f32.round_sig n2 d2 e := by
  have hq1 : (0 : ℚ) < d1 := by exact_mod_cast h1
  have hq2 : (0 : ℚ) < d2 := by exact_mod_cast h2
  rw [div_le_div_iff₀ hq1 hq2] at h
  have hn : n1 * d2 ≤ n2 * d1 := by exact_mod_cast h
  unfold f32.round_sig
  split_ifs with he
  · apply f32_div_rne_mono _ _ _ _ (Nat.mul_pos h1 (Nat.pow_pos (by norm_num)))
      (Nat.mul_pos h2 (Nat.pow_pos (by norm_num)))
    calc n1 * (d2 * 2 ^ e.toNat) = n1 * d2 * 2 ^ e.toNat := by ring
      _ ≤ n2 * d1 * 2 ^ e.toNat := Nat.mul_le_mul_right _ hn
      _ = n2 * (d1 * 2 ^ e.toNat) := by ring
  · apply f32_div_rne_mono _ _ _ _ h1 h2
    calc n1 * 2 ^ (-e).toNat * d2 = n1 * d2 * 2 ^ (-e).toNat := by ring
      _ ≤ n2 * d1 * 2 ^ (-e).toNat := Nat.mul_le_mul_right _ hn
      _ = n2 * 2 ^ (-e).toNat * d1 := by ring

/-- The exponent of a rounding is at least `-149`. -/
theorem f32_round_exp_ge (n d : Nat) : -149 ≤ f32.round_exp n d := le_max_right _ _

/-- The significand of a rounding is at most `2^24`. -/
theorem f32_round_sig_le_pow (n d : Nat) (hn : 0 < n) (hd : 0 < d) :
    f32.round_sig n d (f32.round_exp n d) ≤ 2 ^ 24 := by
  apply f32_round_sig_le n d _ _ hd
  have h1 := (f32_ilog2_spec n d hn hd).2
  have h2 : f32.ilog2 n d + 1 ≤ f32.round_exp n d + 24 := by
    have := le_max_left (f32.ilog2 n d - 23) (-149)
    unfold f32.round_exp
    omega
  have h3 : (2 : ℚ) ^ (f32.ilog2 n d + 1) ≤ (2 : ℚ) ^ (f32.round_exp n d + 24) :=
    zpow_le_zpow_right₀ (by norm_num) h2
  have h4 : (2 : ℚ) ^ (f32.round_exp n d + 24) = ((2 ^ 24 : Nat) : ℚ) * 2 ^ f32.round_exp n d := by
    rw [zpow_add₀ (by norm_num)]
    norm_num
    ring
  rw [h4] at h3
  exact le_of_lt (lt_of_lt_of_le h1 h3)

/-- Above the least exponent the significand of a rounding is at least `2^23`. -/
theorem f32_round_sig_ge_pow (n d : Nat) (hn : 0 < n) (hd : 0 < d)
    (he : -149 < f32.round_exp n d) : 2 ^ 23 ≤ f32.round_sig n d (f32.round_exp n d) := by
  apply f32_round_sig_ge n d _ _ hd
  have h1 := (f32_ilog2_spec n d hn hd).1
  have h2 : f32.round_exp n d = f32.ilog2 n d - 23 := by
    unfold f32.round_exp at he ⊢
    rcases max_cases (f32.ilog2 n d - 23) (-149) with ⟨e1, _⟩ | ⟨e1, _⟩
    · exact e1
    · rw [e1] at he
      omega
  have h4 : (2 : ℚ) ^ (f32.ilog2 n d) = ((2 ^ 23 : Nat) : ℚ) * 2 ^ f32.round_exp n d := by
    rw [h2, zpow_sub₀ (by norm_num)]
    norm_num
    field_simp
  rw [← h4]
  exact h1

/-- The binary exponent of a quotient is monotone in the quotient. -/
theorem f32_round_exp_mono (n1 d1 n2 d2 : Nat) (hn1 : 0 < n1) (h1 : 0 < d1) (hn2 : 0 < n2)
    (h2 : 0 < d2) (h : (n1 : ℚ) / d1 ≤ (n2 : ℚ) / d2) :
    f32.round_exp n1 d1 ≤ f32.round_exp n2 d2 := by
  have s1 := (f32_ilog2_spec n1 d1 hn1 h1).1
  have s2 := (f32_ilog2_spec n2 d2 hn2 h2).2
  have h3 : (2 : ℚ) ^ (f32.ilog2 n1 d1) < (2 : ℚ) ^ (f32.ilog2 n2 d2 + 1) := by linarith
  have h4 : f32.ilog2 n1 d1 < f32.ilog2 n2 d2 + 1 :=
    (zpow_lt_zpow_iff_right₀ (by norm_num)).mp h3
  unfold f32.round_exp
  exact max_le_max (by omega) le_rfl

/-- The rounded magnitude is monotone in the quotient. -/
theorem f32_round_key_mono (n1 d1 n2 d2 : Nat) (hn1 : 0 < n1) (h1 : 0 < d1) (hn2 : 0 < n2)
    (h2 : 0 < d2) (h : (n1 : ℚ) / d1 ≤ (n2 : ℚ) / d2) :
    f32.round_key n1 d1 ≤ f32.round_key n2 d2 := by
  have he := f32_round_exp_mono n1 d1 n2 d2 hn1 h1 hn2 h2 h
  have g1 := f32_round_exp_ge n1 d1
  have g2 := f32_round_exp_ge n2 d2
  unfold f32.round_key
  rcases lt_or_eq_of_le he with hlt | heq
  · have u1 := f32_round_sig_le_pow n1 d1 hn1 h1
    have u2 := f32_round_sig_ge_pow n2 d2 hn2 h2 (by omega)
    have e3 : (f32.round_exp n2 d2 + 149).toNat = (f32.round_exp n1 d1 + 149).toNat +
        ((f32.round_exp n2 d2 - f32.round_exp n1 d1).toNat - 1) + 1 := by omega
    rw [e3, pow_succ, pow_add]
    generalize (f32.round_exp n1 d1 + 149).toNat = E at *
    generalize ((f32.round_exp n2 d2 - f32.round_exp n1 d1).toNat - 1) = j at *
    have p1 : 0 < 2 ^ E := Nat.pow_pos (by norm_num)
    have p2 : 1 ≤ 2 ^ j := Nat.pow_pos (by norm_num)
    calc f32.round_sig n1 d1 (f32.round_exp n1 d1) * 2 ^ E ≤ 2 ^ 24 * 2 ^ E :=
          Nat.mul_le_mul_right _ u1
      _ = 2 ^ 23 * (2 ^ E * 1 * 2) := by ring
      _ ≤ 2 ^ 23 * (2 ^ E * 2 ^ j * 2) := by
          apply Nat.mul_le_mul_left
          apply Nat.mul_le_mul_right
          exact Nat.mul_le_mul_left _ p2
      _ ≤ f32.round_sig n2 d2 (f32.round_exp n2 d2) * (2 ^ E * 2 ^ j * 2) :=
          Nat.mul_le_mul_right _ u2
  · rw [← heq]
    apply Nat.mul_le_mul_right
    rw [← heq] at *
    exact f32_round_sig_mono n1 d1 n2 d2 _ h1 h2 h

/-- The result of a rounding: an infinity when the rounded magnitude reaches
`2^128`, otherwise the finite number with that magnitude. -/
theorem f32_round_cases (neg : Bool) (n d : Nat) (hn : 0 < n) (hd : 0 < d) :
    (2 ^ 277 ≤ f32.round_key n d ∧ f32.round neg n d = f32.inf neg) ∨
      (f32.round_key n d < 2 ^ 277 ∧ ∃ m e, f32.round neg n d = f32.fin neg m e ∧ -149 ≤ e ∧
        m * 2 ^ (e + 149).toNat = f32.round_key n d) := by
  have g := f32_round_exp_ge n d
  have u := f32_round_sig_le_pow n d hn hd
  have v := f32_round_sig_ge_pow n d hn hd
  unfold f32.round f32.round_key
  rw [if_neg (by omega)]
  generalize f32.round_sig n d (f32.round_exp n d) = m at *
  obtain ⟨E, hE⟩ : ∃ E : Nat, f32.round_exp n d = (E : Int) - 149 :=
    ⟨(f32.round_exp n d + 149).toNat, by omega⟩
  rw [hE] at v ⊢
  have t1 : ((E : Int) - 149 + 149).toNat = E := by omega
  have t2 : ((E : Int) - 149 + 1 + 149).toNat = E + 1 := by omega
  rw [t1]
  by_cases hm : m = 2 ^ 24
  · rw [if_pos hm]
    by_cases hb : 104 < (E : Int) - 149 + 1
    · rw [if_pos hb]
      left
      refine ⟨?_, rfl⟩
      have hp : 2 ^ 253 ≤ 2 ^ E := Nat.pow_le_pow_right (by norm_num) (by omega)
      rw [hm]
      calc 2 ^ 277 = 2 ^ 24 * 2 ^ 253 := by norm_num
        _ ≤ 2 ^ 24 * 2 ^ E := Nat.mul_le_mul_left _ hp
    · rw [if_neg hb]
      right
      have hp : 2 ^ E ≤ 2 ^ 252 := Nat.pow_le_pow_right (by norm_num) (by omega)
      refine ⟨?_, 2 ^ 23, (E : Int) - 149 + 1, rfl, by omega, ?_⟩
      · rw [hm]
        calc 2 ^ 24 * 2 ^ E ≤ 2 ^ 24 * 2 ^ 252 := Nat.mul_le_mul_left _ hp
          _ < 2 ^ 277 := by norm_num
      · rw [t2, hm, pow_succ]
        ring
  · rw [if_neg hm]
    have hlt : m < 2 ^ 24 := lt_of_le_of_ne u hm
    by_cases hb : 104 < (E : Int) - 149
    · rw [if_pos hb]
      left
      refine ⟨?_, rfl⟩
      have hp : 2 ^ 254 ≤ 2 ^ E := Nat.pow_le_pow_right (by norm_num) (by omega)
      have hv : 2 ^ 23 ≤ m := v (by omega)
      calc 2 ^ 277 = 2 ^ 23 * 2 ^ 254 := by norm_num
        _ ≤ m * 2 ^ E := Nat.mul_le_mul hv hp
    · rw [if_neg hb]
      right
      have hp : 2 ^ E ≤ 2 ^ 253 := Nat.pow_le_pow_right (by norm_num) (by omega)
      refine ⟨?_, m, (E : Int) - 149, rfl, by omega, by rw [t1]⟩
      calc m * 2 ^ E ≤ m * 2 ^ 253 := Nat.mul_le_mul_left _ hp
        _ < 2 ^ 24 * 2 ^ 253 := Nat.mul_lt_mul_of_pos_right hlt (by norm_num)
        _ = 2 ^ 277 := by norm_num

/-- The comparison `<=` of two finite floats without sign is the comparison of
their magnitudes. -/
theorem f32_le_fin_iff (m n : Nat) (e k : Int) :
    f32.le (f32.fin false m e) (f32.fin false n k) = true ↔
      m * 2 ^ (e + 149).toNat ≤ n * 2 ^ (k + 149).toNat := by
  simp only [f32.le, f32.key, decide_eq_true_eq, Bool.false_eq_true, if_false, Nat.cast_le]

/-- Rounding is monotone: a smaller quotient does not round to a larger float. -/
theorem f32_round_le_round (n1 d1 n2 d2 : Nat) (hn1 : 0 < n1) (h1 : 0 < d1) (hn2 : 0 < n2)
    (h2 : 0 < d2) (h : (n1 : ℚ) / d1 ≤ (n2 : ℚ) / d2) :
    f32.le (f32.round false n1 d1) (f32.round false n2 d2) = true := by
  have hk := f32_round_key_mono n1 d1 n2 d2 hn1 h1 hn2 h2 h
  rcases f32_round_cases false n1 d1 hn1 h1 with ⟨a1, r1⟩ | ⟨a1, m1, e1, r1, _, k1⟩ <;>
    rcases f32_round_cases false n2 d2 hn2 h2 with ⟨a2, r2⟩ | ⟨a2, m2, e2, r2, _, k2⟩
  · rw [r1, r2]
    rfl
  · exact absurd (lt_of_le_of_lt (le_trans a1 hk) a2) (lt_irrefl _)
  · rw [r1, r2]
    rfl
  · rw [r1, r2, f32_le_fin_iff, k1, k2]
    exact hk

/-- A float rounded from a positive quotient is not below zero. -/
theorem f32_zero_le_round (n d : Nat) (hn : 0 < n) (hd : 0 < d) :
    f32.le (f32.lit 0 1) (f32.round false n d) = true := by
  have hz : f32.lit 0 1 = f32.fin false 0 (-149) := rfl
  rw [hz]
  rcases f32_round_cases false n d hn hd with ⟨_, r⟩ | ⟨_, m, e, r, _, _⟩
  · rw [r]
    rfl
  · rw [r, f32_le_fin_iff]
    simp only [zero_mul, Nat.zero_le]

/-- The conversion of a positive `int` up to `2^31` is a finite positive float
whose magnitude is the rounded magnitude of the integer. -/
theorem f32_of_int_pos (a : Int) (h0 : 0 < a) (h1 : a ≤ 2147483648) :
    ∃ m e, f32.of_int a = f32.fin false m e ∧ -149 ≤ e ∧ 0 < m ∧
      m * 2 ^ (e + 149).toNat = f32.round_key a.natAbs 1 := by
  have hpos : 0 < a.natAbs := by omega
  have hq1 : ((1 : Nat) : ℚ) / ((1 : Nat) : ℚ) ≤ (a.natAbs : ℚ) / ((1 : Nat) : ℚ) := by
    have : (1 : ℚ) ≤ (a.natAbs : ℚ) := by exact_mod_cast hpos
    simpa using this
  have hq2 : (a.natAbs : ℚ) / ((1 : Nat) : ℚ) ≤ ((2147483648 : Nat) : ℚ) / ((1 : Nat) : ℚ) := by
    have : (a.natAbs : ℚ) ≤ ((2147483648 : Nat) : ℚ) := by
      have h3 : a.natAbs ≤ 2147483648 := by omega
      exact_mod_cast h3
    simpa using this
  have lo := f32_round_key_mono 1 1 a.natAbs 1 Nat.one_pos Nat.one_pos hpos Nat.one_pos hq1
  have hi := f32_round_key_mono a.natAbs 1 2147483648 1 hpos Nat.one_pos (by norm_num)
    Nat.one_pos hq2
  have c1 : f32.round_key 1 1 = 2 ^ 149 := by decide
  have c2 : f32.round_key 2147483648 1 = 2 ^ 180 := by decide
  have hneg : decide (a < 0) = false := by
    rw [decide_eq_false_iff_not]
    omega
  unfold f32.of_int
  rw [hneg]
  rcases f32_round_cases false a.natAbs 1 hpos Nat.one_pos with ⟨a1, _⟩ | ⟨_, m, e, r, g, k⟩
  · rw [c2] at hi
    exact absurd (lt_of_le_of_lt (le_trans a1 hi) (by norm_num)) (lt_irrefl _)
  · refine ⟨m, e, r, g, ?_, k⟩
    rcases Nat.eq_zero_or_pos m with hm | hm
    · rw [hm, zero_mul] at k
      rw [← k, c1] at lo
      exact absurd lo (by norm_num)
    · exact hm

/-- The quotient of two positive finite floats is the rounding of the quotient
of their magnitudes. -/
theorem f32_div_fin (m n : Nat) (e k : Int) (he : -149 ≤ e) (hk : -149 ≤ k) (hm : 0 < m)
    (hn : 0 < n) :
    ∃ A B, 0 < A ∧ 0 < B ∧
      f32.div (f32.fin false m e) (f32.fin false n k) = f32.round false A B ∧
      (A : ℚ) / B = ((m * 2 ^ (e + 149).toNat : Nat) : ℚ) / ((n * 2 ^ (k + 149).toNat : Nat) : ℚ) := by
  obtain ⟨E, rfl⟩ : ∃ E : Nat, e = (E : Int) - 149 := ⟨(e + 149).toNat, by omega⟩
  obtain ⟨K, rfl⟩ : ∃ K : Nat, k = (K : Int) - 149 := ⟨(k + 149).toNat, by omega⟩
  have t1 : ((E : Int) - 149 + 149).toNat = E := by omega
  have t2 : ((K : Int) - 149 + 149).toNat = K := by omega
  have hmq : (m : ℚ) ≠ 0 := by exact_mod_cast hm.ne.symm
  have hnq : (n : ℚ) ≠ 0 := by exact_mod_cast hn.ne.symm
  simp only [f32.div]
  rw [if_neg (by omega : ¬ n = 0), t1, t2]
  by_cases h : (K : Int) - 149 ≤ (E : Int) - 149
  · rw [if_pos h]
    have t3 : ((E : Int) - 149 - ((K : Int) - 149)).toNat = E - K := by omega
    have hE : E = (E - K) + K := by omega
    refine ⟨m * 2 ^ (E - K), n, Nat.mul_pos hm (Nat.pow_pos (by norm_num)), hn, by rw [t3]; rfl,
      ?_⟩
    conv_rhs => rw [hE, pow_add]
    push_cast
    field_simp
    ring
  · rw [if_neg h]
    have t3 : ((K : Int) - 149 - ((E : Int) - 149)).toNat = K - E := by omega
    have hK : K = (K - E) + E := by omega
    refine ⟨m, n * 2 ^ (K - E), hm, Nat.mul_pos hn (Nat.pow_pos (by norm_num)), by rw [t3]; rfl,
      ?_⟩
    conv_rhs => rw [hK, pow_add]
    push_cast
    field_simp
    ring

/-- Rounding the quotient of a positive natural by itself gives `1.0f`. -/
theorem f32_round_self (n : Nat) (hn : 0 < n) : f32.round false n n = f32.lit 1 1 := by
  have hl : f32.ilog2 n n = 0 := by
    unfold f32.ilog2
    rw [if_pos le_rfl, Nat.div_self hn]
    rfl
  have hexp : f32.round_exp n n = -23 := by
    unfold f32.round_exp
    rw [hl]
    rfl
  have hsig : f32.round_sig n n (-23) = 2 ^ 23 := by
    unfold f32.round_sig
    rw [if_neg (by norm_num)]
    have h23 : (-(-23 : Int)).toNat = 23 := rfl
    rw [h23]
    unfold f32.div_rne
    rw [Nat.mul_mod_right, Nat.mul_div_cancel_left _ hn, if_pos (by omega)]
  have hone : f32.lit 1 1 = f32.fin false (2 ^ 23) (-23) := by decide
  unfold f32.round
  rw [if_neg (by omega), hexp, hsig, hone, if_neg (by norm_num), if_neg (by norm_num)]

/-- The fraction `(float)a / T` in binary32 is monotone in the integer `a`, for
positive `int`s that `float` can hold. -/
theorem f32_fraction_mono (a b T : Int) (ha : 0 < a) (hab : a ≤ b) (hb : b ≤ 2147483648)
    (hT0 : 0 < T) (hT : T ≤ 2147483648) :
    f32.le (f32.div (f32.of_int a) (f32.of_int T)) (f32.div (f32.of_int b) (f32.of_int T)) =
      true := by
  obtain ⟨m1, e1, r1, g1, p1, k1⟩ := f32_of_int_pos a ha (by omega)
  obtain ⟨m2, e2, r2, g2, p2, k2⟩ := f32_of_int_pos b (by omega) hb
  obtain ⟨n, k, r3, g3, p3, k3⟩ := f32_of_int_pos T hT0 hT
  obtain ⟨A1, B1, pa1, pb1, d1, q1⟩ := f32_div_fin m1 n e1 k g1 g3 p1 p3
  obtain ⟨A2, B2, pa2, pb2, d2, q2⟩ := f32_div_fin m2 n e2 k g2 g3 p2 p3
  have hq : ((a.natAbs : Nat) : ℚ) / ((1 : Nat) : ℚ) ≤ ((b.natAbs : Nat) : ℚ) / ((1 : Nat) : ℚ) := by
    have h3 : a.natAbs ≤ b.natAbs := by omega
    have : (a.natAbs : ℚ) ≤ (b.natAbs : ℚ) := by exact_mod_cast h3
    simpa using this
  have hk := f32_round_key_mono a.natAbs 1 b.natAbs 1 (by omega) Nat.one_pos (by omega)
    Nat.one_pos hq
  rw [r1, r2, r3, d1, d2]
  apply f32_round_le_round A1 B1 A2 B2 pa1 pb1 pa2 pb2
  rw [q1, q2, k1, k2]
  exact div_le_div_of_nonneg_right (by exact_mod_cast hk) (Nat.cast_nonneg _)

/-- The fraction `(float)a / T` in binary32 lies in `[0, 1]` for `0 < a ≤ T`. -/
theorem f32_fraction_range (a T : Int) (ha : 0 < a) (haT : a ≤ T) (hT : T ≤ 2147483648) :
    f32.le (f32.lit 0 1) (f32.div (f32.of_int a) (f32.of_int T)) = true ∧
      f32.le (f32.div (f32.of_int a) (f32.of_int T)) (f32.lit 1 1) = true := by
  obtain ⟨m1, e1, r1, g1, p1, k1⟩ := f32_of_int_pos a ha (by omega)
  obtain ⟨n, k, r3, g3, p3, k3⟩ := f32_of_int_pos T (by omega) hT
  obtain ⟨A1, B1, pa1, pb1, d1, q1⟩ := f32_div_fin m1 n e1 k g1 g3 p1 p3
  have hq : ((a.natAbs : Nat) : ℚ) / ((1 : Nat) : ℚ) ≤ ((T.natAbs : Nat) : ℚ) / ((1 : Nat) : ℚ) := by
    have h3 : a.natAbs ≤ T.natAbs := by omega
    have : (a.natAbs : ℚ) ≤ (T.natAbs : ℚ) := by exact_mod_cast h3
    simpa using this
  have hk := f32_round_key_mono a.natAbs 1 T.natAbs 1 (by omega) Nat.one_pos (by omega)
    Nat.one_pos hq
  rw [r1, r3, d1]
  refine ⟨f32_zero_le_round A1 B1 pa1 pb1, ?_⟩
  have hpos : (0 : ℚ) < ((n * 2 ^ (k + 149).toNat : Nat) : ℚ) := by
    have : 0 < n * 2 ^ (k + 149).toNat := Nat.mul_pos p3 (Nat.pow_pos (by norm_num))
    exact_mod_cast this
  apply f32_round_le_round A1 B1 1 1 pa1 pb1 Nat.one_pos Nat.one_pos
  rw [q1, k1, k3]
  have h1 : ((1 : Nat) : ℚ) / ((1 : Nat) : ℚ) = 1 := by norm_num
  rw [h1, div_le_one (by rw [← k3]; exact hpos)]
  exact_mod_cast hk

/-- The fraction `(float)T / T` in binary32 is `1.0f`. -/
theorem f32_fraction_self (T : Int) (hT0 : 0 < T) (hT : T ≤ 2147483648) :
    f32.div (f32.of_int T) (f32.of_int T) = f32.lit 1 1 := by
  obtain ⟨n, k, r3, _, p3, _⟩ := f32_of_int_pos T hT0 hT
  rw [r3]
  simp only [f32.div]
  rw [if_neg (by omega : ¬ n = 0), if_pos le_rfl, sub_self, Int.toNat_zero, pow_zero, mul_one]
  exact f32_round_self n p3

/-! ### The order of floats -/

/-- The comparison `<=` of floats is transitive. -/
theorem f32_le_trans (a b c : f32) (h1 : f32.le a b = true) (h2 : f32.le b c = true) :
    f32.le a c = true := by
  rcases a with ⟨s1, m1, e1⟩ | ⟨s1⟩ | _ <;> rcases b with ⟨s2, m2, e2⟩ | ⟨s2⟩ | _ <;>
    rcases c with ⟨s3, m3, e3⟩ | ⟨s3⟩ | _ <;>
    simp only [f32.le, decide_eq_true_eq, Bool.or_eq_true, Bool.not_eq_true',
      Bool.false_eq_true] at h1 h2 ⊢ <;>
    first
      | omega
      | assumption
      | (cases s1 <;> cases s2 <;> cases s3 <;>
          first
            | omega
            | assumption
            | contradiction
            | (revert h1 h2; decide))

/-- From `b < a` and `a <= p` follows `b <= p`. -/
theorem f32_le_of_lt_of_le (b a p : f32) (h1 : f32.lt b a = true) (h2 : f32.le a p = true) :
    f32.le b p = true := by
  rcases a with ⟨s1, m1, e1⟩ | ⟨s1⟩ | _ <;> rcases b with ⟨s2, m2, e2⟩ | ⟨s2⟩ | _ <;>
    rcases p with ⟨s3, m3, e3⟩ | ⟨s3⟩ | _ <;>
    simp only [f32.le, f32.lt, decide_eq_true_eq, Bool.or_eq_true, Bool.and_eq_true,
      Bool.not_eq_true', Bool.false_eq_true] at h1 h2 ⊢ <;>
    first
      | omega
      | assumption
      | (cases s1 <;> cases s2 <;> cases s3 <;>
          first
            | omega
            | assumption
            | contradiction
            | (revert h1 h2; decide))

/-- From `p <= a` and `a < b` follows `p <= b`. -/
theorem f32_le_of_le_of_lt (p a b : f32) (h1 : f32.le p a = true) (h2 : f32.lt a b = true) :
    f32.le p b = true := by
  rcases a with ⟨s1, m1, e1⟩ | ⟨s1⟩ | _ <;> rcases b with ⟨s2, m2, e2⟩ | ⟨s2⟩ | _ <;>
    rcases p with ⟨s3, m3, e3⟩ | ⟨s3⟩ | _ <;>
    simp only [f32.le, f32.lt, decide_eq_true_eq, Bool.or_eq_true, Bool.and_eq_true,
      Bool.not_eq_true', Bool.false_eq_true] at h1 h2 ⊢ <;>
    first
      | omega
      | assumption
      | (cases s1 <;> cases s2 <;> cases s3 <;>
          first
            | omega
            | assumption
            | contradiction
            | (revert h1 h2; decide))

/-- Two floats that are not NaN are comparable: when `b < a` fails, `a <= b`
holds. -/
theorem f32_le_of_not_lt (a b : f32) (h : f32.lt b a = false) (ha : f32.le a a = true)
    (hb : f32.le b b = true) : f32.le a b = true := by
  rcases a with ⟨s1, m1, e1⟩ | ⟨s1⟩ | _ <;> rcases b with ⟨s2, m2, e2⟩ | ⟨s2⟩ | _ <;>
    simp only [f32.le, f32.lt, decide_eq_true_eq, decide_eq_false_iff_not, Bool.or_eq_true,
      Bool.and_eq_true, Bool.and_eq_false_iff, Bool.not_eq_true', Bool.not_eq_false',
      Bool.false_eq_true] at h ha hb ⊢ <;>
    first
      | omega
      | assumption
      | (cases s1 <;> cases s2 <;>
          first
            | omega
            | assumption
            | contradiction
            | (revert h ha hb; decide))

/-- A float that is compared successfully is not NaN, so it is `<=` itself. -/
theorem f32_le_self_of_le (a b : f32) (h : f32.le a b = true) :
    f32.le a a = true ∧ f32.le b b = true := by
  rcases a with ⟨s1, m1, e1⟩ | ⟨s1⟩ | _ <;> rcases b with ⟨s2, m2, e2⟩ | ⟨s2⟩ | _ <;>
    simp only [f32.le, decide_eq_true_eq, Bool.or_eq_true, Bool.not_eq_true',
      Bool.false_eq_true, le_refl, true_and, and_true] at h ⊢ <;>
    first
      | omega
      | trivial
      | (cases s1 <;> cases s2 <;> trivial)

/-- On one axis: a coordinate between the bounds of one of two intervals lies
between `std::min` of the lower and `std::max` of the upper bounds. -/
theorem f32_axis_union (lo1 hi1 lo2 hi2 p : f32) (v1 : f32.le lo1 hi1 = true)
    (v2 : f32.le lo2 hi2 = true)
    (h : (f32.le lo1 p = true ∧ f32.le p hi1 = true) ∨
      (f32.le lo2 p = true ∧ f32.le p hi2 = true)) :
    f32.le (stdmin_f32 lo1 lo2) p = true ∧ f32.le p (stdmax_f32 hi1 hi2) = true := by
  obtain ⟨n1, n2⟩ := f32_le_self_of_le lo1 hi1 v1
  obtain ⟨n3, n4⟩ := f32_le_self_of_le lo2 hi2 v2
  unfold stdmin_f32 stdmax_f32
  rcases h with ⟨a1, a2⟩ | ⟨a1, a2⟩
  · constructor
    · by_cases c : f32.lt lo2 lo1 = true
      · rw [if_pos c]
        exact f32_le_of_lt_of_le lo2 lo1 p c a1
      · rw [if_neg c]
        exact a1
    · by_cases c : f32.lt hi1 hi2 = true
      · rw [if_pos c]
        exact f32_le_of_le_of_lt p hi1 hi2 a2 c
      · rw [if_neg c]
        exact a2
  · constructor
    · by_cases c : f32.lt lo2 lo1 = true
      · rw [if_pos c]
        exact a1
      · rw [if_neg c]
        exact f32_le_trans lo1 lo2 p
          (f32_le_of_not_lt lo1 lo2 (Bool.eq_false_iff.mpr c) n1 n3) a1
    · by_cases c : f32.lt hi1 hi2 = true
      · rw [if_pos c]
        exact a2
      · rw [if_neg c]
        exact f32_le_trans p hi2 hi1 a2
          (f32_le_of_not_lt hi2 hi1 (Bool.eq_false_iff.mpr c) n4 n2)

/-- In binary32 a point between the corners of one of two well-formed boxes
lies between the corners of their union. -/
theorem bboxunion_f32_corners (a b : bbox f32) (va : a.valid_f32) (vb : b.valid_f32)
    (p : float3 f32) (h : a.inside_f32 p ∨ b.inside_f32 p) :
    (bboxunion_f32 a b).inside_f32 p := by
  obtain ⟨va1, va2, va3⟩ := va
  obtain ⟨vb1, vb2, vb3⟩ := vb
  simp only [bbox.inside_f32, bboxunion_f32, vmin_f32, vmax_f32] at h ⊢
  refine ⟨f32_axis_union _ _ _ _ _ va1 vb1 ?_, f32_axis_union _ _ _ _ _ va2 vb2 ?_,
    f32_axis_union _ _ _ _ _ va3 vb3 ?_⟩
  · rcases h with h | h
    · exact Or.inl h.1
    · exact Or.inr h.1
  · rcases h with h | h
    · exact Or.inl h.2.1
    · exact Or.inr h.2.1
  · rcases h with h | h
    · exact Or.inl h.2.2
    · exact Or.inr h.2.2

/-- In binary32 a box that contains two boxes contains their union: each
corner coordinate of the union is a corner coordinate of one of the two. -/
theorem bboxunion_f32_enclosed (a b c : bbox f32) (ha : contains_f32 c a = true)
    (hb : contains_f32 c b = true) : contains_f32 c (bboxunion_f32 a b) = true := by
  simp only [contains_f32, bbox.contains_f32, bboxunion_f32, vmin_f32, vmax_f32, stdmin_f32,
    stdmax_f32, Bool.and_eq_true] at ha hb ⊢
  obtain ⟨⟨⟨a1, a2⟩, a3⟩, ⟨a4, a5⟩, a6⟩ := ha
  obtain ⟨⟨⟨b1, b2⟩, b3⟩, ⟨b4, b5⟩, b6⟩ := hb
  refine ⟨⟨⟨?_, ?_⟩, ?_⟩, ⟨?_, ?_⟩, ?_⟩ <;> split_ifs <;> assumption

/-! ### The range of a quotient `a / (a + b)` of squares in binary32 -/

/-- A finite result of rounding is in the form of the encoding: the significand
is below `2^24`, and at least `2^23` above the least exponent. -/
theorem f32_round_fin_canonical (neg : Bool) (n d : Nat) (hn : 0 < n) (hd : 0 < d) (m : Nat)
    (e : Int) (h : f32.round neg n d = f32.fin neg m e) :
    -149 ≤ e ∧ m < 2 ^ 24 ∧ (-149 < e → 2 ^ 23 ≤ m) := by
  have g := f32_round_exp_ge n d
  have u := f32_round_sig_le_pow n d hn hd
  have v := f32_round_sig_ge_pow n d hn hd
  unfold f32.round at h
  rw [if_neg (by omega)] at h
  by_cases hm : f32.round_sig n d (f32.round_exp n d) = 2 ^ 24
  · rw [if_pos hm] at h
    by_cases hb : 104 < f32.round_exp n d + 1
    · rw [if_pos hb] at h
      exact absurd h (by simp)
    · rw [if_neg hb] at h
      injection h with _ h2 h3
      subst h2 h3
      exact ⟨by omega, by norm_num, fun _ => le_rfl⟩
  · rw [if_neg hm] at h
    by_cases hb : 104 < f32.round_exp n d
    · rw [if_pos hb] at h
      exact absurd h (by simp)
    · rw [if_neg hb] at h
      injection h with _ h2 h3
      subst h2 h3
      exact ⟨g, lt_of_le_of_ne u hm, v⟩

/-- The binary exponent of a quotient is the only integer `L` with
`2^L ≤ n / d < 2^(L+1)`. -/
theorem f32_ilog2_unique (n d : Nat) (L : Int) (hn : 0 < n) (hd : 0 < d)
    (h1 : (2 : ℚ) ^ L ≤ (n : ℚ) / d) (h2 : (n : ℚ) / d < (2 : ℚ) ^ (L + 1)) :
    f32.ilog2 n d = L := by
  obtain ⟨s1, s2⟩ := f32_ilog2_spec n d hn hd
  have a : f32.ilog2 n d < L + 1 :=
    (zpow_lt_zpow_iff_right₀ (by norm_num)).mp (lt_of_le_of_lt s1 h2)
  have b : L < f32.ilog2 n d + 1 :=
    (zpow_lt_zpow_iff_right₀ (by norm_num)).mp (lt_of_le_of_lt h1 s2)
  omega

/-- The significand of a quotient that is `c * 2^e` exactly is `c`. -/
theorem f32_round_sig_exact (n d c : Nat) (e : Int) (hd : 0 < d)
    (h : (n : ℚ) / d = c * (2 : ℚ) ^ e) : f32.round_sig n d e = c :=
  le_antisymm (f32_round_sig_le n d c e hd h.le) (f32_round_sig_ge n d c e hd h.ge)

/-- Rounding leaves the magnitude of a positive float unchanged. -/
theorem f32_round_key_of_canonical (m : Nat) (e : Int) (he : -149 ≤ e) (hm0 : 0 < m)
    (hm : m < 2 ^ 24) (hn : -149 < e → 2 ^ 23 ≤ m) :
    f32.round_key (m * 2 ^ (e + 149).toNat) (2 ^ 149) = m * 2 ^ (e + 149).toNat := by
  obtain ⟨E, rfl⟩ : ∃ E : Nat, e = (E : Int) - 149 := ⟨(e + 149).toNat, by omega⟩
  have t1 : ((E : Int) - 149 + 149).toNat = E := by omega
  rw [t1]
  have hK : 0 < m * 2 ^ E := Nat.mul_pos hm0 (Nat.pow_pos (by norm_num))
  have hD : 0 < 2 ^ 149 := Nat.pow_pos (by norm_num)
  have hq : ((m * 2 ^ E : Nat) : ℚ) / ((2 ^ 149 : Nat) : ℚ) = (m : ℚ) * (2 : ℚ) ^ ((E : Int) - 149) := by
    rw [zpow_sub₀ (by norm_num), zpow_natCast]
    push_cast
    norm_num
    ring
  have hmq : (0 : ℚ) < (m : ℚ) := by exact_mod_cast hm0
  have hmn : m < 16777216 := by
    norm_num at hm
    exact hm
  have hmq2 : (m : ℚ) < 16777216 := by exact_mod_cast hmn
  have hp : (0 : ℚ) < (2 : ℚ) ^ ((E : Int) - 149) := zpow_pos (by norm_num) _
  have hexp : f32.round_exp (m * 2 ^ E) (2 ^ 149) = (E : Int) - 149 := by
    unfold f32.round_exp
    by_cases hE : -149 < (E : Int) - 149
    · have h23n : 8388608 ≤ m := by
        have h0 := hn hE
        norm_num at h0
        exact h0
      have h23 : (8388608 : ℚ) ≤ (m : ℚ) := by exact_mod_cast h23n
      have hl : f32.ilog2 (m * 2 ^ E) (2 ^ 149) = 23 + ((E : Int) - 149) := by
        apply f32_ilog2_unique _ _ _ hK hD
        · rw [hq, zpow_add₀ (by norm_num)]
          norm_num
          exact mul_le_mul_of_nonneg_right h23 hp.le
        · rw [hq, (by ring : 23 + ((E : Int) - 149) + 1 = 24 + ((E : Int) - 149)),
            zpow_add₀ (by norm_num)]
          norm_num
          exact mul_lt_mul_of_pos_right hmq2 hp
      rw [hl, (by ring : 23 + ((E : Int) - 149) - 23 = (E : Int) - 149)]
      exact max_eq_left (by omega)
    · have hE0 : (E : Int) - 149 = -149 := by omega
      obtain ⟨s1, _⟩ := f32_ilog2_spec (m * 2 ^ E) (2 ^ 149) hK hD
      have hlt : (2 : ℚ) ^ f32.ilog2 (m * 2 ^ E) (2 ^ 149) <
          (2 : ℚ) ^ (24 + ((E : Int) - 149)) := by
        refine lt_of_le_of_lt s1 ?_
        rw [hq, zpow_add₀ (by norm_num)]
        norm_num
        exact mul_lt_mul_of_pos_right hmq2 hp
      have hl : f32.ilog2 (m * 2 ^ E) (2 ^ 149) < 24 + ((E : Int) - 149) :=
        (zpow_lt_zpow_iff_right₀ (by norm_num)).mp hlt
      rw [hE0] at hl ⊢
      exact max_eq_right (by omega)
  unfold f32.round_key
  rw [hexp, t1, f32_round_sig_exact _ _ m _ hD hq]

/-- The square of a float is a NaN, `+inf`, or the rounding of a quotient of
naturals, so it carries no sign. -/
theorem f32_mul_self_cases (f : f32) :
    f32.mul f f = f32.nan ∨ f32.mul f f = f32.inf false ∨
      ∃ n d, 0 < d ∧ f32.mul f f = f32.round false n d := by
  rcases f with ⟨s, m, e⟩ | ⟨s⟩ | _
  · right
    right
    simp only [f32.mul, f32.round_dyadic, Bool.xor_self]
    split_ifs
    · exact ⟨_, 1, Nat.one_pos, rfl⟩
    · exact ⟨_, _, Nat.pow_pos (by norm_num), rfl⟩
  · right
    left
    simp only [f32.mul, Bool.xor_self]
  · left
    rfl

/-- The rounding of a quotient of naturals is `+0`, `+inf`, or a positive finite
float in the form of the encoding. -/
theorem f32_round_trichotomy (n d : Nat) (hd : 0 < d) :
    f32.round false n d = f32.fin false 0 (-149) ∨ f32.round false n d = f32.inf false ∨
      ∃ m e, f32.round false n d = f32.fin false m e ∧ -149 ≤ e ∧ 0 < m ∧ m < 2 ^ 24 ∧
        (-149 < e → 2 ^ 23 ≤ m) := by
  rcases Nat.eq_zero_or_pos n with hn | hn
  · left
    rw [hn]
    rfl
  · rcases f32_round_cases false n d hn hd with ⟨_, r⟩ | ⟨_, m, e, r, _, _⟩
    · exact Or.inr (Or.inl r)
    · obtain ⟨c1, c2, c3⟩ := f32_round_fin_canonical false n d hn hd m e r
      rcases Nat.eq_zero_or_pos m with hm | hm
      · left
        have he : e = -149 := by
          by_contra hne
          have := c3 (by omega)
          rw [hm] at this
          exact absurd this (by norm_num)
        rw [r, hm, he]
      · exact Or.inr (Or.inr ⟨m, e, r, c1, hm, c2, c3⟩)

/-- The sum of two finite floats without sign, not both zero, is the rounding of
the sum of their magnitudes. -/
theorem f32_add_fin (m m2 : Nat) (e e2 : Int)
    (h : 0 < m * 2 ^ (e + 149).toNat + m2 * 2 ^ (e2 + 149).toNat) :
    f32.add (f32.fin false m e) (f32.fin false m2 e2) =
      f32.round false (m * 2 ^ (e + 149).toNat + m2 * 2 ^ (e2 + 149).toNat) (2 ^ 149) := by
  have hc : ((m * 2 ^ (e + 149).toNat : Nat) : Int) + ((m2 * 2 ^ (e2 + 149).toNat : Nat) : Int) =
      ((m * 2 ^ (e + 149).toNat + m2 * 2 ^ (e2 + 149).toNat : Nat) : Int) := by
    push_cast
    ring
  simp only [f32.add, f32.key, Bool.false_eq_true, if_false]
  rw [hc, if_neg (by omega), Int.natAbs_ofNat]
  have hd : decide (((m * 2 ^ (e + 149).toNat + m2 * 2 ^ (e2 + 149).toNat : Nat) : Int) < 0) =
      false := by
    rw [decide_eq_false_iff_not]
    omega
  rw [hd]
  rfl

/-- The quotient of `+0` by a finite float without sign is a NaN or `+0`. -/
theorem f32_div_zero_fin (s : Nat) (es : Int) :
    f32.div (f32.fin false 0 (-149)) (f32.fin false s es) = f32.nan ∨
      f32.div (f32.fin false 0 (-149)) (f32.fin false s es) = f32.fin false 0 (-149) := by
  simp only [f32.div]
  by_cases hs : s = 0
  · left
    rw [if_pos hs]
    rfl
  · right
    rw [if_neg hs]
    split_ifs
    · rw [zero_mul]
      rfl
    · rfl

/-- The quotient of a finite float without sign by `+inf` is `+0`, which lies in
`[0, 1]`. -/
theorem f32_div_fin_inf (m : Nat) (e : Int) :
    f32.le (f32.fin false 0 (-149)) (f32.div (f32.fin false m e) (f32.inf false)) = true ∧
      f32.le (f32.div (f32.fin false m e) (f32.inf false)) (f32.lit 1 1) = true := by
  have h : f32.div (f32.fin false m e) (f32.inf false) = f32.fin false 0 (-149) := rfl
  rw [h]
  exact ⟨by decide, by decide⟩

/-- In binary32 the quotient `a / (a + b)` of a positive finite float `a` and a
finite float `b` without sign lies in `[0, 1]`. -/
theorem f32_weight_fin (m m2 : Nat) (e e2 : Int) (ce : -149 ≤ e) (cm0 : 0 < m)
    (cm : m < 2 ^ 24) (cn : -149 < e → 2 ^ 23 ≤ m) :
    f32.le (f32.fin false 0 (-149))
        (f32.div (f32.fin false m e) (f32.add (f32.fin false m e) (f32.fin false m2 e2))) =
        true ∧
      f32.le (f32.div (f32.fin false m e) (f32.add (f32.fin false m e) (f32.fin false m2 e2)))
        (f32.lit 1 1) = true := by
  have hKA : 0 < m * 2 ^ (e + 149).toNat := Nat.mul_pos cm0 (Nat.pow_pos (by norm_num))
  have hsum : 0 < m * 2 ^ (e + 149).toNat + m2 * 2 ^ (e2 + 149).toNat := by omega
  have hD : 0 < 2 ^ 149 := Nat.pow_pos (by norm_num)
  rw [f32_add_fin m m2 e e2 hsum]
  have hq : ((m * 2 ^ (e + 149).toNat : Nat) : ℚ) / ((2 ^ 149 : Nat) : ℚ) ≤
      ((m * 2 ^ (e + 149).toNat + m2 * 2 ^ (e2 + 149).toNat : Nat) : ℚ) / ((2 ^ 149 : Nat) : ℚ) := by
    apply div_le_div_of_nonneg_right _ (Nat.cast_nonneg _)
    exact_mod_cast Nat.le_add_right _ _
  have hmono := f32_round_key_mono _ _ _ _ hKA hD hsum hD hq
  rw [f32_round_key_of_canonical m e ce cm0 cm cn] at hmono
  rcases f32_round_cases false _ (2 ^ 149) hsum hD with ⟨_, r⟩ | ⟨_, s, es, r, g, k⟩
  · rw [r]
    exact f32_div_fin_inf m e
  · rw [r]
    have hs : 0 < s := by
      rcases Nat.eq_zero_or_pos s with h0 | h0
      · rw [h0, zero_mul] at k
        omega
      · exact h0
    obtain ⟨A, B, pa, pb, d1, q1⟩ := f32_div_fin m s e es ce g cm0 hs
    rw [d1]
    have hz := f32_zero_le_round A B pa pb
    have hzero : f32.lit 0 1 = f32.fin false 0 (-149) := rfl
    rw [hzero] at hz
    refine ⟨hz, ?_⟩
    apply f32_round_le_round A B 1 1 pa pb Nat.one_pos Nat.one_pos
    have hpos : (0 : ℚ) < ((s * 2 ^ (es + 149).toNat : Nat) : ℚ) := by
      have : 0 < s * 2 ^ (es + 149).toNat := Nat.mul_pos hs (Nat.pow_pos (by norm_num))
      exact_mod_cast this
    have h1 : ((1 : Nat) : ℚ) / ((1 : Nat) : ℚ) = 1 := by norm_num
    rw [q1, h1, div_le_one hpos, k]
    exact_mod_cast hmono

/-- In binary32 the quotient `a / (a + b)` of two squares is a NaN or lies in
`[0, 1]`. -/
theorem f32_weight_range (f g : f32) :
    f32.div (f32.mul f f) (f32.add (f32.mul f f) (f32.mul g g)) = f32.nan ∨
      (f32.le (f32.lit 0 1)
          (f32.div (f32.mul f f) (f32.add (f32.mul f f) (f32.mul g g))) = true ∧
        f32.le (f32.div (f32.mul f f) (f32.add (f32.mul f f) (f32.mul g g)))
          (f32.lit 1 1) = true) := by
  have hzero : f32.lit 0 1 = f32.fin false 0 (-149) := rfl
  have hform : ∀ x : f32, (x = f32.nan ∨ x = f32.inf false ∨
      ∃ n d, 0 < d ∧ x = f32.round false n d) →
      x = f32.nan ∨ x = f32.inf false ∨ x = f32.fin false 0 (-149) ∨
        ∃ m e, x = f32.fin false m e ∧ -149 ≤ e ∧ 0 < m ∧ m < 2 ^ 24 ∧
          (-149 < e → 2 ^ 23 ≤ m) := by
    intro x hx
    rcases hx with h | h | ⟨n, d, hd, h⟩
    · exact Or.inl h
    · exact Or.inr (Or.inl h)
    · rcases f32_round_trichotomy n d hd with t | t | t
      · exact Or.inr (Or.inr (Or.inl (h.trans t)))
      · exact Or.inr (Or.inl (h.trans t))
      · obtain ⟨m, e, r, c⟩ := t
        exact Or.inr (Or.inr (Or.inr ⟨m, e, h.trans r, c⟩))
  have hA := hform _ (f32_mul_self_cases f)
  have hB := hform _ (f32_mul_self_cases g)
  generalize f32.mul f f = A at hA ⊢
  generalize f32.mul g g = B at hB ⊢
  rw [hzero]
  rcases hA with rfl | rfl | rfl | ⟨m, e, rfl, ce, cm0, cm, cn⟩ <;>
    rcases hB with rfl | rfl | rfl | ⟨m2, e2, rfl, ce2, cm02, cm2, cn2⟩
  · exact Or.inl rfl
  · exact Or.inl rfl
  · exact Or.inl rfl
  · exact Or.inl rfl
  · exact Or.inl rfl
  · exact Or.inl rfl
  · exact Or.inl rfl
  · exact Or.inl rfl
  · exact Or.inl rfl
  · exact Or.inr ⟨by decide, by decide⟩
  · exact Or.inl rfl
  · have hsum : 0 < 0 * 2 ^ ((-149 : Int) + 149).toNat + m2 * 2 ^ (e2 + 149).toNat := by
      have : 0 < m2 * 2 ^ (e2 + 149).toNat := Nat.mul_pos cm02 (Nat.pow_pos (by norm_num))
      omega
    rw [f32_add_fin 0 m2 (-149) e2 hsum]
    rcases f32_round_cases false _ (2 ^ 149) hsum (Nat.pow_pos (by norm_num)) with
      ⟨_, r⟩ | ⟨_, s, es, r, _, _⟩
    · rw [r]
      exact Or.inr ⟨by decide, by decide⟩
    · rw [r]
      rcases f32_div_zero_fin s es with h | h
      · exact Or.inl h
      · rw [h]
        exact Or.inr ⟨by decide, by decide⟩
  · exact Or.inl rfl
  · have ha : f32.add (f32.fin false m e) (f32.inf false) = f32.inf false := rfl
    rw [ha]
    exact Or.inr (f32_div_fin_inf m e)
  · exact Or.inr (f32_weight_fin m 0 e (-149) ce cm0 cm cn)
  · exact Or.inr (f32_weight_fin m m2 e e2 ce cm0 cm cn)

/-- In binary32 a weight of `PowerHeuristic` is a NaN or lies in `[0, 1]`. -/
theorem PowerHeuristic_f32_range (nf ng : Int) (fpdf gpdf : f32) :
    PowerHeuristic_f32 nf fpdf ng gpdf = f32.nan ∨
      (f32.le (f32.lit 0 1) (PowerHeuristic_f32 nf fpdf ng gpdf) = true ∧
        f32.le (PowerHeuristic_f32 nf fpdf ng gpdf) (f32.lit 1 1) = true) :=
  f32_weight_range _ _

/-- The reports of `Render` in binary32: the `k`-th fraction (counting from
zero) is the rounded quotient of `(float)(N * (k + 1))` by
`(float)(N * imgres.y * imgres.x)`. -/
theorem Render_reported_fractions_f32 (imgres : int2) (N : Int) :
    reported_fractions_f32 (Render imgres N true) =
      (List.range (imgres.x.toNat * imgres.y.toNat)).map
        (fun (k : Nat) => f32.div (f32.of_int (N * ((k : Int) + 1)))
          (f32.of_int (N * imgres.y * imgres.x))) := by
  unfold reported_fractions_f32
  rw [Render_reports, List.map_map]
  rfl

set_option maxRecDepth 4000 in
/-- Counterexample to claim C15 as stated: in binary32, for a `8192 x 4096`
image with one sample per pixel, the reports number `2^24` and `2^24 + 1` are
both `0.5f`, so the reported sequence is not strictly increasing. -/
theorem Render_progress_f32_not_strict :
    (reported_fractions_f32 (Render ⟨8192, 4096⟩ 1 true))[16777215]? = some (f32.lit 1 2) ∧
      (reported_fractions_f32 (Render ⟨8192, 4096⟩ 1 true))[16777216]? = some (f32.lit 1 2) ∧
      ¬ (reported_fractions_f32 (Render ⟨8192, 4096⟩ 1 true)).Pairwise
          (fun a b => f32.lt a b = true) := by
  have h1 : (reported_fractions_f32 (Render ⟨8192, 4096⟩ 1 true))[16777215]? =
      some (f32.lit 1 2) := by
    rw [Render_reported_fractions_f32, List.getElem?_map, List.getElem?_range (by decide)]
    decide
  have h2 : (reported_fractions_f32 (Render ⟨8192, 4096⟩ 1 true))[16777216]? =
      some (f32.lit 1 2) := by
    rw [Render_reported_fractions_f32, List.getElem?_map, List.getElem?_range (by decide)]
    decide
  refine ⟨h1, h2, ?_⟩
  intro hp
  obtain ⟨i1, e1⟩ := List.getElem?_eq_some_iff.mp h1
  obtain ⟨i2, e2⟩ := List.getElem?_eq_some_iff.mp h2
  have h3 := List.pairwise_iff_getElem.mp hp 16777215 16777216 i1 i2 (by decide)
  rw [e1, e2] at h3
  revert h3
  decide

set_option maxRecDepth 4000 in
/-- Counterexample to claim C25 as stated: in binary32 the weights for one
sample each with the pdfs `0.1f` and `2.0f` sum to `1 - 2^-24`, and the weight
for the pdfs `1e-30f` and `0.f` is NaN (the squares underflow to zero), which
lies in no interval. -/
theorem PowerHeuristic_f32_not_complementary :
    f32.add (PowerHeuristic_f32 1 (f32.lit 1 10) 1 (f32.lit 2 1))
        (PowerHeuristic_f32 1 (f32.lit 2 1) 1 (f32.lit 1 10)) = f32.fin false 16777215 (-24) ∧
      f32.lit 1 1 = f32.fin false 8388608 (-23) ∧
      PowerHeuristic_f32 1 (f32.lit 1 (10 ^ 30)) 1 (f32.lit 0 1) = f32.nan ∧
      f32.le (f32.lit 0 1) (PowerHeuristic_f32 1 (f32.lit 1 (10 ^ 30)) 1 (f32.lit 0 1)) = false := by
  decide

set_option maxRecDepth 4000 in
/-- Claim C29 at the failing input, in binary32: for the resolution
`16777219 x 1` the upper bound `(float)res.x-1` of the clamp is `16777220.f`,
the position `(16777219, 0)` is clamped to `(16777220, 0)` and gets the buffer
index `16777220`, which is not below `res.x * res.y`; and the in-range pixels
`(16777216, 0)` and `(16777217, 0)` get the same index. -/
theorem BufferImagePlane_index_f32_out_of_range :
    f32.sub (f32.of_int 16777219) (f32.of_int 1) = f32.fin false 8388610 1 ∧
      f32.of_int 16777220 = f32.fin false 8388610 1 ∧
      BufferImagePlane.imgpos_f32 ⟨16777219, 1⟩ ⟨16777219, 0⟩ = some ⟨16777220, 0⟩ ∧
      BufferImagePlane.index_f32 ⟨16777219, 1⟩ ⟨16777219, 0⟩ = some 16777220 ∧
      ¬ ((16777220 : Int) < 16777219 * 1) ∧
      BufferImagePlane.index_f32 ⟨16777219, 1⟩ ⟨16777216, 0⟩ = some 16777216 ∧
      BufferImagePlane.index_f32 ⟨16777219, 1⟩ ⟨16777217, 0⟩ = some 16777216 := by
  decide

/-- Counterexample to claim C4 as stated: in binary32, for the boxes
`a = [(0.1f, 0, 0), (0.1f, 1, 1)]` and `b = [(0.1f, 0, 0), (0.2f, 1, 1)]` (both
with `pmin <= pmax`) the point `a.pmin` is contained in `a` and not in
`bboxunion(a, b)`: the centre `0.5f * (0.2f + 0.1f)` and the radius
`0.5f * (0.2f - 0.1f)` of the union are rounded, and the distance of the point
from the centre exceeds the radius by one unit in the last place. -/
theorem bboxunion_f32_loses_point :
    bbox.contains_f32
        ⟨⟨f32.lit 1 10, f32.lit 0 1, f32.lit 0 1⟩, ⟨f32.lit 1 10, f32.lit 1 1, f32.lit 1 1⟩⟩
        ⟨f32.lit 1 10, f32.lit 0 1, f32.lit 0 1⟩ = true ∧
      bbox.contains_f32
        (bboxunion_f32
          ⟨⟨f32.lit 1 10, f32.lit 0 1, f32.lit 0 1⟩, ⟨f32.lit 1 10, f32.lit 1 1, f32.lit 1 1⟩⟩
          ⟨⟨f32.lit 1 10, f32.lit 0 1, f32.lit 0 1⟩, ⟨f32.lit 2 10, f32.lit 1 1, f32.lit 1 1⟩⟩)
        ⟨f32.lit 1 10, f32.lit 0 1, f32.lit 0 1⟩ = false ∧
      f32.le (f32.lit 1 10) (f32.lit 1 10) = true ∧
      f32.le (f32.lit 1 10) (f32.lit 2 10) = true ∧
      f32.le (f32.lit 0 1) (f32.lit 1 1) = true ∧
      f32.abs (f32.sub (bbox.center_f32 ⟨⟨f32.lit 1 10, f32.lit 0 1, f32.lit 0 1⟩,
          ⟨f32.lit 2 10, f32.lit 1 1, f32.lit 1 1⟩⟩).x (f32.lit 1 10)) =
        f32.fin false 13421774 (-28) ∧
      f32.mul (f32.lit 1 2) (bbox.extents_f32 ⟨⟨f32.lit 1 10, f32.lit 0 1, f32.lit 0 1⟩,
          ⟨f32.lit 2 10, f32.lit 1 1, f32.lit 1 1⟩⟩).x = f32.fin false 13421773 (-28) := by
  decide

/-- Claim C4: `bboxunion` is the tight enclosing box.  In binary32, for boxes
`a` and `b` with `pmin <= pmax`, every point between the corners of `a` or of
`b` lies between the corners of `bboxunion(a, b)`, and every box `c` with
`contains(c, a)` and `contains(c, b)` satisfies `contains(c, bboxunion(a, b))`.
In exact arithmetic `bbox::contains` is the test `pmin <= p <= pmax`, every
point contained in `a` or in `b` is contained in `bboxunion(a, b)`, and every
box that contains `a` and `b` contains `bboxunion(a, b)`. -/
theorem bboxunion_tight_enclosing :
    (∀ a b : bbox f32, a.valid_f32 → b.valid_f32 → ∀ p : float3 f32,
        a.inside_f32 p ∨ b.inside_f32 p → (bboxunion_f32 a b).inside_f32 p) ∧
      (∀ a b c : bbox f32, contains_f32 c a = true → contains_f32 c b = true →
        contains_f32 c (bboxunion_f32 a b) = true) ∧
      (∀ (b : bbox α) (p : float3 α), b.contains p = true ↔ b.inside p) ∧
      (∀ a b : bbox α,
        (∀ p : float3 α, a.contains p = true ∨ b.contains p = true →
          (bboxunion a b).contains p = true) ∧
        (∀ c : bbox α, contains c a = true → contains c b = true →
          contains c (bboxunion a b) = true)) :=
  ⟨fun a b va vb p h => bboxunion_f32_corners a b va vb p h,
    fun a b c ha hb => bboxunion_f32_enclosed a b c ha hb,
    fun b p => bbox_contains_iff b p,
    fun a b => bboxunion_exact_enclosing a b⟩

/-- Witness for claim C4: the boxes `[(0.1f, 0, 0), (0.1f, 1, 1)]` and
`[(0.1f, 0, 0), (0.2f, 1, 1)]` and the corner `(0.1f, 0, 0)` of the first. -/
theorem bboxunion_tight_enclosing_witness :
    (bboxunion_f32
        ⟨⟨f32.lit 1 10, f32.lit 0 1, f32.lit 0 1⟩, ⟨f32.lit 1 10, f32.lit 1 1, f32.lit 1 1⟩⟩
        ⟨⟨f32.lit 1 10, f32.lit 0 1, f32.lit 0 1⟩,
          ⟨f32.lit 2 10, f32.lit 1 1, f32.lit 1 1⟩⟩).inside_f32
      ⟨f32.lit 1 10, f32.lit 0 1, f32.lit 0 1⟩ :=
  (bboxunion_tight_enclosing (α := ℚ)).1 _ _
    (by unfold bbox.valid_f32; decide) (by unfold bbox.valid_f32; decide) _
    (Or.inl (by unfold bbox.inside_f32; decide))

/-- Claim C15: for a resolution `W x H` with `W, H ≥ 1`, a sampler with
`num_samples = N ≥ 1` (`N*W*H` within `int` range) and a progress reporter
present, `ImageRenderer::Render` reports exactly `W*H` fractions.  In binary32
the `k`-th (`k = 1..W*H`) is the rounded quotient of `(float)(N*k)` by
`(float)(N*H*W)`, the sequence is non-decreasing, every value lies in `[0, 1]`
and the last value is `1`.  In exact arithmetic the `k`-th fraction is
`k/(W*H)` and the sequence is strictly increasing. -/
theorem Render_progress_fractions (W H N : Int) (hW : 1 ≤ W) (hH : 1 ≤ H) (hN : 1 ≤ N)
    (hrange : N * W * H < 2147483648) :
    (reported_fractions_f32 (Render ⟨W, H⟩ N true) =
        (List.range (W * H).toNat).map (fun (k : Nat) =>
          f32.div (f32.of_int (N * ((k : Int) + 1))) (f32.of_int (N * H * W))) ∧
      (reported_fractions_f32 (Render ⟨W, H⟩ N true)).length = (W * H).toNat ∧
      (reported_fractions_f32 (Render ⟨W, H⟩ N true)).Pairwise
        (fun a b => f32.le a b = true) ∧
      (∀ q ∈ reported_fractions_f32 (Render ⟨W, H⟩ N true),
        f32.le (f32.lit 0 1) q = true ∧ f32.le q (f32.lit 1 1) = true) ∧
      (reported_fractions_f32 (Render ⟨W, H⟩ N true)).getLast? = some (f32.lit 1 1)) ∧
    ((reported_fractions (Render ⟨W, H⟩ N true) : List α) =
        (List.range (W * H).toNat).map (fun (k : Nat) => ((k : α) + 1) / ((W : α) * (H : α))) ∧
      (reported_fractions (Render ⟨W, H⟩ N true) : List α).Pairwise (fun a b => a < b)) := by
  have hex := Render_fractions_exact (α := α) W H N hW hH hN hrange
  refine ⟨?_, hex.1, hex.2.2.1⟩
  have hWH : 1 ≤ W * H := by nlinarith
  have hT : N * H * W ≤ 2147483648 := by nlinarith
  have hnat : W.toNat * H.toNat = (W * H).toNat := by
    have h3 : ((W.toNat * H.toNat : Nat) : Int) = W * H := by
      push_cast
      rw [Int.toNat_of_nonneg (by omega), Int.toNat_of_nonneg (by omega)]
    omega
  have hcast : (((W * H).toNat : Nat) : Int) = W * H := Int.toNat_of_nonneg (by omega)
  have hmain : reported_fractions_f32 (Render ⟨W, H⟩ N true) =
      (List.range (W * H).toNat).map (fun (k : Nat) =>
        f32.div (f32.of_int (N * ((k : Int) + 1))) (f32.of_int (N * H * W))) := by
    rw [Render_reported_fractions_f32, hnat]
  have hbound : ∀ k : Nat, k < (W * H).toNat →
      0 < N * ((k : Int) + 1) ∧ N * ((k : Int) + 1) ≤ N * H * W := by
    intro k hk
    have h1 : (k : Int) + 1 ≤ W * H := by omega
    constructor
    · exact mul_pos (by omega) (by omega)
    · calc N * ((k : Int) + 1) ≤ N * (W * H) := mul_le_mul_of_nonneg_left h1 (by omega)
        _ = N * H * W := by ring
  refine ⟨hmain, ?_, ?_, ?_, ?_⟩
  · rw [hmain, List.length_map, List.length_range]
  · rw [hmain, List.pairwise_map]
    refine List.Pairwise.imp_of_mem ?_ (List.pairwise_lt_range _)
    intro a b ha hb hab
    obtain ⟨a0, _⟩ := hbound a (List.mem_range.mp ha)
    obtain ⟨_, b1⟩ := hbound b (List.mem_range.mp hb)
    have hab2 : N * ((a : Int) + 1) ≤ N * ((b : Int) + 1) :=
      mul_le_mul_of_nonneg_left (by omega) (by omega)
    exact f32_fraction_mono _ _ _ a0 hab2 (by omega) (by nlinarith) hT
  · intro q hq
    rw [hmain] at hq
    obtain ⟨k, hk, rfl⟩ := List.mem_map.mp hq
    obtain ⟨a0, a1⟩ := hbound k (List.mem_range.mp hk)
    exact f32_fraction_range _ _ a0 a1 hT
  · rw [hmain, List.getLast?_map, List.getLast?_range, if_neg (by omega)]
    simp only [Option.map_some']
    congr 1
    have hk4 : N * ((((W * H).toNat - 1 : Nat) : Int) + 1) = N * H * W := by
      have h5 : ((((W * H).toNat - 1 : Nat) : Int) + 1) = W * H := by omega
      rw [h5]
      ring
    rw [hk4]
    exact f32_fraction_self _ (by nlinarith) hT

set_option maxRecDepth 4000 in
/-- Witness for claim C15: a `3 x 2` image with `4` samples per pixel; the
third report is `(float)12 / 24 = 0.5f`. -/
theorem Render_progress_fractions_witness :
    (reported_fractions_f32 (Render ⟨3, 2⟩ 4 true))[2]? = some (f32.lit 1 2) ∧
      (reported_fractions_f32 (Render ⟨3, 2⟩ 4 true)).getLast? = some (f32.lit 1 1) ∧
      (reported_fractions (Render ⟨3, 2⟩ 4 true) : List ℚ) =
        (List.range ((3 : Int) * 2).toNat).map
          (fun (k : Nat) => ((k : ℚ) + 1) / (((3 : Int) : ℚ) * ((2 : Int) : ℚ))) := by
  have h := Render_progress_fractions (α := ℚ) 3 2 4 (by norm_num) (by norm_num) (by norm_num)
    (by norm_num)
  refine ⟨?_, h.1.2.2.2.2, h.2.1⟩
  rw [h.1.1]
  decide

/-- Claim C25: the MIS weights of the two strategies.  In exact arithmetic they
are complementary: when `nf*fpdf` and `ng*gpdf` are not both zero,
`PowerHeuristic(nf, fpdf, ng, gpdf) + PowerHeuristic(ng, gpdf, nf, fpdf) = 1`
and each weight lies in `[0, 1]`.  In binary32 each weight is a NaN or lies in
`[0, 1]`. -/
theorem PowerHeuristic_complementary (nf ng : Int) :
    (∀ fpdf gpdf : α, (nf : α) * fpdf ≠ 0 ∨ (ng : α) * gpdf ≠ 0 →
      PowerHeuristic nf fpdf ng gpdf + PowerHeuristic ng gpdf nf fpdf = 1 ∧
        (0 ≤ PowerHeuristic nf fpdf ng gpdf ∧ PowerHeuristic nf fpdf ng gpdf ≤ 1) ∧
        (0 ≤ PowerHeuristic ng gpdf nf fpdf ∧ PowerHeuristic ng gpdf nf fpdf ≤ 1)) ∧
      (∀ fpdf gpdf : f32,
        PowerHeuristic_f32 nf fpdf ng gpdf = f32.nan ∨
          (f32.le (f32.lit 0 1) (PowerHeuristic_f32 nf fpdf ng gpdf) = true ∧
            f32.le (PowerHeuristic_f32 nf fpdf ng gpdf) (f32.lit 1 1) = true)) :=
  ⟨fun fpdf gpdf hnz => PowerHeuristic_exact_weights nf ng fpdf gpdf hnz,
    fun fpdf gpdf => PowerHeuristic_f32_range nf ng fpdf gpdf⟩

/-- Witness for claim C25: one sample per strategy with pdfs `1/2` and `2`. -/
theorem PowerHeuristic_complementary_witness :
    PowerHeuristic 1 (1 / 2 : ℚ) 1 2 + PowerHeuristic 1 (2 : ℚ) 1 (1 / 2) = 1 :=
  ((PowerHeuristic_complementary (α := ℚ) 1 1).1 (1 / 2) 2 (Or.inl (by norm_num))).1

end Banshee
